import Mathlib

/-!
Louvre view tree: a shallow embedding of `src/lib/core/LView.cpp`.

The view tree is an arena: a view is addressed by a handle (`ViewId`, the
`LView *` of the source) and the private data of every view (`LViewPrivate`)
is looked up in the `World`.  A null pointer is `none`.

Recursive getters of the source (`mapped`, `scene`, `parentSceneView`, `pos`,
`size`, `scalingVector`, `boundingBox`) recurse over parent pointers or child
lists of a mutable graph, so they carry a fuel argument: `none` means that the
fuel ran out before the call returned.

`Float32` is kept abstract (`Float32Ops`): the operations the embedded code
performs on it are the product of two floats, `Int32 *= Float32`, the
comparisons `<` and `!=` and the constants `0.f` and `1.f`.
-/

namespace Louvre

/-- Handle of a view (`LView *`). -/
abbrev ViewId := Nat

/-- Handle of a scene (`LScene *`). -/
abbrev SceneId := Nat

/-- Handle of an output (`LOutput *`). -/
abbrev OutputId := Nat

/-- Modelled from the spec: the type tag of a view, declared in `LView.h`, which is
not among the sources; the spec lists the tags Layer, Surface, Texture,
SolidColor and Scene. -/
inductive ViewType where
  | Layer
  | Surface
  | Texture
  | SolidColor
  | Scene
  deriving DecidableEq, Repr

/-- Operations on `Float32` used by the getters and setters: `mul` is the product of
two floats, `scaleInt x f` is the value an `Int32` holds after `x *= f`, `zero`
and `one` are `0.f` and `1.f`, `lt a b` is `a < b` (and `b > a`), `ne a b` is
`a != b`. -/
class Float32Ops (F : Type) where
  mul : F → F → F
  scaleInt : Int → F → Int
  zero : F
  one : F
  lt : F → F → Bool
  ne : F → F → Bool

/-- Integers stand for `Float32` in concrete examples. -/
instance : Float32Ops Int where
  mul := fun a b => a * b
  scaleInt := fun x f => x * f
  zero := 0
  one := 1
  lt := fun a b => decide (a < b)
  ne := fun a b => decide (a ≠ b)

/-- Private data of a view (`LViewPrivate`) together with the values its virtual
getters `nativeMapped()`, `nativePos()`, `nativeSize()` and `outputs()` return
in the current state.  The clipping rectangle is `(x, y, w, h)`, the colour
factor `(r, g, b, a)`, the blend factors are `GLenum` values.  An iterator into a child list (`parentLink`) is
represented by the view whose child list it points into; the element it
designates is the view itself. -/
structure LViewPrivate (F : Type) where
  type : ViewType
  parent : Option ViewId
  parentLink : Option ViewId
  children : List ViewId
  scene : Option SceneId
  visible : Bool
  nativeMapped : Bool
  repaintCalled : Bool
  outputs : List OutputId
  nativePos : Int × Int
  nativeSize : Int × Int
  scalingVector : F × F
  scalingEnabled : Bool
  parentScalingEnabled : Bool
  parentOffsetEnabled : Bool
  opacity : F
  parentOpacityEnabled : Bool
  clippingEnabled : Bool
  clippingRect : Int × Int × Int × Int
  sFactor : Nat
  dFactor : Nat
  colorFactor : F × F × F × F
  colorFactorEnabled : Bool

/-- Calls into code that is not part of `LView.cpp`; they are recorded in the order
in which they are made. -/
inductive Event where
  | outputRepaint (o : OutputId)
  | markAsChangedOrder (v : ViewId)
  | damageScene (v : ViewId) (sceneView : Option ViewId)
  deriving DecidableEq, Repr

/-- The mutable state the view code works on: the private data of every view, the
compositor's list of views, the `listChanged` flag of every scene and the
recorded calls. -/
structure World (F : Type) where
  view : ViewId → LViewPrivate F
  views : List ViewId
  listChanged : SceneId → Bool
  events : List Event

variable {F : Type}

/-- Replace the private data of view `v`. -/
def World.setView (w : World F) (v : ViewId) (d : LViewPrivate F) : World F :=
  { w with view := fun x => if x = v then d else w.view x }

/-- `LView::parent()`. -/
def parent (w : World F) (v : ViewId) : Option ViewId := (w.view v).parent

/-- `LView::children()`. -/
def children (w : World F) (v : ViewId) : List ViewId := (w.view v).children

/-- `LView::type()`. -/
def type (w : World F) (v : ViewId) : ViewType := (w.view v).type

/-- `LView::visible()`. -/
def visible (w : World F) (v : ViewId) : Bool := (w.view v).visible

/-- `nativeMapped()` of the concrete view class. -/
def nativeMapped (w : World F) (v : ViewId) : Bool := (w.view v).nativeMapped

/-- `LView::mapped()`: `none` when the fuel runs out. -/
def mapped (w : World F) : Nat → ViewId → Option Bool
  | 0, _ => none
  | fuel + 1, v =>
    if type w v = ViewType.Scene ∧ parent w v = none then
      some (visible w v)
    else if visible w v && nativeMapped w v then
      match parent w v with
      | none => some false
      | some p => mapped w fuel p
    else
      some false

/-- Following parent pointers from `v` reaches a view without parent in at most
`n` steps. -/
def rootWithin (w : World F) : Nat → ViewId → Bool
  | 0, v => (parent w v).isNone
  | n + 1, v =>
    match parent w v with
    | none => true
    | some p => rootWithin w n p

/-- The parent chain of `v` is finite. -/
def ChainEnds (w : World F) (v : ViewId) : Prop := ∃ n, rootWithin w n v = true

/-- The view graph is acyclic: no view is its own ancestor. -/
def Acyclic (w : World F) : Prop := ∀ v, ChainEnds w v

/-- The call `v.mapped()` returns `b`: it does so for every large enough fuel. -/
def MappedTo (w : World F) (v : ViewId) (b : Bool) : Prop :=
  ∃ n, ∀ m, n ≤ m → mapped w m v = some b

/-! ## Geometry -/

/-- `Int32` point or size scaled by a float vector (`LPoint::operator*=` with an
`LSizeF` argument), component by component. -/
def scaleBy [Float32Ops F] (p : Int × Int) (s : F × F) : Int × Int :=
  (Float32Ops.scaleInt p.1 s.1, Float32Ops.scaleInt p.2 s.2)

/-- Product of two float vectors (`LSizeF::operator*=`), component by component. -/
def mulVec [Float32Ops F] (a b : F × F) : F × F :=
  (Float32Ops.mul a.1 b.1, Float32Ops.mul a.2 b.2)

/-- `LView::scalingVector(forceIgnoreParent)`. -/
def scalingVector [Float32Ops F] (w : World F) : Nat → ViewId → Bool → Option (F × F)
  | 0, _, _ => none
  | fuel + 1, v, forceIgnoreParent =>
    if forceIgnoreParent then
      some (w.view v).scalingVector
    else
      match parent w v with
      | some p =>
        if (w.view v).parentScalingEnabled then
          match scalingVector w fuel p (decide (type w p = ViewType.Scene)) with
          | some s => some (mulVec (w.view v).scalingVector s)
          | none => none
        else
          some (w.view v).scalingVector
      | none => some (w.view v).scalingVector

/-- `LView::pos()`. -/
def pos [Float32Ops F] (w : World F) : Nat → ViewId → Option (Int × Int)
  | 0, _ => none
  | fuel + 1, v =>
    match parent w v with
    | none => some (w.view v).nativePos
    | some p =>
      let scaled : Option (Int × Int) :=
        if (w.view v).parentScalingEnabled then
          match scalingVector w fuel p (decide (type w p = ViewType.Scene)) with
          | some s => some (scaleBy (w.view v).nativePos s)
          | none => none
        else
          some (w.view v).nativePos
      match scaled with
      | none => none
      | some tmpPos =>
        if (w.view v).parentOffsetEnabled then
          match pos w fuel p with
          | some pp => some (tmpPos.1 + pp.1, tmpPos.2 + pp.2)
          | none => none
        else
          some tmpPos

/-- `LView::size()`. -/
def size [Float32Ops F] (w : World F) (fuel : Nat) (v : ViewId) : Option (Int × Int) :=
  let own : Option (Int × Int) :=
    if (w.view v).scalingEnabled then
      match scalingVector w fuel v true with
      | some s => some (scaleBy (w.view v).nativeSize s)
      | none => none
    else
      some (w.view v).nativeSize
  match own with
  | none => none
  | some tmpSize =>
    match parent w v with
    | some p =>
      if (w.view v).parentScalingEnabled then
        match scalingVector w fuel p (decide (type w p = ViewType.Scene)) with
        | some s => some (scaleBy tmpSize s)
        | none => none
      else
        some tmpSize
    | none => some tmpSize

/-- An axis-aligned box with integer corners (`LBox`). -/
structure LBox where
  x1 : Int
  y1 : Int
  x2 : Int
  y2 : Int
  deriving DecidableEq, Repr

/-- One iteration of the loop of `LView::boundingBox()` for a mapped child whose
bounding box is `childBox`. -/
def growBox (box childBox : LBox) : LBox :=
  let box := if childBox.x1 < box.x1 then { box with x1 := childBox.x1 } else box
  let box := if childBox.y1 < box.y1 then { box with y1 := childBox.y1 } else box
  let box := if childBox.x2 > box.x2 then { box with x2 := childBox.x2 } else box
  let box := if childBox.y2 > box.y2 then { box with y2 := childBox.y2 } else box
  box

/-- The loop over the children in `LView::boundingBox()`; `isMapped` and `childBox`
are the calls `child->mapped()` and `child->boundingBox()`. -/
def boundingBoxLoop (isMapped : ViewId → Option Bool) (childBox : ViewId → Option LBox) :
    List ViewId → LBox → Option LBox
  | [], box => some box
  | child :: rest, box =>
    match isMapped child with
    | none => none
    | some false => boundingBoxLoop isMapped childBox rest box
    | some true =>
      match childBox child with
      | none => none
      | some cb => boundingBoxLoop isMapped childBox rest (growBox box cb)

/-- `LView::boundingBox()`. -/
def boundingBox [Float32Ops F] (w : World F) : Nat → ViewId → Option LBox
  | 0, _ => none
  | fuel + 1, v =>
    match pos w fuel v, size w fuel v with
    | some p, some s =>
      boundingBoxLoop (mapped w fuel) (fun c => boundingBox w fuel c) (children w v)
        { x1 := p.1, y1 := p.2, x2 := p.1 + s.1, y2 := p.2 + s.2 }
    | _, _ => none

/-- Box `a` contains box `b`. -/
def LBox.Contains (a b : LBox) : Prop :=
  a.x1 ≤ b.x1 ∧ a.y1 ≤ b.y1 ∧ b.x2 ≤ a.x2 ∧ b.y2 ≤ a.y2

/-- Every chain of child links below `v` has at most `n` links. -/
def heightWithin (w : World F) : Nat → ViewId → Bool
  | 0, v => (children w v).isEmpty
  | n + 1, v => (children w v).all (fun c => heightWithin w n c)

/-- The subtree below `v` is finite. -/
def FiniteBelow (w : World F) (v : ViewId) : Prop := ∃ n, heightWithin w n v = true

/-- The call `v.boundingBox()` returns `b`: it does so for every large enough fuel. -/
def BoundingBoxTo [Float32Ops F] (w : World F) (v : ViewId) (b : LBox) : Prop :=
  ∃ n, ∀ m, n ≤ m → boundingBox w m v = some b

/-! ## Re-parenting and stacking -/

/-- `LView::scene()`. -/
def scene (w : World F) : Nat → ViewId → Option (Option SceneId)
  | 0, _ => none
  | fuel + 1, v =>
    match (w.view v).scene with
    | some s => some (some s)
    | none =>
      match parent w v with
      | some p => scene w fuel p
      | none => some none

/-- `LView::parentSceneView()`. -/
def parentSceneView (w : World F) : Nat → ViewId → Option (Option ViewId)
  | 0, _ => none
  | fuel + 1, v =>
    match parent w v with
    | some p =>
      if type w p = ViewType.Scene then some (some p) else parentSceneView w fuel p
    | none => some none

/-- Append recorded calls. -/
def World.record (w : World F) (es : List Event) : World F :=
  { w with events := w.events ++ es }

/-- Replace the child list of view `p`. -/
def World.setChildren (w : World F) (p : ViewId) (l : List ViewId) : World F :=
  w.setView p { w.view p with children := l }

/-- `imp()->parent = view` for view `v`. -/
def World.setParentPtr (w : World F) (v : ViewId) (view : Option ViewId) : World F :=
  w.setView v { w.view v with parent := view }

/-- Replace the `parentLink` iterator of view `v`. -/
def World.setParentLink (w : World F) (v : ViewId) (o : Option ViewId) : World F :=
  w.setView v { w.view v with parentLink := o }

/-- `LView::repaint()`; every `LOutput::repaint()` it makes is recorded. -/
def repaint (w : World F) (v : ViewId) : World F :=
  if (w.view v).repaintCalled then
    w
  else
    let w1 := w.record ((w.view v).outputs.map Event.outputRepaint)
    w1.setView v { w1.view v with repaintCalled := true }

/-- Modelled from the spec: `LViewPrivate::markAsChangedOrder()`, whose source file is
missing; the spec only says that a reorder leaves an order-changed mark, so the
call is recorded and nothing of the tree is touched. -/
def markAsChangedOrder (w : World F) (v : ViewId) : World F :=
  w.record [Event.markAsChangedOrder v]

/-- Modelled from the spec: `LViewPrivate::damageScene(sceneView)`, whose source file
is missing; it schedules a damage repaint of the region the view used to occupy
in the render target, so the call is recorded with its argument and nothing of
the tree is touched. -/
def damageScene (w : World F) (v : ViewId) (sceneView : Option ViewId) : World F :=
  w.record [Event.damageScene v sceneView]

/-- `list.erase(imp()->parentLink)`: the node of `v` is unlinked from the child list
its `parentLink` points into. -/
def eraseLink (w : World F) (v : ViewId) : World F :=
  match (w.view v).parentLink with
  | some o => w.setChildren o ((children w o).erase v)
  | none => w

/-- `p->imp()->children.push_back(v)` followed by
`imp()->parentLink = std::prev(p->imp()->children.end())`. -/
def pushBack (w : World F) (p v : ViewId) : World F :=
  (w.setChildren p (children w p ++ [v])).setParentLink v (some p)

/-- `p->imp()->children.push_front(v)` followed by
`imp()->parentLink = p->imp()->children.begin()`. -/
def pushFront (w : World F) (p v : ViewId) : World F :=
  (w.setChildren p (v :: children w p)).setParentLink v (some p)

/-- Insert `x` right after the element `prev` of a list. -/
def insertNext (prev x : ViewId) : List ViewId → List ViewId
  | [] => []
  | a :: l => if a = prev then a :: x :: l else a :: insertNext prev x l

/-- `imp()->parentLink = list.insert(std::next(prev->imp()->parentLink), v)`: the new
node of `v` is linked right after the node of `prev`, in the child list the
`parentLink` of `prev` points into. -/
def insertAtNext (w : World F) (prev v : ViewId) : World F :=
  match (w.view prev).parentLink with
  | some o => (w.setChildren o (insertNext prev v (children w o))).setParentLink v (some o)
  | none => w

/-- `if (s) s->imp()->listChanged = true;` for the scene `s` that `scene()` returned. -/
def markListChanged (w : World F) (s : Option SceneId) : World F :=
  match s with
  | some sc => { w with listChanged := fun x => if x = sc then true else w.listChanged x }
  | none => w

/-- The child list of `x` once the node of `v` is unlinked, which `setParent` does
when `v` has a parent. -/
def childrenDetached (w : World F) (v x : ViewId) : List ViewId :=
  if (parent w v).isSome ∧ (w.view v).parentLink = some x then (children w x).erase v
  else children w x

/-- `LView::setParent(view)`: `none` when the fuel runs out. -/
def setParent (w : World F) (fuel : Nat) (self : ViewId) (view : Option ViewId) :
    Option (World F) :=
  if parent w self = view ∨ view = some self then
    some w
  else
    match scene w fuel self with
    | none => none
    | some s =>
      let w1 : World F := markListChanged w s
      let w2 : World F :=
        match parent w1 self with
        | some _ => eraseLink w1 self
        | none => w1
      let attached : Option (World F) :=
        match view with
        | some p => some (pushBack w2 p self)
        | none =>
          match parentSceneView w2 fuel self with
          | some sv => some (damageScene w2 self sv)
          | none => none
      match attached with
      | none => none
      | some w3 =>
        let w4 := markAsChangedOrder w3 self
        some (w4.setParentPtr self view)

/-- The part of `LView::insertAfter(prev, switchParent)` that follows the parent
switch, for a non-null `prev`. -/
def insertAfterPrev (w : World F) (self prev : ViewId) : World F :=
  let w1 := markAsChangedOrder w self
  let w2 := repaint w1 self
  match parent w2 self with
  | none => w2
  | some p =>
    if (children w2 p).getLast? = some prev then
      pushBack (eraseLink w2 self) p self
    else
      insertAtNext (eraseLink w2 self) prev self

/-- `LView::insertAfter(prev, switchParent)`: `none` when the fuel runs out. -/
def insertAfter (w : World F) (fuel : Nat) (self : ViewId) (prev : Option ViewId)
    (switchParent : Bool) : Option (World F) :=
  if prev = some self then
    some w
  else
    match prev with
    | none =>
      match parent w self with
      | none => some w
      | some p =>
        if (children w p).head? = some self then
          some w
        else
          some (repaint (markAsChangedOrder (pushFront (eraseLink w self) p self) self) self)
    | some pv =>
      if switchParent then
        match setParent w fuel self (parent w pv) with
        | some w1 => some (insertAfterPrev w1 self pv)
        | none => none
      else if parent w pv ≠ parent w self then
        some w
      else
        some (insertAfterPrev w self pv)

/-- The call `v.setParent(view)` returns and leaves the state `w'`: it does so for
every large enough fuel. -/
def SetParentTo (w : World F) (v : ViewId) (view : Option ViewId) (w' : World F) : Prop :=
  ∃ n, ∀ m, n ≤ m → setParent w m v view = some w'

/-- The call `v.insertAfter(prev, switchParent)` returns and leaves the state `w'`: it
does so for every large enough fuel. -/
def InsertAfterTo (w : World F) (v : ViewId) (prev : Option ViewId) (switchParent : Bool)
    (w' : World F) : Prop :=
  ∃ n, ∀ m, n ≤ m → insertAfter w m v prev switchParent = some w'

/-- View `a` is reached from `v` by following `k` parent pointers. -/
def ancestorAt (w : World F) : Nat → ViewId → Option ViewId
  | 0, v => some v
  | k + 1, v =>
    match parent w v with
    | some p => ancestorAt w k p
    | none => none

/-- View `d` is a proper descendant of `v`. -/
def IsProperDescendant (w : World F) (d v : ViewId) : Prop :=
  ∃ k, ancestorAt w (k + 1) d = some v

/-- A call of one of the two re-parenting operations of a view. -/
inductive Call where
  | setParent (self : ViewId) (view : Option ViewId)
  | insertAfter (self : ViewId) (prev : Option ViewId) (switchParent : Bool)

/-- Run a call with the given fuel. -/
def Call.run (w : World F) (fuel : Nat) : Call → Option (World F)
  | Call.setParent self view => Louvre.setParent w fuel self view
  | Call.insertAfter self prev switchParent => Louvre.insertAfter w fuel self prev switchParent

/-- The call `c` returns and leaves the state `w'`: it does so for every large
enough fuel. -/
def CallTo (w : World F) (c : Call) (w' : World F) : Prop :=
  ∃ n, ∀ m, n ≤ m → c.run w m = some w'

/-- The call does not ask for a proper descendant of the view as its new parent (the
argument of `setParent`, or the parent of `prev` in an `insertAfter` that
switches the parent), and it is not an `insertAfter` that switches the parent
with a `prev` that is a child of the view itself: in that call `std::list::insert`
gets an iterator of another list. -/
def Call.KeepsForest (w : World F) : Call → Prop
  | Call.setParent self view => ∀ p, view = some p → ¬ IsProperDescendant w p self
  | Call.insertAfter self prev switchParent =>
    switchParent = true → ∀ pv q, prev = some pv → parent w pv = some q →
      q ≠ self ∧ ¬ IsProperDescendant w q self

/-- A finite sequence of calls, each of which satisfies `Call.KeepsForest` in the
state in which it is made, leads from the first state to the last. -/
inductive GuardedRun : World F → List Call → World F → Prop where
  | nil (w : World F) : GuardedRun w [] w
  | cons (w w1 w2 : World F) (c : Call) (cs : List Call) :
      c.KeepsForest w → CallTo w c w1 → GuardedRun w1 cs w2 → GuardedRun w (c :: cs) w2

/-- The child lists agree with the parent pointers and with the `parentLink`
iterators: `c` is in the child list of `p` exactly when `p` is the parent of `c`,
no child list has a view twice, and the `parentLink` of a view with a parent
points into the child list of that parent. -/
structure SingleMembership (w : World F) : Prop where
  mem_iff : ∀ c p, c ∈ children w p ↔ parent w c = some p
  nodup : ∀ p, (children w p).Nodup
  link : ∀ c p, parent w c = some p → (w.view c).parentLink = some p

/-- Other views keep their relative order: the two lists agree once `v` is removed. -/
def SameOrderExcept (v : ViewId) (l1 l2 : List ViewId) : Prop :=
  l1.filter (fun x => decide (x ≠ v)) = l2.filter (fun x => decide (x ≠ v))

/-! ## Repaint requests and attribute setters -/

/-- The call `v.repaint()` made `n` times in a row, with no frame boundary (which
would clear the repaint flag) in between. -/
def repaintTimes (w : World F) (v : ViewId) : Nat → World F
  | 0 => w
  | n + 1 => repaint (repaintTimes w v n) v

/-- The number of `LOutput::repaint()` calls recorded for output `o`. -/
def outputRepaints (es : List Event) (o : OutputId) : Nat :=
  es.count (Event.outputRepaint o)

/-- `LView::opacity(forceIgnoreParent)`. -/
def opacity [Float32Ops F] (w : World F) : Nat → ViewId → Bool → Option F
  | 0, _, _ => none
  | fuel + 1, v, forceIgnoreParent =>
    if forceIgnoreParent then
      some (w.view v).opacity
    else if (w.view v).parentOpacityEnabled then
      match parent w v with
      | some p =>
        match opacity w fuel p (decide (type w p = ViewType.Scene)) with
        | some o => some (Float32Ops.mul (w.view v).opacity o)
        | none => none
      | none => some (w.view v).opacity
    else
      some (w.view v).opacity

/-- The clamping at the head of `LView::setOpacity`. -/
def clampOpacity [Float32Ops F] (opacity : F) : F :=
  if Float32Ops.lt opacity Float32Ops.zero then Float32Ops.zero
  else if Float32Ops.lt Float32Ops.one opacity then Float32Ops.one
  else opacity

/-- `LView::setOpacity(opacity)`: `none` when the fuel runs out in `mapped()`. -/
def setOpacity [Float32Ops F] (w : World F) (fuel : Nat) (v : ViewId) (opacity : F) :
    Option (World F) :=
  let opacity := clampOpacity opacity
  match mapped w fuel v with
  | none => none
  | some m =>
    let w1 := if m && Float32Ops.ne opacity (w.view v).opacity then repaint w v else w
    some (w1.setView v { w1.view v with opacity := opacity })

/-- `LView::setVisible(visible)`: `none` when the fuel runs out in `mapped()`. -/
def setVisible (w : World F) (fuel : Nat) (v : ViewId) (visible : Bool) : Option (World F) :=
  match mapped w fuel v with
  | none => none
  | some prev =>
    let w1 := w.setView v { w.view v with visible := visible }
    match mapped w1 fuel v with
    | none => none
    | some now => some (if prev != now then repaint w1 v else w1)

/-- `LSizeF::operator!=`, component by component. -/
def neVec [Float32Ops F] (a b : F × F) : Bool :=
  Float32Ops.ne a.1 b.1 || Float32Ops.ne a.2 b.2

/-- `LView::setScalingVector(scalingVector)`: `none` when the fuel runs out in
`mapped()`. -/
def setScalingVector [Float32Ops F] (w : World F) (fuel : Nat) (v : ViewId)
    (scalingVector : F × F) : Option (World F) :=
  match mapped w fuel v with
  | none => none
  | some m =>
    let w1 := if m && neVec scalingVector (w.view v).scalingVector then repaint w v else w
    some (w1.setView v { w1.view v with scalingVector := scalingVector })

/-- `LView::enableClipping(enabled)`. -/
def enableClipping (w : World F) (v : ViewId) (enabled : Bool) : World F :=
  if (w.view v).clippingEnabled != enabled then
    repaint (w.setView v { w.view v with clippingEnabled := enabled }) v
  else
    w

/-- `LView::setClippingRect(rect)`. -/
def setClippingRect (w : World F) (v : ViewId) (rect : Int × Int × Int × Int) : World F :=
  if rect ≠ (w.view v).clippingRect then
    repaint (w.setView v { w.view v with clippingRect := rect }) v
  else
    w

/-- `LView::setBlendFunc(sFactor, dFactor)`. -/
def setBlendFunc (w : World F) (v : ViewId) (sFactor dFactor : Nat) : World F :=
  if (w.view v).sFactor ≠ sFactor ∨ (w.view v).dFactor ≠ dFactor then
    repaint (w.setView v { w.view v with sFactor := sFactor, dFactor := dFactor }) v
  else
    w

/-- `LView::setColorFactor(r, g, b, a)`. -/
def setColorFactor [Float32Ops F] (w : World F) (v : ViewId) (r g b a : F) : World F :=
  let cf := (w.view v).colorFactor
  if Float32Ops.ne cf.1 r || Float32Ops.ne cf.2.1 g || Float32Ops.ne cf.2.2.1 b ||
      Float32Ops.ne cf.2.2.2 a then
    let w1 := repaint (w.setView v { w.view v with colorFactor := (r, g, b, a) }) v
    w1.setView v { w1.view v with
      colorFactorEnabled :=
        Float32Ops.ne r Float32Ops.one || Float32Ops.ne g Float32Ops.one ||
          Float32Ops.ne b Float32Ops.one || Float32Ops.ne a Float32Ops.one }
  else
    w

/-- The call `v.setOpacity(x)` returns and leaves the state `w'`: it does so for every
large enough fuel. -/
def SetOpacityTo [Float32Ops F] (w : World F) (v : ViewId) (x : F) (w' : World F) : Prop :=
  ∃ n, ∀ m, n ≤ m → setOpacity w m v x = some w'

/-- The call `v.setVisible(b)` returns and leaves the state `w'`: it does so for every
large enough fuel. -/
def SetVisibleTo (w : World F) (v : ViewId) (b : Bool) (w' : World F) : Prop :=
  ∃ n, ∀ m, n ≤ m → setVisible w m v b = some w'

/-- The call `v.setScalingVector(s)` returns and leaves the state `w'`: it does so for
every large enough fuel. -/
def SetScalingVectorTo [Float32Ops F] (w : World F) (v : ViewId) (s : F × F)
    (w' : World F) : Prop :=
  ∃ n, ∀ m, n ≤ m → setScalingVector w m v s = some w'

/-- The float `a` is a number: it compares equal to itself. -/
def IsNumber [Float32Ops F] (a : F) : Prop := Float32Ops.ne a a = false

/-! ## Opacity -/

/-- The call `v.opacity(forceIgnoreParent)` returns `r`: it does so for every large
enough fuel. -/
def OpacityTo [Float32Ops F] (w : World F) (v : ViewId) (forceIgnoreParent : Bool) (r : F) :
    Prop :=
  ∃ n, ∀ m, n ≤ m → opacity w m v forceIgnoreParent = some r

/-- The product of the own opacities of `v` and of all its ancestors, taken from the
root towards `v`: `own(v) * (own(p) * (... * own(root)))`. -/
def opacityProduct [Float32Ops F] (w : World F) : Nat → ViewId → Option F
  | 0, _ => none
  | n + 1, v =>
    match parent w v with
    | none => some (w.view v).opacity
    | some p =>
      match opacityProduct w n p with
      | some r => some (Float32Ops.mul (w.view v).opacity r)
      | none => none

/-- The float `a` is a number that is neither below `0.f` nor above `1.f`. -/
def InUnit [Float32Ops F] (a : F) : Prop :=
  Float32Ops.lt a Float32Ops.zero = false ∧ Float32Ops.lt Float32Ops.one a = false ∧
    IsNumber a

/-- Facts about `Float32` that the bounds on opacity rely on: `0.f` and `1.f` are
numbers, neither is below itself, `1.f < 0.f` does not hold, and the product of
two numbers between `0.f` and `1.f` is such a number again. -/
structure UnitLaws (F : Type) [Float32Ops F] : Prop where
  zero_isNumber : IsNumber (Float32Ops.zero : F)
  one_isNumber : IsNumber (Float32Ops.one : F)
  zero_not_lt_zero : Float32Ops.lt (Float32Ops.zero : F) Float32Ops.zero = false
  one_not_lt_one : Float32Ops.lt (Float32Ops.one : F) Float32Ops.one = false
  one_not_lt_zero : Float32Ops.lt (Float32Ops.one : F) Float32Ops.zero = false
  mul_inUnit : ∀ a b : F, InUnit a → InUnit b → InUnit (Float32Ops.mul a b)

/-- The maximum of two floats, as the spec's `max(x, 0)` reads. -/
def maxF [Float32Ops F] (a b : F) : F := if Float32Ops.lt a b then b else a

/-- The minimum of two floats, as the spec's `min(·, 1)` reads. -/
def minF [Float32Ops F] (a b : F) : F := if Float32Ops.lt b a then b else a

/-- The value `min(max(x, 0), 1)` the spec gives for the own opacity after
`setOpacity(x)`. -/
def clampSpec [Float32Ops F] (x : F) : F :=
  minF (maxF x Float32Ops.zero) Float32Ops.one

/-! ## Position along the parent chain -/

/-- The call `v.pos()` returns `r`: it does so for every large enough fuel. -/
def PosTo [Float32Ops F] (w : World F) (v : ViewId) (r : Int × Int) : Prop :=
  ∃ n, ∀ m, n ≤ m → pos w m v = some r

/-- The sum of `nativePos` over `v` and all its ancestors. -/
def nativePosSum (w : World F) : Nat → ViewId → Option (Int × Int)
  | 0, _ => none
  | n + 1, v =>
    match parent w v with
    | none => some (w.view v).nativePos
    | some p =>
      match nativePosSum w n p with
      | some r => some ((w.view v).nativePos.1 + r.1, (w.view v).nativePos.2 + r.2)
      | none => none

/-- The private data of a view with its place in the tree blanked out: what is left
are the attributes that re-parenting does not touch. -/
def withoutLinks (d : LViewPrivate F) : LViewPrivate F :=
  { d with parent := none, parentLink := none, children := [] }

/-- The two states agree on every attribute of every view, except for its place in
the tree. -/
def SameAttributes (w w' : World F) : Prop :=
  ∀ x, withoutLinks (w'.view x) = withoutLinks (w.view x)

/-! ## Destruction of a view -/

/-- The loop `while (!children().empty()) children().front()->setParent(nullptr);` of
`LView::~LView`, with `k` bounding the number of tests of the loop condition; the
result carries the number of iterations made. -/
def orphanChildren (fuel : Nat) : Nat → World F → ViewId → Option (World F × Nat)
  | 0, _, _ => none
  | k + 1, w, self =>
    match children w self with
    | [] => some (w, 0)
    | c :: _ =>
      match setParent w fuel c none with
      | none => none
      | some w1 =>
        match orphanChildren fuel k w1 self with
        | some (w2, n) => some (w2, n + 1)
        | none => none

/-- `LView::~LView`: the view is detached from its parent, its children are
orphaned, and its node is erased from the compositor's list of views.  The
result carries the number of iterations of the orphaning loop; `none` when the
fuel runs out.  The private data freed by `delete m_imp` is left as it is. -/
def LView_destroy (w : World F) (fuel : Nat) (self : ViewId) : Option (World F × Nat) :=
  match setParent w fuel self none with
  | none => none
  | some w1 =>
    match orphanChildren fuel fuel w1 self with
    | none => none
    | some (w2, n) => some ({ w2 with views := w2.views.erase self }, n)

/-- The call `v.scene()` returns `s`: it does so for every large enough fuel. -/
def SceneTo (w : World F) (v : ViewId) (s : Option SceneId) : Prop :=
  ∃ n, ∀ m, n ≤ m → scene w m v = some s

/-! ## Seat handlers (`LSeatPrivate.cpp`) -/

/-- `LCompositor::CompositorState`. -/
inductive CompositorState where
  | Uninitialized
  | Initializing
  | Initialized
  | Uninitializing
  | Pausing
  | Paused
  | Resuming
  deriving DecidableEq, Repr

/-- Calls the seat handlers make into the compositor, the backends, libseat, epoll and
the log; they are recorded in the order in which they are made. -/
inductive SeatEvent where
  | unlock
  | lock
  | graphicResume
  | graphicPause
  | inputResume
  | inputSuspend
  | libseatDisableSeat
  | epollAdd
  | epollDel
  | logDebug
  | enabledChanged
  deriving DecidableEq, Repr

/-- What the seat handlers read and write: `lseat->imp()->enabled`, the values of
`compositor()->state()`, `isGraphicBackendInitialized()` and
`isInputBackendInitialized()`, and the recorded calls. -/
structure SeatWorld where
  enabled : Bool
  state : CompositorState
  graphicBackendInitialized : Bool
  inputBackendInitialized : Bool
  trace : List SeatEvent
  deriving DecidableEq, Repr

/-- Record calls. -/
def SeatWorld.emit (s : SeatWorld) (es : List SeatEvent) : SeatWorld :=
  { s with trace := s.trace ++ es }

/-- `LSeat::LSeatPrivate::seatEnabled`. -/
def seatEnabled (s : SeatWorld) : SeatWorld :=
  let s1 := { s with enabled := true }
  if s1.state ≠ CompositorState.Initialized then
    s1
  else
    let s2 := s1.emit [SeatEvent.unlock]
    let s3 := if s2.graphicBackendInitialized then s2.emit [SeatEvent.graphicResume] else s2
    let s4 := s3.emit [SeatEvent.lock]
    let s5 := if s4.inputBackendInitialized then s4.emit [SeatEvent.inputResume] else s4
    s5.emit [SeatEvent.epollAdd, SeatEvent.logDebug, SeatEvent.enabledChanged]

/-- `LSeat::LSeatPrivate::seatDisabled`. -/
def seatDisabled (s : SeatWorld) : SeatWorld :=
  if !s.enabled then
    s
  else
    let s1 := { s with enabled := false }
    if s1.state ≠ CompositorState.Initialized then
      s1
    else
      let s2 := if s1.inputBackendInitialized then s1.emit [SeatEvent.inputSuspend] else s1
      let s3 := s2.emit [SeatEvent.unlock]
      let s4 := if s3.graphicBackendInitialized then s3.emit [SeatEvent.graphicPause] else s3
      let s5 := s4.emit [SeatEvent.lock]
      s5.emit [SeatEvent.libseatDisableSeat, SeatEvent.epollDel, SeatEvent.logDebug,
        SeatEvent.enabledChanged]

/-- Whether the global lock is held after the recorded calls, given whether it was
held before them. -/
def lockHeldAfter : Bool → List SeatEvent → Bool
  | held, [] => held
  | _, SeatEvent.unlock :: es => lockHeldAfter false es
  | _, SeatEvent.lock :: es => lockHeldAfter true es
  | held, _ :: es => lockHeldAfter held es

/-- Every `pause()` and `resume()` of the graphic backend among the recorded calls is
made while the global lock is released, given whether the lock was held before
the calls. -/
def graphicCallsUnlocked : Bool → List SeatEvent → Bool
  | _, [] => true
  | _, SeatEvent.unlock :: es => graphicCallsUnlocked false es
  | _, SeatEvent.lock :: es => graphicCallsUnlocked true es
  | held, SeatEvent.graphicResume :: es => !held && graphicCallsUnlocked held es
  | held, SeatEvent.graphicPause :: es => !held && graphicCallsUnlocked held es
  | held, _ :: es => graphicCallsUnlocked held es

/-- The recorded calls hold no lock operation and no call of a backend. -/
def noLockNoBackend (es : List SeatEvent) : Bool :=
  es.all fun e =>
    e ≠ SeatEvent.unlock && e ≠ SeatEvent.lock && e ≠ SeatEvent.graphicResume &&
      e ≠ SeatEvent.graphicPause && e ≠ SeatEvent.inputResume && e ≠ SeatEvent.inputSuspend

/-! ## Removal of an output -/

/-- Handle of a thread (`std::thread::id`). -/
abbrev ThreadId := Nat

/-- Modelled from the spec: the states of an output (`LOutput.h` is not among the
sources); the spec lists Uninitialized, Initializing, Initialized, Pausing,
Paused, Resuming and Uninitializing. -/
inductive OutputState where
  | Uninitialized
  | Initializing
  | Initialized
  | Pausing
  | Paused
  | Resuming
  | Uninitializing
  deriving DecidableEq, Repr

/-- The outputs the compositor renders to (`LCompositor::outputs()`), the state and
the rendering thread of every output, and the main thread
(`LCompositor::mainThreadId()`). -/
structure OutputsWorld where
  outputs : List OutputId
  outputState : OutputId → OutputState
  outputThread : OutputId → ThreadId
  mainThreadId : ThreadId

/-- Modelled from the spec: `LCompositor::removeOutput(output)`, declared in
`LCompositor.h`, whose definition (`LCompositor.cpp`) is not among the sources.
By the spec and the remarks at the declaration, a call made from the rendering
thread of the output itself is ignored, a call for an output that was not added
is a no-op, and any other call uninitializes the output and removes it from
`outputs()`.  `caller` is the thread that makes the call. -/
def removeOutput (c : OutputsWorld) (caller : ThreadId) (output : OutputId) : OutputsWorld :=
  if caller = c.outputThread output then
    c
  else if output ∈ c.outputs then
    { c with
      outputs := c.outputs.erase output
      outputState := fun o => if o = output then OutputState.Uninitialized else c.outputState o }
  else
    c

/-! ## Own rect of a view -/

/-- The call `v.size()` returns `r`: it does so for every large enough fuel. -/
def SizeTo [Float32Ops F] (w : World F) (v : ViewId) (r : Int × Int) : Prop :=
  ∃ n, ∀ m, n ≤ m → size w m v = some r

/-- The box `(pos.x, pos.y, pos.x + size.w, pos.y + size.h)` with which
`LView::boundingBox()` starts. -/
def rectBox (p s : Int × Int) : LBox :=
  { x1 := p.1, y1 := p.2, x2 := p.1 + s.1, y2 := p.2 + s.2 }

/-! ## Drag and drop actions (`LDataOffer.cpp`) -/

/-- Handle of a client. -/
abbrev ClientId := Nat

/-- The values of `enum LDNDManager::Action` and of `LOUVRE_DND_NO_ACTION_SET`.  The
headers that declare them are not among the sources, so they are parameters. -/
structure DNDActions where
  /-- `LDNDManager::NoAction`. -/
  NoAction : Nat
  /-- `LDNDManager::Copy`. -/
  Copy : Nat
  /-- `LDNDManager::Move`. -/
  Move : Nat
  /-- `LDNDManager::Ask`. -/
  Ask : Nat
  /-- `LOUVRE_DND_NO_ACTION_SET`, the value of `preferredAction` of an offer that has
  not set its actions. -/
  NoActionSet : Nat

/-- The action values of the Wayland protocol (`wl_data_device_manager.dnd_action`):
no bit for `NoAction`, the bits 0, 1 and 2 for `Copy`, `Move` and `Ask`. -/
def DNDActions.Wayland (K : DNDActions) : Prop :=
  K.NoAction = 0 ∧ K.Copy = 1 ∧ K.Move = 2 ∧ K.Ask = 4

/-- What `updateDNDAction` reads of `dndManager->source()`. -/
structure LDataSource where
  /-- `dataSourceResource()->version()`. -/
  version : Nat
  /-- `dndActions()`. -/
  dndActions : Nat

/-- What `updateDNDAction` reads: the client of `dndManager->focus()` (`none` without
focus), the client and version of `dataOfferResource`,
`dndManager->preferredAction()`, `dndManager->source()`, and the fields
`preferredAction` and `acceptedActions` of the offer. -/
structure DNDState where
  focus : Option ClientId
  offerClient : ClientId
  offerVersion : Nat
  compositorAction : Nat
  source : Option LDataSource
  preferredAction : Nat
  acceptedActions : Nat

/-- The calls `dataOfferResource->action(final)` and
`dndManager->source()->dataSourceResource()->action(final)`. -/
inductive DNDEvent where
  | offerAction (final : Nat)
  | sourceAction (final : Nat)
  deriving DecidableEq, Repr

/-- The action that was sent. -/
def DNDEvent.action : DNDEvent → Nat
  | DNDEvent.offerAction a => a
  | DNDEvent.sourceAction a => a

/-- The statements `final = both; if (compositorAction != NoAction) final = both &
compositorAction;`. -/
def restrictAction (K : DNDActions) (both compositorAction : Nat) : Nat :=
  if compositorAction ≠ K.NoAction then both &&& compositorAction else both

/-- The chain `if (final & Copy) … else if (final & Move) … else if (final & Ask) …
else NoAction`. -/
def chooseAction (K : DNDActions) (final : Nat) : Nat :=
  if final &&& K.Copy ≠ 0 then K.Copy
  else if final &&& K.Move ≠ 0 then K.Move
  else if final &&& K.Ask ≠ 0 then K.Ask
  else K.NoAction

/-- The same chain headed by `if (final & preferredAction) final = preferredAction`. -/
def choosePreferred (K : DNDActions) (final preferredAction : Nat) : Nat :=
  if final &&& preferredAction ≠ 0 then preferredAction
  else if final &&& K.Copy ≠ 0 then K.Copy
  else if final &&& K.Move ≠ 0 then K.Move
  else if final &&& K.Ask ≠ 0 then K.Ask
  else K.NoAction

/-- `LDataOffer::LDataOfferPrivate::updateDNDAction()`: the list of the calls of
`action` it makes, in order. -/
def updateDNDAction (K : DNDActions) (d : DNDState) : List DNDEvent :=
  match d.focus with
  | none => []
  | some focusClient =>
    if focusClient ≠ d.offerClient then []
    else
      match d.source with
      | some src =>
        if 3 ≤ src.version ∧ 3 ≤ d.offerVersion then
          if d.preferredAction = K.NoActionSet then
            [DNDEvent.sourceAction
              (chooseAction K (restrictAction K src.dndActions d.compositorAction))]
          else
            let final := choosePreferred K
              (restrictAction K (src.dndActions &&& d.acceptedActions) d.compositorAction)
              d.preferredAction
            [DNDEvent.offerAction final, DNDEvent.sourceAction final]
        else if 3 ≤ src.version ∧ ¬ 3 ≤ d.offerVersion then
          [DNDEvent.sourceAction
            (chooseAction K (restrictAction K src.dndActions d.compositorAction))]
        else if ¬ 3 ≤ src.version ∧ 3 ≤ d.offerVersion then
          if d.preferredAction ≠ K.NoActionSet then
            [DNDEvent.offerAction (choosePreferred K
              (restrictAction K d.acceptedActions d.compositorAction) d.preferredAction)]
          else []
        else []
      | none =>
        if 3 ≤ d.offerVersion ∧ d.preferredAction ≠ K.NoActionSet then
          [DNDEvent.offerAction (choosePreferred K
            (restrictAction K d.acceptedActions d.compositorAction) d.preferredAction)]
        else []

/-- Action `a` is contained in every applicable mask: in the `dndActions` of a v3
source, in the `acceptedActions` of a v3 offer that has set its actions, and in
the preferred action of the compositor when that is not `NoAction`. -/
def Allowed (K : DNDActions) (d : DNDState) (a : Nat) : Prop :=
  (∀ src, d.source = some src → 3 ≤ src.version → a &&& src.dndActions = a) ∧
  (3 ≤ d.offerVersion → d.preferredAction ≠ K.NoActionSet →
    a &&& d.acceptedActions = a) ∧
  (d.compositorAction ≠ K.NoAction → a &&& d.compositorAction = a)

/-- The v3 offer has set its actions, and its preferred action is an action that is
contained in every applicable mask. -/
def OfferPrefers (K : DNDActions) (d : DNDState) : Prop :=
  3 ≤ d.offerVersion ∧ d.preferredAction ≠ K.NoActionSet ∧
    d.preferredAction ≠ K.NoAction ∧ Allowed K d d.preferredAction

/-- Action `a` is the choice by priority offer-preferred, `Copy`, `Move`, `Ask` among
the actions contained in every applicable mask, and `NoAction` if there is
none. -/
def ChosenByPriority (K : DNDActions) (d : DNDState) (a : Nat) : Prop :=
  (a = K.NoAction ∨ a = K.Copy ∨ a = K.Move ∨ a = K.Ask) ∧ Allowed K d a ∧
  (OfferPrefers K d → a = d.preferredAction) ∧
  (¬ OfferPrefers K d → Allowed K d K.Copy → a = K.Copy) ∧
  (¬ OfferPrefers K d → ¬ Allowed K d K.Copy → Allowed K d K.Move → a = K.Move) ∧
  (¬ OfferPrefers K d → ¬ Allowed K d K.Copy → ¬ Allowed K d K.Move →
    Allowed K d K.Ask → a = K.Ask) ∧
  (¬ OfferPrefers K d → ¬ Allowed K d K.Copy → ¬ Allowed K d K.Move →
    ¬ Allowed K d K.Ask → a = K.NoAction)

/-! ## Paint pass of an output (`LOutputDefault.cpp`) -/

/-- Handle of a surface. -/
abbrev SurfaceId := Nat

/-- The calls made by `LOutput::paintGL()`, in order.  `drawTexture s` is the call
that draws the texture of surface `s`, `drawCursor` the one that draws the cursor
texture. -/
inductive PaintEvent where
  | clearScreen
  | pointerMoveEvent
  | raise (s : SurfaceId)
  | requestNextFrame (s : SurfaceId)
  | sendOutputEnterEvent (s : SurfaceId) (o : OutputId)
  | sendOutputLeaveEvent (s : SurfaceId) (o : OutputId)
  | drawTexture (s : SurfaceId)
  | drawCursor
  deriving DecidableEq, Repr

/-- What the loop reads of a surface: `mapped()`, `minimized()`, `cursorRole()`. -/
structure LSurfaceState where
  mapped : Bool
  minimized : Bool
  cursorRole : Bool

/-- What `LOutput::paintGL()` reads: `compositor()->surfaces()` as the loop sees it,
the state of each surface, `compositor()->outputs()`, the test
`o->rect().intersects(LRect(s->rolePos(), s->size()))`, the test
`surfaceAt(cursor()->pos()) != focus()`, the surface of `dndManager()->icon()`
and `cursor()->hasHardwareSupport(this)`. -/
structure PaintState where
  surfaces : List SurfaceId
  surface : SurfaceId → LSurfaceState
  outputs : List OutputId
  intersects : OutputId → SurfaceId → Bool
  surfaceMovedUnderCursor : Bool
  dndIcon : Option SurfaceId
  hasHardwareSupport : Bool

/-- The test `!s->mapped() || s->minimized() || s->cursorRole()` of the loop. -/
def skipped (st : PaintState) (s : SurfaceId) : Bool :=
  !(st.surface s).mapped || (st.surface s).minimized || (st.surface s).cursorRole

/-- The body of the loop over the surfaces, for the surface `s`. -/
def paintSurface (st : PaintState) (s : SurfaceId) : List PaintEvent :=
  if skipped st s then
    [PaintEvent.requestNextFrame s]
  else
    st.outputs.map (fun o =>
      if st.intersects o s then PaintEvent.sendOutputEnterEvent s o
      else PaintEvent.sendOutputLeaveEvent s o)
    ++ [PaintEvent.drawTexture s, PaintEvent.requestNextFrame s]

/-- The loop `for (LSurface *s : compositor()->surfaces())`. -/
def paintSurfaces (st : PaintState) : List SurfaceId → List PaintEvent
  | [] => []
  | s :: rest => paintSurface st s ++ paintSurfaces st rest

/-- `LOutput::paintGL()` (the default implementation): the calls it makes. -/
def paintGL (st : PaintState) : List PaintEvent :=
  [PaintEvent.clearScreen]
  ++ (if st.surfaceMovedUnderCursor then [PaintEvent.pointerMoveEvent] else [])
  ++ (match st.dndIcon with
      | some icon => [PaintEvent.raise icon]
      | none => [])
  ++ paintSurfaces st st.surfaces
  ++ (if !st.hasHardwareSupport then [PaintEvent.drawCursor] else [])

/-! ## Damage pass of a render target -/

/-- Modelled from the spec: what the damage pass compares of a mapped view, its
effective position and size, its opacity and the identity of its texture. -/
structure ViewLook where
  pos : Int × Int
  size : Int × Int
  opacity : Int
  texture : Nat
  deriving DecidableEq, Repr

/-- Modelled from the spec: the state a render target keeps between two frames, its
rect, whether the scene has reported a change of the child order since the last
frame of this target, and the snapshot of the last frame keyed by view. -/
structure TargetState where
  rect : LBox
  orderChanged : Bool
  snapshot : List (ViewId × ViewLook)

/-- Modelled from the spec: the box of a view in a frame. -/
def lookBox (l : ViewLook) : LBox := rectBox l.pos l.size

/-- Modelled from the spec: a view with zero-area effective size. -/
def zeroArea (l : ViewLook) : Bool := decide (l.size.1 ≤ 0 ∨ l.size.2 ≤ 0)

/-- Modelled from the spec: the damage of one mapped view that intersects the target,
nothing for a zero-area view or a view equal to its snapshot, else the old and the
new box (the new box alone for a view without snapshot). -/
def viewDamage (snapshot : List (ViewId × ViewLook)) (e : ViewId × ViewLook) : List LBox :=
  if zeroArea e.2 then []
  else
    match snapshot.lookup e.1 with
    | some old => if old = e.2 then [] else [lookBox old, lookBox e.2]
    | none => [lookBox e.2]

/-- Modelled from the spec: the walk over the mapped views of the frame. -/
def frameDamage (snapshot : List (ViewId × ViewLook)) :
    List (ViewId × ViewLook) → List LBox
  | [] => []
  | e :: rest => viewDamage snapshot e ++ frameDamage snapshot rest

/-- Modelled from the spec: intersection of a box with the target rect. -/
def clipBox (r b : LBox) : LBox :=
  { x1 := max r.x1 b.x1, y1 := max r.y1 b.y1, x2 := min r.x2 b.x2, y2 := min r.y2 b.y2 }

/-- Modelled from the spec: a box without area. -/
def LBox.isEmpty (b : LBox) : Bool := decide (b.x2 ≤ b.x1 ∨ b.y2 ≤ b.y1)

/-- Modelled from the spec: the damage pass of a target for a frame, the list of the
mapped views that intersect the target with their looks.  With a changed child
order all previous and current boxes are damaged, otherwise the views that
differ from their snapshot; the region is intersected with the target rect; the
snapshot is replaced by the frame and the order flag is cleared.  Returns the
damage region, as a list of non-empty boxes, and the new state of the target. -/
def damagePass (t : TargetState) (frame : List (ViewId × ViewLook)) :
    List LBox × TargetState :=
  let raw : List LBox :=
    if t.orderChanged then
      t.snapshot.map (fun e => lookBox e.2) ++ frame.map (fun e => lookBox e.2)
    else
      frameDamage t.snapshot frame
  (((raw.map (clipBox t.rect)).filter (fun b => !b.isEmpty)),
    { rect := t.rect, orderChanged := false, snapshot := frame })

/-! ## Example worlds -/

/-- A view without parent, children, scene or outputs. -/
def blankView (t : ViewType) : LViewPrivate Int :=
  { type := t, parent := none, parentLink := none, children := [], scene := none,
    visible := true, nativeMapped := true, repaintCalled := false, outputs := [],
    nativePos := (0, 0), nativeSize := (0, 0), scalingVector := (1, 1),
    scalingEnabled := false, parentScalingEnabled := false, parentOffsetEnabled := true,
    opacity := 1, parentOpacityEnabled := true, clippingEnabled := false,
    clippingRect := (0, 0, 0, 0), sFactor := 770, dFactor := 771,
    colorFactor := (1, 1, 1, 1), colorFactorEnabled := false }

/-- A scene main view `0` with the layer view `1` as its only child; every other
handle is a parentless layer view. -/
def sceneWorld : World Int :=
  { view := fun x =>
      if x = 0 then
        { blankView ViewType.Scene with children := [1], scene := some 0, outputs := [7] }
      else if x = 1 then
        { blankView ViewType.Layer with
            parent := some 0, parentLink := some 0, outputs := [7],
            nativePos := (5, 5), nativeSize := (10, 10) }
      else blankView ViewType.Layer
    views := [0, 1]
    listChanged := fun _ => false
    events := [] }

/-- The layer views `1`, `2`, `3` stacked in this order under the scene main view
`0`; every other handle is a parentless layer view. -/
def stackWorld : World Int :=
  { view := fun x =>
      match x with
      | 0 => { blankView ViewType.Scene with
                children := [1, 2, 3], scene := some 0, outputs := [7] }
      | 1 => { blankView ViewType.Layer with
                parent := some 0, parentLink := some 0, outputs := [7] }
      | 2 => { blankView ViewType.Layer with
                parent := some 0, parentLink := some 0, outputs := [7] }
      | 3 => { blankView ViewType.Layer with
                parent := some 0, parentLink := some 0, outputs := [7] }
      | _ => blankView ViewType.Layer
    views := [0, 1, 2, 3]
    listChanged := fun _ => false
    events := [] }

/-- The state `stackWorld` after the scene main view `0` was given its own child `1`
as parent (`setParent` needs one unit of fuel here, for `scene()`). -/
def cycleWorld : World Int :=
  (setParent stackWorld 1 0 (some 1)).getD stackWorld

/-- The state `stackWorld` after `3.setParent(2)`: view `2` has the parent `0` and the
only child `3`. -/
def nestedWorld : World Int :=
  (setParent stackWorld 2 3 (some 2)).getD stackWorld

/-- The state `nestedWorld` after `2.insertAfter(3, true)`, where `prev = 3` is a
child of the view itself. -/
def brokenWorld : World Int :=
  (insertAfter nestedWorld 1 2 (some 3) true).getD nestedWorld

/-- The state `stackWorld` with view `3` made invisible: view `3` is not mapped and
still lists the output `7`. -/
def hiddenWorld : World Int :=
  stackWorld.setView 3 { stackWorld.view 3 with visible := false }

/-- A scene view `1` nested in the scene main view `0`, with the layer view `2` as
child of `1`.  The own opacities are `0` for view `0` and `1` for the views `1`
and `2`; every view inherits the opacity of its parent. -/
def nestedSceneWorld : World Int :=
  { view := fun x =>
      match x with
      | 0 => { blankView ViewType.Scene with
                children := [1], scene := some 0, opacity := 0 }
      | 1 => { blankView ViewType.Scene with
                parent := some 0, parentLink := some 0, children := [2] }
      | 2 => { blankView ViewType.Layer with
                parent := some 1, parentLink := some 1 }
      | _ => blankView ViewType.Layer
    views := [0, 1, 2]
    listChanged := fun _ => false
    events := [] }

/-- The state `stackWorld` after `4.setParent(1)`: view `4`, which had no parent and
was in no scene, is a child of view `1`, which is in scene `0`. -/
def attachedWorld : World Int :=
  (setParent stackWorld 1 4 (some 1)).getD stackWorld

/-- A seat that is enabled while the compositor is initialized with both backends. -/
def runningSeat : SeatWorld :=
  { enabled := true, state := CompositorState.Initialized, graphicBackendInitialized := true,
    inputBackendInitialized := true, trace := [] }

/-- Two initialized outputs `7` and `8`, rendered by the threads `107` and `108`; the
main thread is `1`. -/
def twoOutputs : OutputsWorld :=
  { outputs := [7, 8]
    outputState := fun o => if o = 7 ∨ o = 8 then OutputState.Initialized
      else OutputState.Uninitialized
    outputThread := fun o => 100 + o
    mainThreadId := 1 }

/-- The state `nestedSceneWorld` after `1.insertAfter(2, true)`, where `prev = 2` is
the child of view `1` itself. -/
def selfChildWorld : World Int :=
  (insertAfter nestedSceneWorld 0 1 (some 2) true).getD nestedSceneWorld

/-- The action values of the Wayland protocol, with `0xFFFFFFFF` for an offer that
has not set its actions. -/
def waylandActions : DNDActions :=
  { NoAction := 0, Copy := 1, Move := 2, Ask := 4, NoActionSet := 4294967295 }

/-- A drag between a v3 source that offers `Copy` and `Move` and a focused v3 offer
that accepts `Move` and `Ask` and prefers `Ask`; the compositor has no
preference. -/
def moveDrag : DNDState :=
  { focus := some 5, offerClient := 5, offerVersion := 3, compositorAction := 0,
    source := some { version := 3, dndActions := 3 }, preferredAction := 4,
    acceptedActions := 6 }

/-- A paint pass over the surfaces `1`, `2`, `3` on the output `7`: surface `1` is
unmapped, surface `2` is minimized, surface `3` is mapped and shown. -/
def idlePaint : PaintState :=
  { surfaces := [1, 2, 3]
    surface := fun s =>
      { mapped := decide (s ≠ 1), minimized := decide (s = 2), cursorRole := false }
    outputs := [7]
    intersects := fun _ _ => true
    surfaceMovedUnderCursor := false
    dndIcon := none
    hasHardwareSupport := true }

/-- A target of 100 by 100 whose scene has reported a change of order and that has
not drawn a frame yet. -/
def freshTarget : TargetState :=
  { rect := { x1 := 0, y1 := 0, x2 := 100, y2 := 100 }, orderChanged := true, snapshot := [] }

/-- A frame with the view `1` of 10 by 10 at `(5, 5)` and the view `2` of 50 by 50 at
`(20, 20)`. -/
def twoViewFrame : List (ViewId × ViewLook) :=
  [(1, { pos := (5, 5), size := (10, 10), opacity := 1, texture := 11 }),
   (2, { pos := (20, 20), size := (50, 50), opacity := 1, texture := 12 })]

/-! ## Fuel lemmas -/

theorem mapped_mono (w : World F) (n : Nat) :
    ∀ (v : ViewId) (b : Bool), mapped w n v = some b → mapped w (n + 1) v = some b := by
  induction n with
  | zero => intro v b h; simp [mapped] at h
  | succ k ih =>
    intro v b h
    rw [mapped] at h ⊢
    by_cases h1 : type w v = ViewType.Scene ∧ parent w v = none
    · rw [if_pos h1] at h ⊢; exact h
    · rw [if_neg h1] at h ⊢
      by_cases h2 : (visible w v && nativeMapped w v) = true
      · rw [if_pos h2] at h ⊢
        cases hp : parent w v with
        | none => rw [hp] at h; exact h
        | some p =>
          rw [hp] at h
          exact ih p b h
      · rw [if_neg h2] at h ⊢; exact h

theorem mapped_mono_le (w : World F) (v : ViewId) (b : Bool) (n m : Nat) (hnm : n ≤ m)
    (h : mapped w n v = some b) : mapped w m v = some b := by
  induction hnm with
  | refl => exact h
  | step _ ih => exact mapped_mono w _ v b ih

theorem mappedTo_of_eq (w : World F) (v : ViewId) (b : Bool) (n : Nat)
    (h : mapped w n v = some b) : MappedTo w v b :=
  ⟨n, fun m hm => mapped_mono_le w v b n m hm h⟩

theorem mappedTo_unique (w : World F) (v : ViewId) (b c : Bool)
    (hb : MappedTo w v b) (hc : MappedTo w v c) : b = c := by
  obtain ⟨n, hn⟩ := hb
  obtain ⟨m, hm⟩ := hc
  have h1 := hn (max n m) (le_max_left _ _)
  have h2 := hm (max n m) (le_max_right _ _)
  rw [h1] at h2
  exact Option.some.inj h2

theorem mapped_returns (w : World F) (n : Nat) :
    ∀ v, rootWithin w n v = true → ∃ b, mapped w (n + 1) v = some b := by
  induction n with
  | zero =>
    intro v h
    have hp : parent w v = none := by
      simpa [rootWithin, Option.isNone_iff_eq_none] using h
    by_cases h1 : type w v = ViewType.Scene
    · exact ⟨visible w v, by simp [mapped, h1, hp]⟩
    · refine ⟨false, ?_⟩
      simp [mapped, h1, hp]
  | succ k ih =>
    intro v h
    rw [mapped]
    by_cases h1 : type w v = ViewType.Scene ∧ parent w v = none
    · exact ⟨visible w v, by rw [if_pos h1]⟩
    · rw [if_neg h1]
      by_cases h2 : (visible w v && nativeMapped w v) = true
      · rw [if_pos h2]
        cases hp : parent w v with
        | none => exact ⟨false, rfl⟩
        | some p =>
          rw [rootWithin, hp] at h
          exact ih p h
      · exact ⟨false, by rw [if_neg h2]⟩

theorem mappedTo_exists (w : World F) (v : ViewId) (h : ChainEnds w v) :
    ∃ b, MappedTo w v b := by
  obtain ⟨n, hn⟩ := h
  obtain ⟨b, hb⟩ := mapped_returns w n v hn
  exact ⟨b, mappedTo_of_eq w v b _ hb⟩

theorem scalingVector_mono [Float32Ops F] (w : World F) (n : Nat) :
    ∀ (v : ViewId) (f : Bool) (r : F × F),
      scalingVector w n v f = some r → scalingVector w (n + 1) v f = some r := by
  induction n with
  | zero => intro v f r h; simp [scalingVector] at h
  | succ k ih =>
    intro v f r h
    rw [scalingVector] at h ⊢
    by_cases hf : f = true
    · rw [if_pos hf] at h ⊢; exact h
    · rw [if_neg hf] at h ⊢
      cases hp : parent w v with
      | none => rw [hp] at h; exact h
      | some p =>
        rw [hp] at h
        by_cases hs : (w.view v).parentScalingEnabled = true
        · simp only [hs, if_true] at h ⊢
          cases hq : scalingVector w k p (decide (type w p = ViewType.Scene)) with
          | none => rw [hq] at h; exact absurd h (by simp)
          | some s =>
            rw [hq] at h
            rw [ih p _ s hq]
            exact h
        · simp only [hs] at h ⊢
          exact h

theorem scalingVector_mono_le [Float32Ops F] (w : World F) (v : ViewId) (f : Bool)
    (r : F × F) (n m : Nat) (hnm : n ≤ m) (h : scalingVector w n v f = some r) :
    scalingVector w m v f = some r := by
  induction hnm with
  | refl => exact h
  | step _ ih => exact scalingVector_mono w _ v f r ih

theorem pos_mono [Float32Ops F] (w : World F) (n : Nat) :
    ∀ (v : ViewId) (r : Int × Int), pos w n v = some r → pos w (n + 1) v = some r := by
  induction n with
  | zero => intro v r h; simp [pos] at h
  | succ k ih =>
    intro v r h
    rw [pos] at h ⊢
    cases hp : parent w v with
    | none => rw [hp] at h; exact h
    | some p =>
      rw [hp] at h
      simp only at h ⊢
      by_cases hs : (w.view v).parentScalingEnabled = true
      · simp only [hs, if_true] at h ⊢
        cases hq : scalingVector w k p (decide (type w p = ViewType.Scene)) with
        | none => rw [hq] at h; exact absurd h (by simp)
        | some s =>
          rw [hq] at h
          rw [scalingVector_mono w k p _ s hq]
          simp only at h ⊢
          by_cases ho : (w.view v).parentOffsetEnabled = true
          · simp only [ho, if_true] at h ⊢
            cases hpp : pos w k p with
            | none => rw [hpp] at h; exact absurd h (by simp)
            | some pp =>
              rw [hpp] at h
              rw [ih p pp hpp]
              exact h
          · simp only [ho] at h ⊢
            exact h
      · simp only [hs] at h ⊢
        by_cases ho : (w.view v).parentOffsetEnabled = true
        · simp only [ho, if_true] at h ⊢
          cases hpp : pos w k p with
          | none => rw [hpp] at h; exact absurd h (by simp)
          | some pp =>
            rw [hpp] at h
            rw [ih p pp hpp]
            exact h
        · simp only [ho] at h ⊢
          exact h

theorem pos_mono_le [Float32Ops F] (w : World F) (v : ViewId) (r : Int × Int)
    (n m : Nat) (hnm : n ≤ m) (h : pos w n v = some r) : pos w m v = some r := by
  induction hnm with
  | refl => exact h
  | step _ ih => exact pos_mono w _ v r ih

theorem size_mono [Float32Ops F] (w : World F) (n : Nat) (v : ViewId) (r : Int × Int)
    (h : size w n v = some r) : size w (n + 1) v = some r := by
  unfold size at h ⊢
  by_cases he : (w.view v).scalingEnabled = true
  · simp only [he, if_true] at h ⊢
    cases hq : scalingVector w n v true with
    | none => rw [hq] at h; exact absurd h (by simp)
    | some s =>
      rw [hq] at h
      rw [scalingVector_mono w n v _ s hq]
      simp only at h ⊢
      cases hp : parent w v with
      | none => rw [hp] at h; exact h
      | some p =>
        rw [hp] at h
        simp only at h ⊢
        by_cases hs : (w.view v).parentScalingEnabled = true
        · simp only [hs, if_true] at h ⊢
          cases hq2 : scalingVector w n p (decide (type w p = ViewType.Scene)) with
          | none => rw [hq2] at h; exact absurd h (by simp)
          | some s2 =>
            rw [hq2] at h
            rw [scalingVector_mono w n p _ s2 hq2]
            exact h
        · simp only [hs] at h ⊢
          exact h
  · simp only [he] at h ⊢
    cases hp : parent w v with
    | none => rw [hp] at h; exact h
    | some p =>
      rw [hp] at h
      simp only at h ⊢
      by_cases hs : (w.view v).parentScalingEnabled = true
      · simp only [hs, if_true] at h ⊢
        cases hq2 : scalingVector w n p (decide (type w p = ViewType.Scene)) with
        | none => rw [hq2] at h; exact absurd h (by simp)
        | some s2 =>
          rw [hq2] at h
          rw [scalingVector_mono w n p _ s2 hq2]
          exact h
      · simp only [hs] at h ⊢
        exact h

theorem boundingBoxLoop_mono (m1 m2 : ViewId → Option Bool) (b1 b2 : ViewId → Option LBox)
    (hm : ∀ c r, m1 c = some r → m2 c = some r)
    (hb : ∀ c r, b1 c = some r → b2 c = some r) :
    ∀ (l : List ViewId) (box r : LBox),
      boundingBoxLoop m1 b1 l box = some r → boundingBoxLoop m2 b2 l box = some r := by
  intro l
  induction l with
  | nil => intro box r h; simpa [boundingBoxLoop] using h
  | cons c rest ih =>
    intro box r h
    rw [boundingBoxLoop] at h ⊢
    cases hc : m1 c with
    | none => rw [hc] at h; exact absurd h (by simp)
    | some b =>
      rw [hc] at h
      rw [hm c b hc]
      cases b with
      | false => exact ih box r h
      | true =>
        simp only at h ⊢
        cases hcb : b1 c with
        | none => rw [hcb] at h; exact absurd h (by simp)
        | some cb =>
          rw [hcb] at h
          rw [hb c cb hcb]
          exact ih _ r h

theorem boundingBox_mono [Float32Ops F] (w : World F) (n : Nat) :
    ∀ (v : ViewId) (r : LBox), boundingBox w n v = some r → boundingBox w (n + 1) v = some r := by
  induction n with
  | zero => intro v r h; simp [boundingBox] at h
  | succ k ih =>
    intro v r h
    rw [boundingBox] at h ⊢
    cases hp : pos w k v with
    | none => rw [hp] at h; exact absurd h (by simp)
    | some p =>
      cases hs : size w k v with
      | none => rw [hp, hs] at h; exact absurd h (by simp)
      | some sz =>
        rw [hp, hs] at h
        rw [pos_mono w k v p hp, size_mono w k v sz hs]
        simp only at h ⊢
        exact boundingBoxLoop_mono _ _ _ _ (fun c b hc => mapped_mono w k c b hc)
          (fun c b hc => ih c b hc) _ _ _ h

theorem boundingBox_mono_le [Float32Ops F] (w : World F) (v : ViewId) (r : LBox)
    (n m : Nat) (hnm : n ≤ m) (h : boundingBox w n v = some r) :
    boundingBox w m v = some r := by
  induction hnm with
  | refl => exact h
  | step _ ih => exact boundingBox_mono w _ v r ih

theorem boundingBoxTo_of_eq [Float32Ops F] (w : World F) (v : ViewId) (b : LBox) (n : Nat)
    (h : boundingBox w n v = some b) : BoundingBoxTo w v b :=
  ⟨n, fun m hm => boundingBox_mono_le w v b n m hm h⟩

theorem boundingBoxTo_unique [Float32Ops F] (w : World F) (v : ViewId) (b c : LBox)
    (hb : BoundingBoxTo w v b) (hc : BoundingBoxTo w v c) : b = c := by
  obtain ⟨n, hn⟩ := hb
  obtain ⟨m, hm⟩ := hc
  have h1 := hn (max n m) (le_max_left _ _)
  have h2 := hm (max n m) (le_max_right _ _)
  rw [h1] at h2
  exact Option.some.inj h2

theorem LBox.contains_refl (a : LBox) : a.Contains a :=
  ⟨le_refl _, le_refl _, le_refl _, le_refl _⟩

theorem LBox.contains_trans (a b c : LBox) (hab : a.Contains b) (hbc : b.Contains c) :
    a.Contains c :=
  ⟨le_trans hab.1 hbc.1, le_trans hab.2.1 hbc.2.1, le_trans hbc.2.2.1 hab.2.2.1,
    le_trans hbc.2.2.2 hab.2.2.2⟩

theorem growBox_contains_left (box cb : LBox) : (growBox box cb).Contains box := by
  obtain ⟨a1, b1, a2, b2⟩ := box
  obtain ⟨c1, d1, c2, d2⟩ := cb
  simp only [growBox, LBox.Contains, gt_iff_lt]
  refine ⟨?_, ?_, ?_, ?_⟩ <;> split_ifs <;> (try simp only at *) <;> omega

theorem growBox_contains_right (box cb : LBox) : (growBox box cb).Contains cb := by
  obtain ⟨a1, b1, a2, b2⟩ := box
  obtain ⟨c1, d1, c2, d2⟩ := cb
  simp only [growBox, LBox.Contains, gt_iff_lt]
  refine ⟨?_, ?_, ?_, ?_⟩ <;> split_ifs <;> (try simp only at *) <;> omega

theorem boundingBoxLoop_contains (isMapped : ViewId → Option Bool)
    (childBox : ViewId → Option LBox) :
    ∀ (l : List ViewId) (box r : LBox), boundingBoxLoop isMapped childBox l box = some r →
      r.Contains box ∧
      ∀ c ∈ l, isMapped c = some true → ∃ cb, childBox c = some cb ∧ r.Contains cb := by
  intro l
  induction l with
  | nil =>
    intro box r h
    simp only [boundingBoxLoop, Option.some.injEq] at h
    subst h
    exact ⟨LBox.contains_refl _, fun c hc => absurd hc (List.not_mem_nil c)⟩
  | cons d rest ih =>
    intro box r h
    rw [boundingBoxLoop] at h
    cases hd : isMapped d with
    | none => rw [hd] at h; exact absurd h (by simp)
    | some b =>
      rw [hd] at h
      cases b with
      | false =>
        simp only at h
        obtain ⟨h1, h2⟩ := ih box r h
        refine ⟨h1, ?_⟩
        intro c hc hmc
        rcases List.mem_cons.mp hc with hcd | hcr
        · subst hcd; rw [hd] at hmc; exact absurd hmc (by simp)
        · exact h2 c hcr hmc
      | true =>
        simp only at h
        cases hcb : childBox d with
        | none => rw [hcb] at h; exact absurd h (by simp)
        | some cb =>
          rw [hcb] at h
          simp only at h
          obtain ⟨h1, h2⟩ := ih _ r h
          refine ⟨LBox.contains_trans _ _ _ h1 (growBox_contains_left box cb), ?_⟩
          intro c hc hmc
          rcases List.mem_cons.mp hc with hcd | hcr
          · subst hcd
            exact ⟨cb, hcb, LBox.contains_trans _ _ _ h1 (growBox_contains_right box cb)⟩
          · exact h2 c hcr hmc

theorem rootWithin_mono (w : World F) (n : Nat) :
    ∀ v, rootWithin w n v = true → rootWithin w (n + 1) v = true := by
  induction n with
  | zero =>
    intro v h
    have hp : parent w v = none := by
      simpa [rootWithin, Option.isNone_iff_eq_none] using h
    simp [rootWithin, hp]
  | succ k ih =>
    intro v h
    rw [rootWithin] at h ⊢
    cases hp : parent w v with
    | none => rfl
    | some p =>
      rw [hp] at h
      exact ih p h

theorem rootWithin_parent (w : World F) (n : Nat) (v p : ViewId)
    (hp : parent w v = some p) (h : rootWithin w n v = true) :
    ∃ k, n = k + 1 ∧ rootWithin w k p = true := by
  cases n with
  | zero => simp [rootWithin, hp] at h
  | succ k =>
    rw [rootWithin, hp] at h
    exact ⟨k, rfl, h⟩

theorem scalingVector_returns [Float32Ops F] (w : World F) (n : Nat) :
    ∀ (v : ViewId) (f : Bool), rootWithin w n v = true →
      ∃ r, scalingVector w (n + 1) v f = some r := by
  induction n with
  | zero =>
    intro v f h
    have hp : parent w v = none := by
      simpa [rootWithin, Option.isNone_iff_eq_none] using h
    rw [scalingVector, hp]
    by_cases hf : f = true
    · exact ⟨_, by rw [if_pos hf]⟩
    · exact ⟨_, by rw [if_neg hf]⟩
  | succ k ih =>
    intro v f h
    rw [scalingVector]
    by_cases hf : f = true
    · exact ⟨_, by rw [if_pos hf]⟩
    · rw [if_neg hf]
      cases hp : parent w v with
      | none => exact ⟨_, rfl⟩
      | some p =>
        rw [rootWithin, hp] at h
        obtain ⟨s, hs⟩ := ih p (decide (type w p = ViewType.Scene)) h
        by_cases hps : (w.view v).parentScalingEnabled = true
        · simp only [hps, if_true, hs]
          exact ⟨_, rfl⟩
        · simp only [hps]
          exact ⟨_, rfl⟩

theorem pos_returns [Float32Ops F] (w : World F) (n : Nat) :
    ∀ v, rootWithin w n v = true → ∃ r, pos w (n + 1) v = some r := by
  induction n with
  | zero =>
    intro v h
    have hp : parent w v = none := by
      simpa [rootWithin, Option.isNone_iff_eq_none] using h
    rw [pos, hp]
    exact ⟨_, rfl⟩
  | succ k ih =>
    intro v h
    rw [pos]
    cases hp : parent w v with
    | none => exact ⟨_, rfl⟩
    | some p =>
      rw [rootWithin, hp] at h
      obtain ⟨s, hs⟩ := scalingVector_returns w k p (decide (type w p = ViewType.Scene)) h
      obtain ⟨pp, hpp⟩ := ih p h
      simp only [hs, hpp]
      by_cases hps : (w.view v).parentScalingEnabled = true <;>
        by_cases ho : (w.view v).parentOffsetEnabled = true <;>
        simp only [hps, ho, if_true] <;> exact ⟨_, rfl⟩

theorem size_returns [Float32Ops F] (w : World F) (n : Nat) (v : ViewId)
    (h : rootWithin w n v = true) : ∃ r, size w (n + 1) v = some r := by
  obtain ⟨s, hs⟩ := scalingVector_returns w n v true h
  unfold size
  rw [hs]
  cases hp : parent w v with
  | none =>
    by_cases he : (w.view v).scalingEnabled = true <;>
      simp only [he, if_true] <;> exact ⟨_, rfl⟩
  | some p =>
    obtain ⟨k, hk, hr⟩ := rootWithin_parent w n v p hp h
    obtain ⟨s2, hs2⟩ := scalingVector_returns w k p (decide (type w p = ViewType.Scene)) hr
    have hs3 := scalingVector_mono w (k + 1) p _ s2 hs2
    rw [← hk] at hs3
    by_cases he : (w.view v).scalingEnabled = true <;>
      by_cases hps : (w.view v).parentScalingEnabled = true <;>
      simp only [he, hps, hs3, if_true] <;> exact ⟨_, rfl⟩

theorem size_mono_le [Float32Ops F] (w : World F) (v : ViewId) (r : Int × Int)
    (n m : Nat) (hnm : n ≤ m) (h : size w n v = some r) : size w m v = some r := by
  induction hnm with
  | refl => exact h
  | step _ ih => exact size_mono w _ v r ih

theorem exists_common_fuel (P : Nat → ViewId → Prop)
    (hmono : ∀ c n m, n ≤ m → P n c → P m c) :
    ∀ l : List ViewId, (∀ c ∈ l, ∃ n, P n c) → ∃ N, ∀ c ∈ l, P N c := by
  intro l
  induction l with
  | nil => intro _; exact ⟨0, fun c hc => absurd hc (List.not_mem_nil c)⟩
  | cons d rest ih =>
    intro h
    obtain ⟨n1, h1⟩ := h d (List.mem_cons_self d rest)
    obtain ⟨n2, h2⟩ := ih (fun c hc => h c (List.mem_cons_of_mem d hc))
    refine ⟨max n1 n2, ?_⟩
    intro c hc
    rcases List.mem_cons.mp hc with hcd | hcr
    · subst hcd; exact hmono _ n1 _ (le_max_left _ _) h1
    · exact hmono c n2 _ (le_max_right _ _) (h2 c hcr)

theorem boundingBoxLoop_returns (isMapped : ViewId → Option Bool)
    (childBox : ViewId → Option LBox) :
    ∀ (l : List ViewId), (∀ c ∈ l, (∃ b, isMapped c = some b) ∧ ∃ cb, childBox c = some cb) →
      ∀ box, ∃ r, boundingBoxLoop isMapped childBox l box = some r := by
  intro l
  induction l with
  | nil => intro _ box; exact ⟨box, rfl⟩
  | cons d rest ih =>
    intro h box
    obtain ⟨⟨b, hb⟩, ⟨cb, hcb⟩⟩ := h d (List.mem_cons_self d rest)
    have ih2 := ih (fun c hc => h c (List.mem_cons_of_mem d hc))
    rw [boundingBoxLoop, hb]
    cases b with
    | false => exact ih2 box
    | true =>
      simp only [hcb]
      exact ih2 _

theorem boundingBox_returns [Float32Ops F] (w : World F) (hac : Acyclic w) (h : Nat) :
    ∀ v, heightWithin w h v = true → ∃ n r, boundingBox w n v = some r := by
  induction h with
  | zero =>
    intro v hv
    have hnil : children w v = [] := by
      simpa [heightWithin, List.isEmpty_iff] using hv
    obtain ⟨n, hn⟩ := hac v
    obtain ⟨p, hp⟩ := pos_returns w n v hn
    obtain ⟨sz, hsz⟩ := size_returns w n v hn
    refine ⟨n + 2, ?_⟩
    rw [boundingBox, hp, hsz, hnil]
    exact ⟨_, rfl⟩
  | succ k ih =>
    intro v hv
    rw [heightWithin, List.all_eq_true] at hv
    have hch : ∀ c ∈ children w v, ∃ n,
        (∃ b, mapped w n c = some b) ∧ ∃ cb, boundingBox w n c = some cb := by
      intro c hc
      obtain ⟨n1, hn1⟩ := hac c
      obtain ⟨b, hb⟩ := mapped_returns w n1 c hn1
      obtain ⟨n2, cb, hcb⟩ := ih c (hv c hc)
      refine ⟨max (n1 + 1) n2, ⟨b, ?_⟩, ⟨cb, ?_⟩⟩
      · exact mapped_mono_le w c b _ _ (le_max_left _ _) hb
      · exact boundingBox_mono_le w c cb _ _ (le_max_right _ _) hcb
    obtain ⟨N, hN⟩ := exists_common_fuel
      (fun n c => (∃ b, mapped w n c = some b) ∧ ∃ cb, boundingBox w n c = some cb)
      (by
        rintro c n m hnm ⟨⟨b, hb⟩, ⟨cb, hcb⟩⟩
        exact ⟨⟨b, mapped_mono_le w c b n m hnm hb⟩,
          ⟨cb, boundingBox_mono_le w c cb n m hnm hcb⟩⟩)
      (children w v) hch
    obtain ⟨n, hn⟩ := hac v
    obtain ⟨p, hp⟩ := pos_returns w n v hn
    obtain ⟨sz, hsz⟩ := size_returns w n v hn
    have hp2 := pos_mono_le w v p (n + 1) (max (n + 1) N) (le_max_left _ _) hp
    have hsz2 := size_mono_le w v sz (n + 1) (max (n + 1) N) (le_max_left _ _) hsz
    have hN2 : ∀ c ∈ children w v, (∃ b, mapped w (max (n + 1) N) c = some b) ∧
        ∃ cb, boundingBox w (max (n + 1) N) c = some cb := by
      intro c hc
      obtain ⟨⟨b, hb⟩, ⟨cb, hcb⟩⟩ := hN c hc
      exact ⟨⟨b, mapped_mono_le w c b N _ (le_max_right _ _) hb⟩,
        ⟨cb, boundingBox_mono_le w c cb N _ (le_max_right _ _) hcb⟩⟩
    refine ⟨max (n + 1) N + 1, ?_⟩
    rw [boundingBox, hp2, hsz2]
    exact boundingBoxLoop_returns _ _ _ hN2 _

/-! ## Projections of the state updates -/

@[simp] theorem view_setView (w : World F) (v : ViewId) (d : LViewPrivate F) (x : ViewId) :
    (w.setView v d).view x = if x = v then d else w.view x := rfl

@[simp] theorem view_record (w : World F) (es : List Event) : (w.record es).view = w.view := rfl

@[simp] theorem events_record (w : World F) (es : List Event) :
    (w.record es).events = w.events ++ es := rfl

@[simp] theorem listChanged_record (w : World F) (es : List Event) :
    (w.record es).listChanged = w.listChanged := rfl

@[simp] theorem events_setView (w : World F) (v : ViewId) (d : LViewPrivate F) :
    (w.setView v d).events = w.events := rfl

@[simp] theorem listChanged_setView (w : World F) (v : ViewId) (d : LViewPrivate F) :
    (w.setView v d).listChanged = w.listChanged := rfl

@[simp] theorem children_setChildren (w : World F) (p : ViewId) (l : List ViewId) (x : ViewId) :
    children (w.setChildren p l) x = if x = p then l else children w x := by
  unfold children World.setChildren
  by_cases h : x = p <;> simp [h]

@[simp] theorem parent_setChildren (w : World F) (p : ViewId) (l : List ViewId) (x : ViewId) :
    parent (w.setChildren p l) x = parent w x := by
  unfold parent World.setChildren
  by_cases h : x = p <;> simp [h]

@[simp] theorem parentLink_setChildren (w : World F) (p : ViewId) (l : List ViewId)
    (x : ViewId) : ((w.setChildren p l).view x).parentLink = (w.view x).parentLink := by
  unfold World.setChildren
  by_cases h : x = p <;> simp [h]

@[simp] theorem children_setParentLink (w : World F) (v : ViewId) (o : Option ViewId)
    (x : ViewId) : children (w.setParentLink v o) x = children w x := by
  unfold children World.setParentLink
  by_cases h : x = v <;> simp [h]

@[simp] theorem parent_setParentLink (w : World F) (v : ViewId) (o : Option ViewId)
    (x : ViewId) : parent (w.setParentLink v o) x = parent w x := by
  unfold parent World.setParentLink
  by_cases h : x = v <;> simp [h]

@[simp] theorem parentLink_setParentLink (w : World F) (v : ViewId) (o : Option ViewId)
    (x : ViewId) :
    ((w.setParentLink v o).view x).parentLink = if x = v then o else (w.view x).parentLink := by
  unfold World.setParentLink
  by_cases h : x = v <;> simp [h]

@[simp] theorem children_record (w : World F) (es : List Event) (x : ViewId) :
    children (w.record es) x = children w x := rfl

@[simp] theorem parent_record (w : World F) (es : List Event) (x : ViewId) :
    parent (w.record es) x = parent w x := rfl

@[simp] theorem children_markAsChangedOrder (w : World F) (v x : ViewId) :
    children (markAsChangedOrder w v) x = children w x := rfl

@[simp] theorem parent_markAsChangedOrder (w : World F) (v x : ViewId) :
    parent (markAsChangedOrder w v) x = parent w x := rfl

@[simp] theorem view_markAsChangedOrder (w : World F) (v : ViewId) :
    (markAsChangedOrder w v).view = w.view := rfl

@[simp] theorem view_damageScene (w : World F) (v : ViewId) (sv : Option ViewId) :
    (damageScene w v sv).view = w.view := rfl

@[simp] theorem children_damageScene (w : World F) (v : ViewId) (sv : Option ViewId)
    (x : ViewId) : children (damageScene w v sv) x = children w x := rfl

@[simp] theorem parent_damageScene (w : World F) (v : ViewId) (sv : Option ViewId)
    (x : ViewId) : parent (damageScene w v sv) x = parent w x := rfl

@[simp] theorem children_repaint (w : World F) (v x : ViewId) :
    children (repaint w v) x = children w x := by
  unfold repaint children
  by_cases h : (w.view v).repaintCalled = true
  · simp [h]
  · by_cases hx : x = v <;> simp [h, hx]

@[simp] theorem parent_repaint (w : World F) (v x : ViewId) :
    parent (repaint w v) x = parent w x := by
  unfold repaint parent
  by_cases h : (w.view v).repaintCalled = true
  · simp [h]
  · by_cases hx : x = v <;> simp [h, hx]

@[simp] theorem parentLink_repaint (w : World F) (v x : ViewId) :
    ((repaint w v).view x).parentLink = (w.view x).parentLink := by
  unfold repaint
  by_cases h : (w.view v).repaintCalled = true
  · simp [h]
  · by_cases hx : x = v <;> simp [h, hx]

theorem children_eraseLink (w : World F) (v x : ViewId) :
    children (eraseLink w v) x =
      if (w.view v).parentLink = some x then (children w x).erase v else children w x := by
  unfold eraseLink
  cases h : (w.view v).parentLink with
  | none => simp
  | some o =>
    by_cases hx : x = o
    · subst hx; simp
    · have : ¬ o = x := fun e => hx e.symm
      simp [hx, this]

@[simp] theorem parent_eraseLink (w : World F) (v x : ViewId) :
    parent (eraseLink w v) x = parent w x := by
  unfold eraseLink
  cases h : (w.view v).parentLink <;> simp

@[simp] theorem parentLink_eraseLink (w : World F) (v x : ViewId) :
    ((eraseLink w v).view x).parentLink = (w.view x).parentLink := by
  unfold eraseLink
  cases h : (w.view v).parentLink <;> simp

theorem children_pushBack (w : World F) (p v x : ViewId) :
    children (pushBack w p v) x = if x = p then children w p ++ [v] else children w x := by
  unfold pushBack
  by_cases hx : x = p
  · subst hx; simp
  · simp [hx]

@[simp] theorem parent_pushBack (w : World F) (p v x : ViewId) :
    parent (pushBack w p v) x = parent w x := by
  unfold pushBack; simp

theorem parentLink_pushBack (w : World F) (p v x : ViewId) :
    ((pushBack w p v).view x).parentLink = if x = v then some p else (w.view x).parentLink := by
  unfold pushBack; simp

theorem children_pushFront (w : World F) (p v x : ViewId) :
    children (pushFront w p v) x = if x = p then v :: children w p else children w x := by
  unfold pushFront
  by_cases hx : x = p
  · subst hx; simp
  · simp [hx]

@[simp] theorem parent_pushFront (w : World F) (p v x : ViewId) :
    parent (pushFront w p v) x = parent w x := by
  unfold pushFront; simp

theorem parentLink_pushFront (w : World F) (p v x : ViewId) :
    ((pushFront w p v).view x).parentLink = if x = v then some p else (w.view x).parentLink := by
  unfold pushFront; simp

theorem children_insertAtNext (w : World F) (prev v x : ViewId) :
    children (insertAtNext w prev v) x =
      if (w.view prev).parentLink = some x then insertNext prev v (children w x)
      else children w x := by
  unfold insertAtNext
  cases h : (w.view prev).parentLink with
  | none => simp
  | some o =>
    by_cases hx : x = o
    · subst hx; simp
    · have : ¬ o = x := fun e => hx e.symm
      simp [hx, this]

@[simp] theorem parent_insertAtNext (w : World F) (prev v x : ViewId) :
    parent (insertAtNext w prev v) x = parent w x := by
  unfold insertAtNext
  cases h : (w.view prev).parentLink <;> simp

theorem parentLink_insertAtNext (w : World F) (prev v x : ViewId) :
    ((insertAtNext w prev v).view x).parentLink =
      if x = v ∧ ((w.view prev).parentLink).isSome then (w.view prev).parentLink
      else (w.view x).parentLink := by
  unfold insertAtNext
  cases h : (w.view prev).parentLink with
  | none => simp
  | some o => by_cases hx : x = v <;> simp [hx]

@[simp] theorem view_markListChanged (w : World F) (s : Option SceneId) :
    (markListChanged w s).view = w.view := by
  cases s <;> rfl

@[simp] theorem events_markListChanged (w : World F) (s : Option SceneId) :
    (markListChanged w s).events = w.events := by
  cases s <;> rfl

@[simp] theorem children_markListChanged (w : World F) (s : Option SceneId) (x : ViewId) :
    children (markListChanged w s) x = children w x := by
  cases s <;> rfl

@[simp] theorem parent_markListChanged (w : World F) (s : Option SceneId) (x : ViewId) :
    parent (markListChanged w s) x = parent w x := by
  cases s <;> rfl

@[simp] theorem children_setParentPtr (w : World F) (v : ViewId) (o : Option ViewId)
    (x : ViewId) : children (w.setParentPtr v o) x = children w x := by
  unfold children World.setParentPtr
  by_cases h : x = v <;> simp [h]

@[simp] theorem parent_setParentPtr (w : World F) (v : ViewId) (o : Option ViewId)
    (x : ViewId) : parent (w.setParentPtr v o) x = if x = v then o else parent w x := by
  unfold parent World.setParentPtr
  by_cases h : x = v <;> simp [h]

@[simp] theorem parentLink_setParentPtr (w : World F) (v : ViewId) (o : Option ViewId)
    (x : ViewId) : ((w.setParentPtr v o).view x).parentLink = (w.view x).parentLink := by
  unfold World.setParentPtr
  by_cases h : x = v <;> simp [h]

/-! ## Fuel of `scene` and `parentSceneView` -/

theorem scene_mono (w : World F) (n : Nat) :
    ∀ (v : ViewId) (r : Option SceneId), scene w n v = some r → scene w (n + 1) v = some r := by
  induction n with
  | zero => intro v r h; simp [scene] at h
  | succ k ih =>
    intro v r h
    rw [scene] at h ⊢
    cases hs : (w.view v).scene with
    | some s => rw [hs] at h; exact h
    | none =>
      rw [hs] at h
      cases hp : parent w v with
      | none => rw [hp] at h; exact h
      | some p => rw [hp] at h; exact ih p r h

theorem scene_mono_le (w : World F) (v : ViewId) (r : Option SceneId) (n m : Nat)
    (hnm : n ≤ m) (h : scene w n v = some r) : scene w m v = some r := by
  induction hnm with
  | refl => exact h
  | step _ ih => exact scene_mono w _ v r ih

theorem scene_returns (w : World F) (n : Nat) :
    ∀ v, rootWithin w n v = true → ∃ r, scene w (n + 1) v = some r := by
  induction n with
  | zero =>
    intro v h
    have hp : parent w v = none := by
      simpa [rootWithin, Option.isNone_iff_eq_none] using h
    rw [scene, hp]
    cases (w.view v).scene <;> exact ⟨_, rfl⟩
  | succ k ih =>
    intro v h
    rw [scene]
    cases hs : (w.view v).scene with
    | some s => exact ⟨_, rfl⟩
    | none =>
      cases hp : parent w v with
      | none => exact ⟨_, rfl⟩
      | some p =>
        rw [rootWithin, hp] at h
        exact ih p h

theorem parentSceneView_mono (w : World F) (n : Nat) :
    ∀ (v : ViewId) (r : Option ViewId),
      parentSceneView w n v = some r → parentSceneView w (n + 1) v = some r := by
  induction n with
  | zero => intro v r h; simp [parentSceneView] at h
  | succ k ih =>
    intro v r h
    rw [parentSceneView] at h ⊢
    cases hp : parent w v with
    | none => rw [hp] at h; exact h
    | some p =>
      rw [hp] at h
      by_cases ht : type w p = ViewType.Scene
      · simp only [ht, if_true] at h ⊢; exact h
      · simp only [ht, if_false] at h ⊢; exact ih p r h

theorem parentSceneView_mono_le (w : World F) (v : ViewId) (r : Option ViewId) (n m : Nat)
    (hnm : n ≤ m) (h : parentSceneView w n v = some r) : parentSceneView w m v = some r := by
  induction hnm with
  | refl => exact h
  | step _ ih => exact parentSceneView_mono w _ v r ih

theorem parentSceneView_returns (w : World F) (n : Nat) :
    ∀ v, rootWithin w n v = true → ∃ r, parentSceneView w (n + 1) v = some r := by
  induction n with
  | zero =>
    intro v h
    have hp : parent w v = none := by
      simpa [rootWithin, Option.isNone_iff_eq_none] using h
    rw [parentSceneView, hp]
    exact ⟨_, rfl⟩
  | succ k ih =>
    intro v h
    rw [parentSceneView]
    cases hp : parent w v with
    | none => exact ⟨_, rfl⟩
    | some p =>
      rw [rootWithin, hp] at h
      by_cases ht : type w p = ViewType.Scene
      · simp only [ht, if_true]; exact ⟨_, rfl⟩
      · simp only [ht, if_false]; exact ih p h

theorem rootWithin_congr (w1 w2 : World F) (hp : ∀ x, parent w1 x = parent w2 x) (n : Nat) :
    ∀ v, rootWithin w1 n v = rootWithin w2 n v := by
  induction n with
  | zero => intro v; simp [rootWithin, hp]
  | succ k ih =>
    intro v
    rw [rootWithin, rootWithin, hp v]
    cases parent w2 v with
    | none => rfl
    | some p => exact ih p

/-! ## Effect of `setParent` on the tree -/

theorem setParent_effect (w : World F) (fuel : Nat) (v : ViewId) (view : Option ViewId)
    (w' : World F) (hne : ¬(parent w v = view ∨ view = some v))
    (h : setParent w fuel v view = some w') :
    (∀ x, parent w' x = if x = v then view else parent w x) ∧
    (∀ x, children w' x =
      if view = some x then childrenDetached w v x ++ [v] else childrenDetached w v x) ∧
    (∀ x, (w'.view x).parentLink =
      if x = v ∧ view.isSome then view else (w.view x).parentLink) := by
  unfold setParent at h
  rw [if_neg hne] at h
  cases hs : scene w fuel v with
  | none => rw [hs] at h; exact absurd h (by simp)
  | some s =>
    rw [hs] at h
    simp only [parent_markListChanged] at h
    cases hp : parent w v with
    | none =>
      rw [hp] at h
      simp only at h
      cases view with
      | none => exact absurd (Or.inl hp) hne
      | some p =>
        simp only [Option.some.injEq] at h
        subst h
        refine ⟨?_, ?_, ?_⟩
        · intro x; by_cases hx : x = v <;> simp [hx]
        · intro x
          by_cases hx : x = p
          · subst hx; simp [children_pushBack, childrenDetached, hp]
          · have : ¬ p = x := fun e => hx e.symm
            simp [children_pushBack, childrenDetached, hp, hx, this]
        · intro x; simp [parentLink_pushBack]
    | some q =>
      rw [hp] at h
      simp only at h
      cases view with
      | some p =>
        simp only [Option.some.injEq] at h
        subst h
        refine ⟨?_, ?_, ?_⟩
        · intro x; by_cases hx : x = v <;> simp [hx]
        · intro x
          by_cases hx : x = p
          · subst hx; simp [children_pushBack, children_eraseLink, childrenDetached, hp]
          · have : ¬ p = x := fun e => hx e.symm
            simp [children_pushBack, children_eraseLink, childrenDetached, hp, hx, this]
        · intro x; simp [parentLink_pushBack]
      | none =>
        simp only at h
        cases hv : parentSceneView (eraseLink (markListChanged w s) v) fuel v with
        | none => rw [hv] at h; exact absurd h (by simp)
        | some sv =>
          rw [hv] at h
          simp only [Option.some.injEq] at h
          subst h
          refine ⟨?_, ?_, ?_⟩
          · intro x; by_cases hx : x = v <;> simp [hx]
          · intro x
            simp [children_eraseLink, childrenDetached, hp]
          · intro x; simp

theorem setParent_mono (w : World F) (n : Nat) (v : ViewId) (view : Option ViewId)
    (w' : World F) (h : setParent w n v view = some w') :
    setParent w (n + 1) v view = some w' := by
  unfold setParent at h ⊢
  by_cases he : parent w v = view ∨ view = some v
  · rw [if_pos he] at h ⊢; exact h
  · rw [if_neg he] at h ⊢
    cases hs : scene w n v with
    | none => rw [hs] at h; exact absurd h (by simp)
    | some s =>
      rw [hs] at h
      rw [scene_mono w n v s hs]
      simp only at h ⊢
      cases view with
      | some p => exact h
      | none =>
        simp only at h ⊢
        generalize (match parent (markListChanged w s) v with
          | some _ => eraseLink (markListChanged w s) v
          | none => markListChanged w s) = w2 at h ⊢
        cases hv : parentSceneView w2 n v with
        | none => rw [hv] at h; exact absurd h (by simp)
        | some sv =>
          rw [hv] at h
          rw [parentSceneView_mono w2 n v sv hv]
          exact h

theorem setParent_mono_le (w : World F) (v : ViewId) (view : Option ViewId) (w' : World F)
    (n m : Nat) (hnm : n ≤ m) (h : setParent w n v view = some w') :
    setParent w m v view = some w' := by
  induction hnm with
  | refl => exact h
  | step _ ih => exact setParent_mono w _ v view w' ih

theorem setParentTo_of_eq (w : World F) (v : ViewId) (view : Option ViewId) (w' : World F)
    (n : Nat) (h : setParent w n v view = some w') : SetParentTo w v view w' :=
  ⟨n, fun m hm => setParent_mono_le w v view w' n m hm h⟩

theorem setParent_returns (w : World F) (v : ViewId) (view : Option ViewId)
    (h : ChainEnds w v) : ∃ w', SetParentTo w v view w' := by
  obtain ⟨n, hn⟩ := h
  suffices hex : ∃ w', setParent w (n + 1) v view = some w' by
    obtain ⟨w', hw'⟩ := hex
    exact ⟨w', setParentTo_of_eq w v view w' _ hw'⟩
  unfold setParent
  by_cases he : parent w v = view ∨ view = some v
  · rw [if_pos he]; exact ⟨w, rfl⟩
  · rw [if_neg he]
    obtain ⟨s, hs⟩ := scene_returns w n v hn
    rw [hs]
    simp only
    cases view with
    | some p => exact ⟨_, rfl⟩
    | none =>
      simp only
      have hpar : ∀ x, parent (match parent (markListChanged w s) v with
          | some _ => eraseLink (markListChanged w s) v
          | none => markListChanged w s) x = parent w x := by
        intro x
        cases parent (markListChanged w s) v <;> simp
      generalize (match parent (markListChanged w s) v with
          | some _ => eraseLink (markListChanged w s) v
          | none => markListChanged w s) = w2 at hpar ⊢
      have hr : rootWithin w2 n v = true := by
        rw [rootWithin_congr w2 w hpar n v]; exact hn
      obtain ⟨sv, hsv⟩ := parentSceneView_returns w2 n v hr
      rw [hsv]
      exact ⟨_, rfl⟩

/-! ## Lists -/

theorem filter_ne_erase (v : ViewId) (l : List ViewId) :
    (l.erase v).filter (fun x => decide (x ≠ v)) = l.filter (fun x => decide (x ≠ v)) := by
  induction l with
  | nil => rfl
  | cons a rest ih =>
    by_cases ha : a = v
    · subst ha; simp
    · have hb : ¬((a == v) = true) := by simpa using ha
      rw [List.erase_cons_tail hb, List.filter_cons, List.filter_cons, ih]

theorem sameOrderExcept_erase (v : ViewId) (l : List ViewId) :
    SameOrderExcept v (l.erase v) l := filter_ne_erase v l

theorem sameOrderExcept_concat (v : ViewId) (l : List ViewId) :
    SameOrderExcept v (l ++ [v]) l := by
  simp [SameOrderExcept]

theorem sameOrderExcept_cons (v : ViewId) (l : List ViewId) :
    SameOrderExcept v (v :: l) l := by
  simp [SameOrderExcept]

theorem sameOrderExcept_trans (v : ViewId) (l1 l2 l3 : List ViewId)
    (h1 : SameOrderExcept v l1 l2) (h2 : SameOrderExcept v l2 l3) : SameOrderExcept v l1 l3 :=
  Eq.trans h1 h2

theorem sameOrderExcept_childrenDetached (w : World F) (v x : ViewId) :
    SameOrderExcept v (childrenDetached w v x) (children w x) := by
  unfold childrenDetached
  split_ifs
  · exact sameOrderExcept_erase v _
  · rfl

theorem stackWorld_singleMembership : SingleMembership stackWorld := by
  refine ⟨?_, ?_, ?_⟩
  · intro c p
    obtain _ | _ | _ | _ | p := p <;> obtain _ | _ | _ | _ | c := c <;>
      simp [children, parent, stackWorld, blankView]
  · intro p
    obtain _ | _ | _ | _ | p := p <;> simp [children, stackWorld, blankView]
  · intro c p
    obtain _ | _ | _ | _ | c := c <;> simp [parent, stackWorld, blankView]

theorem stackWorld_acyclic : Acyclic stackWorld := by
  intro v
  obtain _ | _ | _ | _ | v := v <;>
    exact ⟨1, by simp [rootWithin, parent, stackWorld, blankView]⟩

/-! ## Parent chains -/

theorem ancestorAt_succ (w : World F) (k : Nat) :
    ∀ v, ancestorAt w (k + 1) v = (ancestorAt w k v).bind (parent w) := by
  induction k with
  | zero =>
    intro v
    simp only [ancestorAt, Option.some_bind]
    cases parent w v <;> rfl
  | succ j ih =>
    intro v
    rw [ancestorAt]
    cases hp : parent w v with
    | none => simp [ancestorAt, hp]
    | some p =>
      simp only
      rw [ih p]
      conv_rhs => rw [ancestorAt, hp]

theorem ancestorAt_add (w : World F) (a b : Nat) :
    ∀ v, ancestorAt w (a + b) v = (ancestorAt w a v).bind (ancestorAt w b) := by
  induction a with
  | zero => intro v; simp [ancestorAt]
  | succ j ih =>
    intro v
    rw [Nat.succ_add, ancestorAt, ancestorAt]
    cases hp : parent w v with
    | none => rfl
    | some p => exact ih p

theorem rootWithin_iff (w : World F) (n : Nat) :
    ∀ v, rootWithin w n v = true ↔ ancestorAt w (n + 1) v = none := by
  induction n with
  | zero =>
    intro v
    simp only [rootWithin, ancestorAt, Option.isNone_iff_eq_none]
    cases parent w v <;> simp
  | succ k ih =>
    intro v
    rw [rootWithin, ancestorAt]
    cases hp : parent w v with
    | none => simp
    | some p => exact ih p

theorem ancestorAt_none_add (w : World F) (a b : Nat) (v : ViewId)
    (h : ancestorAt w a v = none) : ancestorAt w (a + b) v = none := by
  rw [ancestorAt_add, h]; rfl

theorem ancestorAt_cycle (w : World F) (k : Nat) (v : ViewId)
    (h : ancestorAt w (k + 1) v = some v) : ∀ j, ancestorAt w (j * (k + 1)) v = some v := by
  intro j
  induction j with
  | zero => simp [ancestorAt]
  | succ i ih =>
    rw [Nat.succ_mul, ancestorAt_add, ih]
    exact h

theorem not_descendant_of_self (w : World F) (v : ViewId) (h : ChainEnds w v) :
    ¬ IsProperDescendant w v v := by
  rintro ⟨k, hk⟩
  obtain ⟨n, hn⟩ := h
  rw [rootWithin_iff] at hn
  have h1 := ancestorAt_cycle w k v hk (n + 1)
  have hle : n + 1 ≤ (n + 1) * (k + 1) := Nat.le_mul_of_pos_right _ (Nat.succ_pos k)
  obtain ⟨d, hd⟩ := Nat.exists_eq_add_of_le hle
  rw [hd, ancestorAt_none_add w (n + 1) d v hn] at h1
  exact absurd h1 (by simp)

theorem descendant_ne (w : World F) (hac : Acyclic w) (p v : ViewId)
    (hd : IsProperDescendant w p v) : p ≠ v := by
  intro h
  subst h
  exact not_descendant_of_self w p (hac p) hd

theorem descendant_ne_parent (w : World F) (hac : Acyclic w) (p v : ViewId)
    (hd : IsProperDescendant w p v) : parent w v ≠ some p := by
  intro h
  obtain ⟨k, hk⟩ := hd
  apply not_descendant_of_self w v (hac v)
  refine ⟨k + 1, ?_⟩
  rw [ancestorAt, h]
  exact hk

/-- Parent chains that avoid `v` are the same in two states whose parent pointers
differ at `v` only. -/
theorem ancestorAt_congr_avoid (w w' : World F) (v : ViewId)
    (hP : ∀ x, x ≠ v → parent w' x = parent w x) (p : ViewId) (k : Nat)
    (havoid : ∀ j, j < k → ancestorAt w j p ≠ some v) :
    ∀ j, j ≤ k → ancestorAt w' j p = ancestorAt w j p := by
  intro j
  induction j with
  | zero => intro _; rfl
  | succ i ih =>
    intro hi
    rw [ancestorAt_succ, ancestorAt_succ, ih (Nat.le_of_succ_le hi)]
    cases hy : ancestorAt w i p with
    | none => rfl
    | some y =>
      simp only [Option.some_bind]
      apply hP
      intro hyv
      exact havoid i hi (by rw [hy, hyv])

/-! ## Acyclicity under a change of one parent pointer -/

theorem rootWithin_avoid (w w' : World F) (v : ViewId)
    (hP : ∀ x, x ≠ v → parent w' x = parent w x) (n : Nat) :
    ∀ x, rootWithin w n x = true → (∀ j, ancestorAt w j x ≠ some v) →
      rootWithin w' n x = true := by
  induction n with
  | zero =>
    intro x h havoid
    have hxv : x ≠ v := fun e => havoid 0 (by rw [ancestorAt, e])
    have hp : parent w x = none := by
      simpa [rootWithin, Option.isNone_iff_eq_none] using h
    simp [rootWithin, hP x hxv, hp]
  | succ k ih =>
    intro x h havoid
    have hxv : x ≠ v := fun e => havoid 0 (by rw [ancestorAt, e])
    rw [rootWithin, hP x hxv]
    rw [rootWithin] at h
    cases hp : parent w x with
    | none => rfl
    | some y =>
      rw [hp] at h
      simp only
      apply ih y h
      intro j hj
      apply havoid (j + 1)
      rw [ancestorAt, hp]
      exact hj

theorem acyclic_of_parent_update (w w' : World F) (v : ViewId) (view : Option ViewId)
    (hac : Acyclic w) (hP : ∀ x, parent w' x = if x = v then view else parent w x)
    (hsafe : ∀ p, view = some p → ∀ j, ancestorAt w j p ≠ some v) : Acyclic w' := by
  have hP' : ∀ x, x ≠ v → parent w' x = parent w x := fun x hx => by rw [hP, if_neg hx]
  have hPv : parent w' v = view := by rw [hP, if_pos rfl]
  have hA : ChainEnds w' v := by
    cases hview : view with
    | none => exact ⟨0, by simp [rootWithin, hPv, hview]⟩
    | some p =>
      obtain ⟨n, hn⟩ := hac p
      have h1 := rootWithin_avoid w w' v hP' n p hn (hsafe p hview)
      exact ⟨n + 1, by rw [rootWithin, hPv, hview]; exact h1⟩
  have hB : ∀ n x, rootWithin w n x = true → ChainEnds w' x := by
    intro n
    induction n with
    | zero =>
      intro x h
      by_cases hxv : x = v
      · rw [hxv]; exact hA
      · have hp : parent w x = none := by
          simpa [rootWithin, Option.isNone_iff_eq_none] using h
        exact ⟨0, by simp [rootWithin, hP' x hxv, hp]⟩
    | succ k ih =>
      intro x h
      by_cases hxv : x = v
      · rw [hxv]; exact hA
      · rw [rootWithin] at h
        cases hp : parent w x with
        | none => exact ⟨0, by simp [rootWithin, hP' x hxv, hp]⟩
        | some y =>
          rw [hp] at h
          obtain ⟨m, hm⟩ := ih y h
          exact ⟨m + 1, by rw [rootWithin, hP' x hxv, hp]; exact hm⟩
  intro x
  obtain ⟨n, hn⟩ := hac x
  exact hB n x hn

theorem acyclic_congr (w w' : World F) (hac : Acyclic w)
    (hP : ∀ x, parent w' x = parent w x) : Acyclic w' := by
  intro x
  obtain ⟨n, hn⟩ := hac x
  exact ⟨n, by rw [rootWithin_congr w' w hP n x]; exact hn⟩

theorem acyclic_of_setParent (w : World F) (hac : Acyclic w) (v : ViewId)
    (view : Option ViewId) (hsafe : ∀ p, view = some p → ¬ IsProperDescendant w p v)
    (n : Nat) (w' : World F) (h : setParent w n v view = some w') : Acyclic w' := by
  by_cases he : parent w v = view ∨ view = some v
  · unfold setParent at h
    rw [if_pos he] at h
    rw [← Option.some.inj h]
    exact hac
  · obtain ⟨hP, _, _⟩ := setParent_effect w n v view w' he h
    apply acyclic_of_parent_update w w' v view hac hP
    intro p hp j
    cases j with
    | zero =>
      intro h0
      rw [ancestorAt] at h0
      exact he (Or.inr (by rw [hp, Option.some.inj h0]))
    | succ k =>
      intro hk
      exact hsafe p hp ⟨k, hk⟩

/-! ## Parent pointers under `insertAfter` -/

@[simp] theorem parent_insertAfterPrev (w : World F) (v pv x : ViewId) :
    parent (insertAfterPrev w v pv) x = parent w x := by
  unfold insertAfterPrev
  simp only
  cases parent (repaint (markAsChangedOrder w v) v) v with
  | none => simp
  | some p =>
    simp only
    split_ifs <;> simp

theorem insertAfter_mono (w : World F) (n : Nat) (v : ViewId) (prev : Option ViewId)
    (sw : Bool) (w' : World F) (h : insertAfter w n v prev sw = some w') :
    insertAfter w (n + 1) v prev sw = some w' := by
  unfold insertAfter at h ⊢
  by_cases hs : prev = some v
  · rw [if_pos hs] at h ⊢; exact h
  · rw [if_neg hs] at h ⊢
    cases prev with
    | none => exact h
    | some pv =>
      simp only at h ⊢
      by_cases hsw : sw = true
      · rw [if_pos hsw] at h ⊢
        cases hsp : setParent w n v (parent w pv) with
        | none => rw [hsp] at h; exact absurd h (by simp)
        | some w1 =>
          rw [hsp] at h
          rw [setParent_mono w n v _ w1 hsp]
          exact h
      · rw [if_neg hsw] at h ⊢; exact h

theorem insertAfter_mono_le (w : World F) (v : ViewId) (prev : Option ViewId) (sw : Bool)
    (w' : World F) (n m : Nat) (hnm : n ≤ m) (h : insertAfter w n v prev sw = some w') :
    insertAfter w m v prev sw = some w' := by
  induction hnm with
  | refl => exact h
  | step _ ih => exact insertAfter_mono w _ v prev sw w' ih

theorem insertAfterTo_of_eq (w : World F) (v : ViewId) (prev : Option ViewId) (sw : Bool)
    (w' : World F) (n : Nat) (h : insertAfter w n v prev sw = some w') :
    InsertAfterTo w v prev sw w' :=
  ⟨n, fun m hm => insertAfter_mono_le w v prev sw w' n m hm h⟩

theorem insertAfter_returns (w : World F) (v : ViewId) (prev : Option ViewId) (sw : Bool)
    (h : ChainEnds w v) : ∃ w', InsertAfterTo w v prev sw w' := by
  cases prev with
  | none =>
    suffices hex : ∃ w', insertAfter w 0 v none sw = some w' by
      obtain ⟨w', hw'⟩ := hex
      exact ⟨w', insertAfterTo_of_eq w v none sw w' 0 hw'⟩
    unfold insertAfter
    rw [if_neg (by simp)]
    simp only
    cases parent w v with
    | none => exact ⟨_, rfl⟩
    | some p =>
      simp only
      split_ifs <;> exact ⟨_, rfl⟩
  | some pv =>
    obtain ⟨w1, n, hn⟩ := setParent_returns w v (parent w pv) h
    suffices hex : ∃ w', insertAfter w n v (some pv) sw = some w' by
      obtain ⟨w', hw'⟩ := hex
      exact ⟨w', insertAfterTo_of_eq w v (some pv) sw w' n hw'⟩
    unfold insertAfter
    simp only [hn n (le_refl n)]
    split_ifs <;> exact ⟨_, rfl⟩

theorem acyclic_of_insertAfter (w : World F) (hac : Acyclic w) (v : ViewId)
    (prev : Option ViewId) (sw : Bool)
    (hsafe : sw = true → ∀ pv q, prev = some pv → parent w pv = some q →
      ¬ IsProperDescendant w q v)
    (n : Nat) (w' : World F) (h : insertAfter w n v prev sw = some w') : Acyclic w' := by
  unfold insertAfter at h
  by_cases hs : prev = some v
  · rw [if_pos hs] at h
    rw [← Option.some.inj h]; exact hac
  · rw [if_neg hs] at h
    cases prev with
    | none =>
      simp only at h
      cases hp : parent w v with
      | none =>
        rw [hp] at h
        rw [← Option.some.inj h]; exact hac
      | some p =>
        rw [hp] at h
        simp only at h
        by_cases hf : (children w p).head? = some v
        · rw [if_pos hf] at h
          rw [← Option.some.inj h]; exact hac
        · rw [if_neg hf] at h
          rw [← Option.some.inj h]
          exact acyclic_congr w _ hac (fun x => by simp)
    | some pv =>
      simp only at h
      by_cases hsw : sw = true
      · rw [if_pos hsw] at h
        cases hsp : setParent w n v (parent w pv) with
        | none => rw [hsp] at h; exact absurd h (by simp)
        | some w1 =>
          rw [hsp] at h
          rw [← Option.some.inj h]
          have h1 : Acyclic w1 :=
            acyclic_of_setParent w hac v (parent w pv)
              (fun q hq => hsafe hsw pv q rfl hq) n w1 hsp
          exact acyclic_congr w1 _ h1 (fun x => by simp)
      · rw [if_neg hsw] at h
        by_cases hpp : parent w pv ≠ parent w v
        · rw [if_pos hpp] at h
          rw [← Option.some.inj h]; exact hac
        · rw [if_neg hpp] at h
          rw [← Option.some.inj h]
          exact acyclic_congr w _ hac (fun x => by simp)

theorem acyclic_of_callTo (w : World F) (hac : Acyclic w) (c : Call)
    (hsafe : c.KeepsForest w) (w1 : World F) (h : CallTo w c w1) : Acyclic w1 := by
  obtain ⟨n, hn⟩ := h
  have hrun := hn n (le_refl n)
  cases c with
  | setParent self view => exact acyclic_of_setParent w hac self view hsafe n w1 hrun
  | insertAfter self prev sw =>
    exact acyclic_of_insertAfter w hac self prev sw
      (fun hsw pv q hpv hq => (hsafe hsw pv q hpv hq).2) n w1 hrun

theorem callTo_exists (w : World F) (hac : Acyclic w) (c : Call) : ∃ w1, CallTo w c w1 := by
  cases c with
  | setParent self view => exact setParent_returns w self view (hac self)
  | insertAfter self prev sw => exact insertAfter_returns w self prev sw (hac self)

theorem guardedRun_acyclic (w w' : World F) (cs : List Call) (h : GuardedRun w cs w') :
    Acyclic w → Acyclic w' := by
  induction h with
  | nil w => exact id
  | cons w w1 w2 c cs hsafe hcall _ ih =>
    intro hac
    exact ih (acyclic_of_callTo w hac c hsafe w1 hcall)

/-! ## Consistency of the child lists -/

theorem childrenDetached_eq_erase (w : World F) (hwf : SingleMembership w) (v x : ViewId) :
    childrenDetached w v x = (children w x).erase v := by
  unfold childrenDetached
  by_cases h : (parent w v).isSome = true ∧ (w.view v).parentLink = some x
  · rw [if_pos h]
  · rw [if_neg h]
    have hnot : v ∉ children w x := by
      intro hmem
      have hp := (hwf.mem_iff v x).mp hmem
      exact h ⟨by simp [hp], hwf.link v x hp⟩
    exact (List.erase_of_not_mem hnot).symm

theorem singleMembership_of_setParent (w : World F) (hwf : SingleMembership w) (n : Nat)
    (v : ViewId) (view : Option ViewId) (w' : World F)
    (h : setParent w n v view = some w') : SingleMembership w' := by
  by_cases he : parent w v = view ∨ view = some v
  · unfold setParent at h
    rw [if_pos he] at h
    rw [← Option.some.inj h]
    exact hwf
  · obtain ⟨hP, hC, hL⟩ := setParent_effect w n v view w' he h
    have hD : ∀ x c, c ∈ childrenDetached w v x ↔ c ≠ v ∧ parent w c = some x := by
      intro x c
      rw [childrenDetached_eq_erase w hwf, (hwf.nodup x).mem_erase_iff, hwf.mem_iff]
    refine ⟨?_, ?_, ?_⟩
    · intro c x
      rw [hC, hP]
      by_cases hx : view = some x
      · rw [if_pos hx, List.mem_append, hD, List.mem_singleton]
        by_cases hc : c = v
        · simp [hc, hx]
        · simp [hc]
      · rw [if_neg hx, hD]
        by_cases hc : c = v
        · simp [hc, hx]
        · simp [hc]
    · intro x
      rw [hC]
      have hnd : (childrenDetached w v x).Nodup := by
        rw [childrenDetached_eq_erase w hwf]
        exact (hwf.nodup x).erase v
      by_cases hx : view = some x
      · rw [if_pos hx]
        apply List.Nodup.append hnd (List.nodup_singleton v)
        intro a ha hav
        rw [List.mem_singleton] at hav
        rw [hav, hD] at ha
        exact ha.1 rfl
      · rw [if_neg hx]; exact hnd
    · intro c x hcx
      rw [hP] at hcx
      rw [hL]
      by_cases hc : c = v
      · rw [if_pos hc] at hcx
        rw [if_pos ⟨hc, by simp [hcx]⟩]
        exact hcx
      · rw [if_neg hc] at hcx
        rw [if_neg (fun hh => hc hh.1)]
        exact hwf.link c x hcx

theorem singleMembership_of_reorder (w w' : World F) (hwf : SingleMembership w) (q : ViewId)
    (hP : ∀ x, parent w' x = parent w x)
    (hL : ∀ x, (w'.view x).parentLink = (w.view x).parentLink)
    (hC : ∀ x, x ≠ q → children w' x = children w x)
    (hperm : (children w' q).Perm (children w q)) : SingleMembership w' := by
  refine ⟨?_, ?_, ?_⟩
  · intro c x
    rw [hP]
    by_cases hx : x = q
    · rw [hx, hperm.mem_iff]; exact hwf.mem_iff c q
    · rw [hC x hx]; exact hwf.mem_iff c x
  · intro x
    by_cases hx : x = q
    · rw [hx, hperm.nodup_iff]; exact hwf.nodup q
    · rw [hC x hx]; exact hwf.nodup x
  · intro c x hcx
    rw [hL]
    rw [hP] at hcx
    exact hwf.link c x hcx

/-! ## `insertNext` -/

theorem insertNext_split (prev v : ViewId) :
    ∀ l : List ViewId, prev ∈ l →
      ∃ l1 l2, l = l1 ++ prev :: l2 ∧ insertNext prev v l = l1 ++ prev :: v :: l2 := by
  intro l
  induction l with
  | nil => intro h; exact absurd h (List.not_mem_nil prev)
  | cons a rest ih =>
    intro h
    by_cases ha : a = prev
    · subst ha
      exact ⟨[], rest, rfl, by simp [insertNext]⟩
    · have hr : prev ∈ rest := by
        rcases List.mem_cons.mp h with h1 | h1
        · exact absurd h1.symm ha
        · exact h1
      obtain ⟨l1, l2, h1, h2⟩ := ih hr
      exact ⟨a :: l1, l2, by rw [h1]; rfl, by simp [insertNext, ha, h2]⟩

theorem perm_middle_erase (v prev : ViewId) (l l1 l2 : List ViewId) (hv : v ∈ l)
    (h : l.erase v = l1 ++ prev :: l2) : (l1 ++ prev :: v :: l2).Perm l := by
  have h1 : l.Perm (v :: l.erase v) := List.perm_cons_erase hv
  rw [h] at h1
  refine List.Perm.trans ?_ h1.symm
  have h2 : (l1 ++ prev :: v :: l2).Perm (v :: (l1 ++ prev :: l2)) := by
    have h3 : (l1 ++ prev :: v :: l2) = (l1 ++ [prev]) ++ v :: l2 := by simp
    have h4 : (l1 ++ prev :: l2) = (l1 ++ [prev]) ++ l2 := by simp
    rw [h3, h4]
    exact List.perm_middle
  exact h2

theorem sameOrderExcept_middle (v prev : ViewId) (l l1 l2 : List ViewId)
    (h : l.erase v = l1 ++ prev :: l2) : SameOrderExcept v (l1 ++ prev :: v :: l2) l := by
  have h1 : SameOrderExcept v (l.erase v) l := sameOrderExcept_erase v l
  rw [h] at h1
  unfold SameOrderExcept at h1 ⊢
  rw [← h1]
  simp [List.filter_append, List.filter_cons]

theorem erase_of_getLast (v prev : ViewId) (l : List ViewId) (hne : prev ≠ v)
    (h : l.getLast? = some prev) : ∃ l1, l.erase v = l1 ++ [prev] := by
  obtain ⟨ys, hys⟩ := List.getLast?_eq_some_iff.mp h
  subst hys
  have hb : ¬((prev == v) = true) := by simpa using hne
  rw [List.erase_append]
  by_cases hv : v ∈ ys
  · rw [if_pos hv]; exact ⟨ys.erase v, rfl⟩
  · rw [if_neg hv]
    refine ⟨ys, ?_⟩
    rw [List.erase_cons_tail hb]
    rfl

/-! ## Effect of the reordering part of `insertAfter` -/

theorem insertAfterPrev_effect (w : World F) (hwf : SingleMembership w) (v prev q : ViewId)
    (hv : parent w v = some q) (hp : parent w prev = some q) (hne : prev ≠ v) :
    (∀ x, parent (insertAfterPrev w v prev) x = parent w x) ∧
    (∀ x, x ≠ q → children (insertAfterPrev w v prev) x = children w x) ∧
    (∃ l1 l2, (children w q).erase v = l1 ++ prev :: l2 ∧
      children (insertAfterPrev w v prev) q = l1 ++ prev :: v :: l2) ∧
    (∀ x, ((insertAfterPrev w v prev).view x).parentLink = (w.view x).parentLink) := by
  have hlv : (w.view v).parentLink = some q := hwf.link v q hv
  have hlp : (w.view prev).parentLink = some q := hwf.link prev q hp
  refine ⟨fun x => parent_insertAfterPrev w v prev x, ?_⟩
  unfold insertAfterPrev
  simp only [parent_repaint, parent_markAsChangedOrder, hv, children_repaint,
    children_markAsChangedOrder]
  by_cases hlast : (children w q).getLast? = some prev
  · rw [if_pos hlast]
    refine ⟨?_, ?_, ?_⟩
    · intro x hx
      have hqx : ¬ q = x := fun e => hx e.symm
      simp [children_pushBack, children_eraseLink, hx, hlv, hqx]
    · obtain ⟨l1, hl1⟩ := erase_of_getLast v prev (children w q) hne hlast
      refine ⟨l1, [], hl1, ?_⟩
      simp [children_pushBack, children_eraseLink, hlv, hl1]
    · intro x
      by_cases hx : x = v
      · simp [parentLink_pushBack, hx, hlv]
      · simp [parentLink_pushBack, hx]
  · rw [if_neg hlast]
    refine ⟨?_, ?_, ?_⟩
    · intro x hx
      have hqx : ¬ q = x := fun e => hx e.symm
      simp [children_insertAtNext, children_eraseLink, hx, hlv, hlp, hqx]
    · have hmem : prev ∈ (children w q).erase v :=
        (List.mem_erase_of_ne hne).mpr ((hwf.mem_iff prev q).mpr hp)
      obtain ⟨l1, l2, h1, h2⟩ := insertNext_split prev v _ hmem
      refine ⟨l1, l2, h1, ?_⟩
      simp [children_insertAtNext, children_eraseLink, hlv, hlp, h2]
    · intro x
      by_cases hx : x = v
      · simp [parentLink_insertAtNext, hx, hlv, hlp]
      · simp [parentLink_insertAtNext, hx]

theorem setParent_some_facts (w : World F) (n : Nat)
    (v q : ViewId) (hqv : q ≠ v) (w1 : World F) (h : setParent w n v (some q) = some w1) :
    parent w1 v = some q ∧ (∀ x, x ≠ v → parent w1 x = parent w x) ∧
      ∀ x, SameOrderExcept v (children w1 x) (children w x) := by
  by_cases he : parent w v = some q ∨ some q = some v
  · unfold setParent at h
    rw [if_pos he] at h
    have hw : w = w1 := Option.some.inj h
    subst hw
    rcases he with he | he
    · exact ⟨he, fun _ _ => rfl, fun _ => rfl⟩
    · exact absurd (Option.some.inj he) hqv
  · obtain ⟨hP, hC, _⟩ := setParent_effect w n v (some q) w1 he h
    refine ⟨by rw [hP, if_pos rfl], fun x hx => by rw [hP, if_neg hx], ?_⟩
    intro x
    rw [hC]
    by_cases hx : some q = some x
    · rw [if_pos hx]
      exact sameOrderExcept_trans v _ _ _ (sameOrderExcept_concat v _)
        (sameOrderExcept_childrenDetached w v x)
    · rw [if_neg hx]
      exact sameOrderExcept_childrenDetached w v x

/-! ## Consistency of the child lists under `insertAfter` -/

theorem singleMembership_congr (w w' : World F) (hwf : SingleMembership w)
    (hP : ∀ x, parent w' x = parent w x)
    (hL : ∀ x, (w'.view x).parentLink = (w.view x).parentLink)
    (hC : ∀ x, children w' x = children w x) : SingleMembership w' := by
  refine ⟨?_, ?_, ?_⟩
  · intro c x; rw [hP, hC]; exact hwf.mem_iff c x
  · intro x; rw [hC]; exact hwf.nodup x
  · intro c x hcx
    rw [hL]
    rw [hP] at hcx
    exact hwf.link c x hcx

theorem singleMembership_of_insertAfterPrev (w : World F) (hwf : SingleMembership w)
    (v pv : ViewId) (hne : pv ≠ v) (hsame : parent w pv = parent w v) :
    SingleMembership (insertAfterPrev w v pv) := by
  cases hv : parent w v with
  | none =>
    have hid : insertAfterPrev w v pv = repaint (markAsChangedOrder w v) v := by
      unfold insertAfterPrev
      simp only [parent_repaint, parent_markAsChangedOrder, hv]
    rw [hid]
    exact singleMembership_congr w _ hwf (fun x => by simp) (fun x => by simp)
      (fun x => by simp)
  | some q =>
    have hp : parent w pv = some q := by rw [hsame, hv]
    obtain ⟨hP, hC, ⟨l1, l2, he1, he2⟩, hL⟩ := insertAfterPrev_effect w hwf v pv q hv hp hne
    apply singleMembership_of_reorder w _ hwf q hP hL hC
    rw [he2]
    exact perm_middle_erase v pv _ l1 l2 ((hwf.mem_iff v q).mpr hv) he1

/-- The child lists stay consistent under `insertAfter`, unless the call switches the
parent and the parent of `prev` is the view itself. -/
theorem singleMembership_of_insertAfter (w : World F) (hwf : SingleMembership w) (n : Nat)
    (v : ViewId) (prev : Option ViewId) (sw : Bool)
    (hok : sw = true → ∀ pv, prev = some pv → parent w pv ≠ some v)
    (w' : World F) (h : insertAfter w n v prev sw = some w') : SingleMembership w' := by
  unfold insertAfter at h
  by_cases hs : prev = some v
  · rw [if_pos hs] at h
    rw [← Option.some.inj h]; exact hwf
  · rw [if_neg hs] at h
    cases prev with
    | none =>
      simp only at h
      cases hp : parent w v with
      | none =>
        rw [hp] at h
        rw [← Option.some.inj h]; exact hwf
      | some p =>
        rw [hp] at h
        simp only at h
        by_cases hf : (children w p).head? = some v
        · rw [if_pos hf] at h
          rw [← Option.some.inj h]; exact hwf
        · rw [if_neg hf] at h
          rw [← Option.some.inj h]
          have hlv : (w.view v).parentLink = some p := hwf.link v p hp
          apply singleMembership_of_reorder w _ hwf p
          · intro x; simp
          · intro x
            by_cases hx : x = v
            · simp [parentLink_pushFront, hx, hlv]
            · simp [parentLink_pushFront, hx]
          · intro x hx
            have hpx : ¬ p = x := fun e => hx e.symm
            simp [children_pushFront, children_eraseLink, hlv, hx, hpx]
          · simp only [children_repaint, children_markAsChangedOrder, children_pushFront,
              children_eraseLink, hlv, if_true]
            exact (List.perm_cons_erase ((hwf.mem_iff v p).mpr hp)).symm
    | some pv =>
      have hne : pv ≠ v := fun e => hs (by rw [e])
      simp only at h
      by_cases hsw : sw = true
      · rw [if_pos hsw] at h
        cases hsp : setParent w n v (parent w pv) with
        | none => rw [hsp] at h; exact absurd h (by simp)
        | some w1 =>
          rw [hsp] at h
          rw [← Option.some.inj h]
          have hwf1 := singleMembership_of_setParent w hwf n v (parent w pv) w1 hsp
          have hq : parent w pv ≠ some v := hok hsw pv rfl
          apply singleMembership_of_insertAfterPrev w1 hwf1 v pv hne
          by_cases he : parent w v = parent w pv ∨ parent w pv = some v
          · unfold setParent at hsp
            rw [if_pos he] at hsp
            have hw : w = w1 := Option.some.inj hsp
            subst hw
            rcases he with he | he
            · exact he.symm
            · exact absurd he hq
          · obtain ⟨hP, _, _⟩ := setParent_effect w n v (parent w pv) w1 he hsp
            rw [hP, hP, if_neg hne, if_pos rfl]
      · rw [if_neg hsw] at h
        by_cases hpp : parent w pv ≠ parent w v
        · rw [if_pos hpp] at h
          rw [← Option.some.inj h]; exact hwf
        · rw [if_neg hpp] at h
          rw [← Option.some.inj h]
          exact singleMembership_of_insertAfterPrev w hwf v pv hne (not_not.mp hpp)

/-! ## Visibility -/

/-- C1: in an acyclic view tree `v.mapped()` returns a value `b`; for a Scene view
without parent `b = visible(v)`; otherwise `b` is true exactly when `v` is
visible, natively mapped, has a parent `p` and `p.mapped()` returns true.  In
particular a view without parent that is not a Scene is not mapped. -/
theorem mapped_spec (w : World F) (hac : Acyclic w) (v : ViewId) :
    ∃ b, MappedTo w v b ∧
      ((type w v = ViewType.Scene ∧ parent w v = none) → b = visible w v) ∧
      (¬(type w v = ViewType.Scene ∧ parent w v = none) →
        (b = true ↔ visible w v = true ∧ nativeMapped w v = true ∧
          ∃ p, parent w v = some p ∧ MappedTo w p true)) ∧
      (parent w v = none → type w v ≠ ViewType.Scene → b = false) := by
  obtain ⟨b, hb⟩ := mappedTo_exists w v (hac v)
  obtain ⟨n, hn⟩ := hb
  have hstep : mapped w (n + 1) v = some b := hn (n + 1) (Nat.le_succ n)
  refine ⟨b, ⟨n, hn⟩, ?_, ?_, ?_⟩
  · intro h1
    rw [mapped, if_pos h1] at hstep
    exact (Option.some.inj hstep).symm
  · intro h1
    rw [mapped, if_neg h1] at hstep
    by_cases h2 : (visible w v && nativeMapped w v) = true
    · rw [if_pos h2] at hstep
      have hv : visible w v = true ∧ nativeMapped w v = true := by
        simpa [Bool.and_eq_true] using h2
      cases hp : parent w v with
      | none =>
        rw [hp] at hstep
        have hbf : b = false := (Option.some.inj hstep).symm
        subst hbf
        simp
      | some p =>
        rw [hp] at hstep
        constructor
        · intro hbt
          subst hbt
          exact ⟨hv.1, hv.2, p, rfl, mappedTo_of_eq w p true n hstep⟩
        · rintro ⟨_, _, q, hq, hm⟩
          have hqp : q = p := (Option.some.inj hq).symm
          subst hqp
          exact mappedTo_unique w q b true (mappedTo_of_eq w q b n hstep) hm
    · rw [if_neg h2] at hstep
      have hbf : b = false := (Option.some.inj hstep).symm
      subst hbf
      constructor
      · intro h; exact absurd h (by decide)
      · rintro ⟨hv1, hv2, _⟩
        exact absurd (by simp [hv1, hv2]) h2
  · intro hp ht
    have h1 : ¬(type w v = ViewType.Scene ∧ parent w v = none) := fun h => ht h.1
    rw [mapped, if_neg h1, hp] at hstep
    by_cases h2 : (visible w v && nativeMapped w v) = true
    · rw [if_pos h2] at hstep; exact (Option.some.inj hstep).symm
    · rw [if_neg h2] at hstep; exact (Option.some.inj hstep).symm

theorem sceneWorld_acyclic : Acyclic sceneWorld := by
  intro v
  by_cases h1 : v = 1
  · subst h1; exact ⟨1, by decide⟩
  · by_cases h0 : v = 0
    · subst h0; exact ⟨0, by decide⟩
    · exact ⟨0, by simp [rootWithin, parent, sceneWorld, h0, h1, blankView]⟩

/-- Witness for C1 on `sceneWorld`, at the child view `1`. -/
theorem mapped_spec_witness :
    Acyclic sceneWorld ∧
    ∃ b, MappedTo sceneWorld 1 b ∧
      ((type sceneWorld 1 = ViewType.Scene ∧ parent sceneWorld 1 = none) →
        b = visible sceneWorld 1) ∧
      (¬(type sceneWorld 1 = ViewType.Scene ∧ parent sceneWorld 1 = none) →
        (b = true ↔ visible sceneWorld 1 = true ∧ nativeMapped sceneWorld 1 = true ∧
          ∃ p, parent sceneWorld 1 = some p ∧ MappedTo sceneWorld p true)) ∧
      (parent sceneWorld 1 = none → type sceneWorld 1 ≠ ViewType.Scene → b = false) :=
  ⟨sceneWorld_acyclic, mapped_spec sceneWorld sceneWorld_acyclic 1⟩

/-! ## Bounding box -/

/-- C2: in an acyclic tree that is finite below `v`, `v.boundingBox()` returns a box
`B`, and for every child `c` of `v` for which `c.mapped()` returns true,
`c.boundingBox()` returns a box `Bc` with `B.x1 ≤ Bc.x1`, `B.y1 ≤ Bc.y1`,
`Bc.x2 ≤ B.x2` and `Bc.y2 ≤ B.y2` (integer coordinates without overflow). -/
theorem boundingBox_contains_mapped_child [Float32Ops F] (w : World F) (hac : Acyclic w)
    (v : ViewId) (hfin : FiniteBelow w v) :
    ∃ B, BoundingBoxTo w v B ∧
      ∀ c ∈ children w v, MappedTo w c true →
        ∃ Bc, BoundingBoxTo w c Bc ∧
          B.x1 ≤ Bc.x1 ∧ B.y1 ≤ Bc.y1 ∧ Bc.x2 ≤ B.x2 ∧ Bc.y2 ≤ B.y2 := by
  obtain ⟨h, hh⟩ := hfin
  obtain ⟨n, B, hB⟩ := boundingBox_returns w hac h v hh
  refine ⟨B, boundingBoxTo_of_eq w v B n hB, ?_⟩
  intro c hc hm
  obtain ⟨n1, hn1⟩ := hm
  have hB2 : boundingBox w (max n n1 + 1) v = some B :=
    boundingBox_mono_le w v B n _ (le_trans (le_max_left n n1) (Nat.le_succ _)) hB
  rw [boundingBox] at hB2
  cases hp : pos w (max n n1) v with
  | none => rw [hp] at hB2; exact absurd hB2 (by simp)
  | some p =>
    cases hs : size w (max n n1) v with
    | none => rw [hp, hs] at hB2; exact absurd hB2 (by simp)
    | some sz =>
      rw [hp, hs] at hB2
      simp only at hB2
      obtain ⟨_, hall⟩ := boundingBoxLoop_contains _ _ _ _ _ hB2
      obtain ⟨cb, hcb, hcont⟩ := hall c hc (hn1 _ (le_max_right n n1))
      exact ⟨cb, boundingBoxTo_of_eq w c cb _ hcb, hcont⟩

/-- Witness for C2 on `sceneWorld`, at the scene main view `0`. -/
theorem boundingBox_contains_mapped_child_witness :
    Acyclic sceneWorld ∧ FiniteBelow sceneWorld 0 ∧
    ∃ B, BoundingBoxTo sceneWorld 0 B ∧
      ∀ c ∈ children sceneWorld 0, MappedTo sceneWorld c true →
        ∃ Bc, BoundingBoxTo sceneWorld c Bc ∧
          B.x1 ≤ Bc.x1 ∧ B.y1 ≤ Bc.y1 ∧ Bc.x2 ≤ B.x2 ∧ Bc.y2 ≤ B.y2 :=
  ⟨sceneWorld_acyclic, ⟨1, by decide⟩,
    boundingBox_contains_mapped_child sceneWorld sceneWorld_acyclic 0 ⟨1, by decide⟩⟩

/-! ## `setParent` and `insertAfter`: calls without effect -/

/-- C3: `v.setParent(p)` with `p` the current parent of `v` or `p = v` returns at
once and leaves the whole state as it was: every parent pointer, every child
list, the order-changed flag of every scene, every repaint flag and the list of
scheduled repaints and scene damages. -/
theorem setParent_same_or_self (w : World F) (fuel : Nat) (v : ViewId) (p : Option ViewId)
    (h : p = parent w v ∨ p = some v) : setParent w fuel v p = some w := by
  unfold setParent
  rw [if_pos]
  rcases h with h | h
  · exact Or.inl h.symm
  · exact Or.inr h

/-- Witness for C3 on `sceneWorld`: view `1` is given its current parent `0`. -/
theorem setParent_same_or_self_witness :
    (some 0 = parent sceneWorld 1 ∨ some 0 = some 1) ∧
      setParent sceneWorld 0 1 (some 0) = some sceneWorld :=
  ⟨Or.inl (by decide), setParent_same_or_self sceneWorld 0 1 (some 0) (Or.inl (by decide))⟩

/-- C8: `v.insertAfter(v, switchParent)` returns at once for either value of
`switchParent` and leaves the whole state as it was: no child list is reordered,
no parent changes, no order-changed mark is set and no repaint is scheduled. -/
theorem insertAfter_self (w : World F) (fuel : Nat) (v : ViewId) (switchParent : Bool) :
    insertAfter w fuel v (some v) switchParent = some w := by
  unfold insertAfter
  rw [if_pos rfl]

/-! ## `setParent`: re-parenting -/

/-- C4: in a state with consistent child lists, for a view `v` with a finite parent
chain and an argument `view` that is neither `v` nor the current parent of `v`,
`v.setParent(view)` returns, and afterwards the parent of `v` is `view`; when
`view` is a view `p`, `v` is the last element of `children(p)`; `v` does not occur
in the child list of its former parent; every other view keeps its parent and
all other views keep their relative order in every child list.  With `view`
null this says that `v` is removed from the child list of its former parent and
has no parent. -/
theorem setParent_reparents (w : World F) (hwf : SingleMembership w) (v : ViewId)
    (hce : ChainEnds w v) (view : Option ViewId)
    (hself : view ≠ some v) (hpar : view ≠ parent w v) :
    ∃ w', SetParentTo w v view w' ∧
      parent w' v = view ∧
      (∀ p, view = some p → (children w' p).getLast? = some v) ∧
      (∀ q, parent w v = some q → v ∉ children w' q) ∧
      (∀ x, x ≠ v → parent w' x = parent w x) ∧
      (∀ x, SameOrderExcept v (children w' x) (children w x)) := by
  obtain ⟨w', hw'⟩ := setParent_returns w v view hce
  obtain ⟨n, hn⟩ := hw'
  have hne : ¬(parent w v = view ∨ view = some v) := by
    rintro (h | h)
    · exact hpar h.symm
    · exact hself h
  obtain ⟨hP, hC, _⟩ := setParent_effect w n v view w' hne (hn n (le_refl n))
  refine ⟨w', ⟨n, hn⟩, ?_, ?_, ?_, ?_, ?_⟩
  · rw [hP]; simp
  · intro p hp
    rw [hC, if_pos hp]
    exact List.getLast?_concat _
  · intro q hq
    have hvq : ¬ view = some q := fun h => hpar (h.trans hq.symm)
    rw [hC, if_neg hvq]
    unfold childrenDetached
    rw [if_pos ⟨by simp [hq], hwf.link v q hq⟩]
    exact (hwf.nodup q).not_mem_erase
  · intro x hx
    rw [hP, if_neg hx]
  · intro x
    rw [hC]
    by_cases hx : view = some x
    · rw [if_pos hx]
      exact sameOrderExcept_trans v _ _ _ (sameOrderExcept_concat v _)
        (sameOrderExcept_childrenDetached w v x)
    · rw [if_neg hx]
      exact sameOrderExcept_childrenDetached w v x

/-- Witness for C4 on `stackWorld`: view `2` is moved under its sibling `3`. -/
theorem setParent_reparents_witness :
    SingleMembership stackWorld ∧ ChainEnds stackWorld 2 ∧
    (some 3 : Option ViewId) ≠ some 2 ∧ some 3 ≠ parent stackWorld 2 ∧
    ∃ w', SetParentTo stackWorld 2 (some 3) w' ∧
      parent w' 2 = some 3 ∧
      (∀ p, (some 3 : Option ViewId) = some p → (children w' p).getLast? = some 2) ∧
      (∀ q, parent stackWorld 2 = some q → 2 ∉ children w' q) ∧
      (∀ x, x ≠ 2 → parent w' x = parent stackWorld x) ∧
      (∀ x, SameOrderExcept 2 (children w' x) (children stackWorld x)) :=
  ⟨stackWorld_singleMembership, stackWorld_acyclic 2, by decide, by decide,
    setParent_reparents stackWorld stackWorld_singleMembership 2 (stackWorld_acyclic 2)
      (some 3) (by decide) (by decide)⟩

theorem setParent_stackWorld_cycle : setParent stackWorld 1 0 (some 1) = some cycleWorld := rfl

theorem stackWorld_one_below_zero : IsProperDescendant stackWorld 1 0 := ⟨0, by decide⟩

/-- C5, as stated, fails: in the acyclic `stackWorld` view `1` is a child of view
`0`, yet `0.setParent(1)` is carried out: the parent of `0` and the child list of
`1` change. -/
theorem setParent_descendant_counterexample :
    Acyclic stackWorld ∧ IsProperDescendant stackWorld 1 0 ∧
    ∃ w', SetParentTo stackWorld 0 (some 1) w' ∧
      parent stackWorld 0 = none ∧ parent w' 0 = some 1 ∧
      children stackWorld 1 = [] ∧ children w' 1 = [0] :=
  ⟨stackWorld_acyclic, stackWorld_one_below_zero, cycleWorld,
    setParentTo_of_eq stackWorld 0 (some 1) cycleWorld 1 setParent_stackWorld_cycle,
    by decide, by decide, by decide, by decide⟩

/-- C5, amended: `setParent` has no cycle check.  In an acyclic state with consistent
child lists, `v.setParent(p)` for a proper descendant `p` of `v` returns and
re-parents `v` like any other call: the parent of `v` is `p`, `v` is the last
element of `children(p)` and is gone from the child list of its former parent, so
that `v` is its own ancestor afterwards.  Only the call `v.setParent(v)` is
rejected and leaves the state unchanged. -/
theorem setParent_descendant_reparents (w : World F) (hwf : SingleMembership w)
    (hac : Acyclic w) (v p : ViewId) (hd : IsProperDescendant w p v) :
    (∃ w', SetParentTo w v (some p) w' ∧
      parent w' v = some p ∧
      (children w' p).getLast? = some v ∧
      (∀ q, parent w v = some q → v ∉ children w' q) ∧
      IsProperDescendant w' v v) ∧
    ∀ fuel, setParent w fuel v (some v) = some w := by
  have hpv : p ≠ v := descendant_ne w hac p v hd
  have hpar : parent w v ≠ some p := descendant_ne_parent w hac p v hd
  refine ⟨?_, fun fuel => by unfold setParent; rw [if_pos (Or.inr rfl)]⟩
  obtain ⟨w', hw'⟩ := setParent_returns w v (some p) (hac v)
  obtain ⟨n, hn⟩ := hw'
  have hne : ¬(parent w v = some p ∨ some p = some v) := by
    rintro (h | h)
    · exact hpar h
    · exact hpv (Option.some.inj h)
  obtain ⟨hP, hC, _⟩ := setParent_effect w n v (some p) w' hne (hn n (le_refl n))
  have hPv : parent w' v = some p := by rw [hP]; simp
  refine ⟨w', ⟨n, hn⟩, hPv, ?_, ?_, ?_⟩
  · rw [hC, if_pos rfl]
    exact List.getLast?_concat _
  · intro q hq
    have hvq : ¬ some p = some q := fun h => hpar (hq.trans h.symm)
    rw [hC, if_neg hvq]
    unfold childrenDetached
    rw [if_pos ⟨by simp [hq], hwf.link v q hq⟩]
    exact (hwf.nodup q).not_mem_erase
  · have hex : ∃ k, ancestorAt w (k + 1) p = some v := hd
    have hmin : ∀ i, i < Nat.find hex → ancestorAt w (i + 1) p ≠ some v :=
      fun i hi => Nat.find_min hex hi
    have hk := Nat.find_spec hex
    have havoid : ∀ j, j < Nat.find hex + 1 → ancestorAt w j p ≠ some v := by
      intro j hj
      cases j with
      | zero =>
        intro h0
        exact hpv (Option.some.inj h0)
      | succ i => exact hmin i (Nat.lt_of_succ_lt_succ hj)
    have hsame := ancestorAt_congr_avoid w w' v
      (fun x hx => by rw [hP, if_neg hx]) p (Nat.find hex + 1) havoid
      (Nat.find hex + 1) (le_refl _)
    refine ⟨Nat.find hex + 1, ?_⟩
    rw [ancestorAt, hPv]
    simp only
    rw [hsame]
    exact hk

/-- Witness for the amended C5 on `stackWorld`: view `0` is given its child `1` as
parent. -/
theorem setParent_descendant_reparents_witness :
    SingleMembership stackWorld ∧ Acyclic stackWorld ∧ IsProperDescendant stackWorld 1 0 ∧
    (∃ w', SetParentTo stackWorld 0 (some 1) w' ∧
      parent w' 0 = some 1 ∧
      (children w' 1).getLast? = some 0 ∧
      (∀ q, parent stackWorld 0 = some q → 0 ∉ children w' q) ∧
      IsProperDescendant w' 0 0) ∧
    ∀ fuel, setParent stackWorld fuel 0 (some 0) = some stackWorld :=
  ⟨stackWorld_singleMembership, stackWorld_acyclic, ⟨0, by decide⟩,
    setParent_descendant_reparents stackWorld stackWorld_singleMembership stackWorld_acyclic
      0 1 ⟨0, by decide⟩⟩

/-! ## Acyclicity -/

theorem singleMembership_of_callTo (w : World F) (hwf : SingleMembership w) (c : Call)
    (hsafe : c.KeepsForest w) (w1 : World F) (h : CallTo w c w1) : SingleMembership w1 := by
  obtain ⟨n, hn⟩ := h
  have hrun := hn n (le_refl n)
  cases c with
  | setParent self view => exact singleMembership_of_setParent w hwf n self view w1 hrun
  | insertAfter self prev sw =>
    refine singleMembership_of_insertAfter w hwf n self prev sw ?_ w1 hrun
    intro hsw pv hpv hq
    exact (hsafe hsw pv self hpv hq).1 rfl

theorem guardedRun_invariant (w w' : World F) (cs : List Call) (h : GuardedRun w cs w') :
    Acyclic w → SingleMembership w → Acyclic w' ∧ SingleMembership w' := by
  induction h with
  | nil w => exact fun h1 h2 => ⟨h1, h2⟩
  | cons w w1 w2 c cs hsafe hcall _ ih =>
    intro hac hwf
    exact ih (acyclic_of_callTo w hac c hsafe w1 hcall)
      (singleMembership_of_callTo w hwf c hsafe w1 hcall)

theorem keepsForest_excludes_own_child (w : World F) (v pv : ViewId)
    (hp : parent w pv = some v) : ¬ (Call.insertAfter v (some pv) true).KeepsForest w :=
  fun h => (h rfl pv v rfl hp).1 rfl

theorem stackWorld_root_no_ancestor (k : Nat) (x : ViewId) :
    ancestorAt stackWorld (k + 1) 0 ≠ some x := by
  rw [ancestorAt]
  simp [parent, stackWorld, blankView]

theorem cycleWorld_not_acyclic : ¬ Acyclic cycleWorld :=
  fun h => not_descendant_of_self cycleWorld 0 (h 0) ⟨1, by decide⟩

/-- C6, as stated, fails: `stackWorld` is acyclic, and the single call
`0.setParent(1)`, with `1` a child of `0`, leaves a state in which view `0` is its
own ancestor. -/
theorem acyclic_not_invariant_counterexample :
    Acyclic stackWorld ∧
    ∃ w', CallTo stackWorld (Call.setParent 0 (some 1)) w' ∧
      IsProperDescendant w' 0 0 ∧ ¬ Acyclic w' :=
  ⟨stackWorld_acyclic, cycleWorld,
    ⟨1, fun m hm => setParent_mono_le stackWorld 0 (some 1) cycleWorld 1 m hm
      setParent_stackWorld_cycle⟩,
    ⟨1, by decide⟩, cycleWorld_not_acyclic⟩

/-- C6, amended: acyclicity is kept, together with the consistency of the child
lists, by every call that does not ask for a proper descendant of the view as
its new parent (the argument of `setParent`, or the parent of `prev` in an
`insertAfter` that switches the parent) and that is not an `insertAfter` that
switches the parent with a `prev` that is a child of the view itself.  Starting
from an acyclic state with consistent child lists, each such call returns and
leaves an acyclic state with consistent child lists, and so does every finite
sequence of such calls. -/
theorem acyclic_preserved (w : World F) (hac : Acyclic w) (hwf : SingleMembership w) :
    (∀ c : Call, c.KeepsForest w →
      ∃ w1, CallTo w c w1 ∧ Acyclic w1 ∧ SingleMembership w1) ∧
    (∀ (cs : List Call) (w' : World F), GuardedRun w cs w' →
      Acyclic w' ∧ SingleMembership w') := by
  constructor
  · intro c hsafe
    obtain ⟨w1, h1⟩ := callTo_exists w hac c
    exact ⟨w1, h1, acyclic_of_callTo w hac c hsafe w1 h1,
      singleMembership_of_callTo w hwf c hsafe w1 h1⟩
  · intro cs w' hrun
    exact guardedRun_invariant w w' cs hrun hac hwf

/-- Witness for the amended C6 on `stackWorld`, with the call `3.insertAfter(1, true)`
as an instance: the parent `0` of `prev = 1` is neither view `3` nor below it. -/
theorem acyclic_preserved_witness :
    Acyclic stackWorld ∧ SingleMembership stackWorld ∧
    (Call.insertAfter 3 (some 1) true).KeepsForest stackWorld ∧
    (∃ w1, CallTo stackWorld (Call.insertAfter 3 (some 1) true) w1 ∧ Acyclic w1 ∧
      SingleMembership w1) ∧
    (∀ (cs : List Call) (w' : World Int), GuardedRun stackWorld cs w' →
      Acyclic w' ∧ SingleMembership w') :=
  have hkeep : (Call.insertAfter 3 (some 1) true).KeepsForest stackWorld := by
    intro _ pv q hpv hq
    have e : pv = 1 := (Option.some.inj hpv).symm
    subst e
    have hq0 : q = 0 := (Option.some.inj hq).symm
    subst hq0
    exact ⟨by decide, fun ⟨k, hk⟩ => stackWorld_root_no_ancestor k 3 hk⟩
  ⟨stackWorld_acyclic, stackWorld_singleMembership, hkeep,
    (acyclic_preserved stackWorld stackWorld_acyclic stackWorld_singleMembership).1 _ hkeep,
    (acyclic_preserved stackWorld stackWorld_acyclic stackWorld_singleMembership).2⟩

/-! ## `insertAfter` with a switch of parent -/

/-- C10: in a state with consistent child lists, for a view `v` with a finite parent
chain and a view `prev ≠ v` whose parent `q` exists and is not `v`,
`v.insertAfter(prev, true)` returns, and afterwards the parent of `v` is `q`, `v`
is the element right after `prev` in `children(q)`, `v` occurs in no other child
list, every other view keeps its parent, all other views keep their relative
order in every child list and the child lists are still consistent, whether or
not `q` was the parent of `v` before. -/
theorem insertAfter_switchParent (w : World F) (hwf : SingleMembership w) (v prev q : ViewId)
    (hce : ChainEnds w v) (hne : prev ≠ v) (hq : parent w prev = some q) (hqv : q ≠ v) :
    ∃ w', InsertAfterTo w v (some prev) true w' ∧
      parent w' v = some q ∧
      (∃ l1 l2, children w' q = l1 ++ prev :: v :: l2) ∧
      (∀ x, x ≠ q → v ∉ children w' x) ∧
      (∀ x, x ≠ v → parent w' x = parent w x) ∧
      (∀ x, SameOrderExcept v (children w' x) (children w x)) ∧
      SingleMembership w' := by
  obtain ⟨w1, n, hn⟩ := setParent_returns w v (some q) hce
  have h1 : setParent w n v (some q) = some w1 := hn n (le_refl n)
  have hrun : insertAfter w n v (some prev) true = some (insertAfterPrev w1 v prev) := by
    unfold insertAfter
    have hs : ¬ (some prev = some v) := fun h => hne (Option.some.inj h)
    rw [if_neg hs]
    simp only [hq, h1, if_true]
  have hwf1 : SingleMembership w1 := singleMembership_of_setParent w hwf n v (some q) w1 h1
  obtain ⟨hv1, hP1, hO1⟩ := setParent_some_facts w n v q hqv w1 h1
  have hp1 : parent w1 prev = some q := by rw [hP1 prev hne]; exact hq
  obtain ⟨hP, hC, ⟨l1, l2, he1, he2⟩, hL⟩ := insertAfterPrev_effect w1 hwf1 v prev q hv1 hp1 hne
  have hvmem : v ∈ children w1 q := (hwf1.mem_iff v q).mpr hv1
  refine ⟨insertAfterPrev w1 v prev, insertAfterTo_of_eq w v (some prev) true _ n hrun,
    ?_, ⟨l1, l2, he2⟩, ?_, ?_, ?_, ?_⟩
  · rw [hP]; exact hv1
  · intro x hx hmem
    rw [hC x hx] at hmem
    have hpx := (hwf1.mem_iff v x).mp hmem
    rw [hv1] at hpx
    exact hx (Option.some.inj hpx).symm
  · intro x hx
    rw [hP]; exact hP1 x hx
  · intro x
    by_cases hx : x = q
    · subst hx
      rw [he2]
      exact sameOrderExcept_trans v _ _ _ (sameOrderExcept_middle v prev _ l1 l2 he1) (hO1 x)
    · rw [hC x hx]; exact hO1 x
  · apply singleMembership_of_reorder w1 _ hwf1 q hP hL hC
    rw [he2]
    exact perm_middle_erase v prev _ l1 l2 hvmem he1

/-- Witness for C10 on `stackWorld`: the parentless view `4` is inserted after view
`1`, whose parent is the scene main view `0`. -/
theorem insertAfter_switchParent_witness :
    SingleMembership stackWorld ∧ ChainEnds stackWorld 4 ∧ (1 : ViewId) ≠ 4 ∧
    parent stackWorld 1 = some 0 ∧ (0 : ViewId) ≠ 4 ∧
    ∃ w', InsertAfterTo stackWorld 4 (some 1) true w' ∧
      parent w' 4 = some 0 ∧
      (∃ l1 l2, children w' 0 = l1 ++ 1 :: 4 :: l2) ∧
      (∀ x, x ≠ 0 → 4 ∉ children w' x) ∧
      (∀ x, x ≠ 4 → parent w' x = parent stackWorld x) ∧
      (∀ x, SameOrderExcept 4 (children w' x) (children stackWorld x)) ∧
      SingleMembership w' :=
  ⟨stackWorld_singleMembership, stackWorld_acyclic 4, by decide, by decide, by decide,
    insertAfter_switchParent stackWorld stackWorld_singleMembership 4 1 0
      (stackWorld_acyclic 4) (by decide) (by decide) (by decide)⟩

/-! ## `insertAfter` with a null `prev` -/

/-- C9: in a state with consistent child lists, `v.insertAfter(null)` returns (with
any fuel and either value of `switchParent`).  If `v` has a parent `p`, then
afterwards `v` is the first element of `children(p)`, the parent of `v` is still
`p`, `children(p)` is a permutation of its previous content in which the other
children keep their relative order, and no other child list or parent pointer
changes.  If `v` has no parent, or `v` is already the first child of its parent,
the state is left as it was: nothing changes and no repaint is scheduled. -/
theorem insertAfter_null (w : World F) (hwf : SingleMembership w) (fuel : Nat) (v : ViewId)
    (sw : Bool) :
    (∀ p, parent w v = some p →
      ∃ w', insertAfter w fuel v none sw = some w' ∧
        parent w' v = some p ∧
        (children w' p).head? = some v ∧
        (children w' p).Perm (children w p) ∧
        SameOrderExcept v (children w' p) (children w p) ∧
        (∀ x, x ≠ p → children w' x = children w x) ∧
        (∀ x, parent w' x = parent w x)) ∧
    (parent w v = none → insertAfter w fuel v none sw = some w) ∧
    (∀ p, parent w v = some p → (children w p).head? = some v →
      insertAfter w fuel v none sw = some w) := by
  have hs : ¬ ((none : Option ViewId) = some v) := by simp
  refine ⟨?_, ?_, ?_⟩
  · intro p hp
    have hmem : v ∈ children w p := (hwf.mem_iff v p).mpr hp
    have hlv : (w.view v).parentLink = some p := hwf.link v p hp
    unfold insertAfter
    rw [if_neg hs]
    simp only [hp]
    by_cases hf : (children w p).head? = some v
    · rw [if_pos hf]
      exact ⟨w, rfl, hp, hf, List.Perm.refl _, rfl, fun _ _ => rfl, fun _ => rfl⟩
    · rw [if_neg hf]
      refine ⟨_, rfl, ?_, ?_, ?_, ?_, ?_, ?_⟩
      · simp [hp]
      · simp [children_pushFront]
      · simp only [children_repaint, children_markAsChangedOrder, children_pushFront,
          children_eraseLink, hlv, if_true]
        exact (List.perm_cons_erase hmem).symm
      · simp only [children_repaint, children_markAsChangedOrder, children_pushFront,
          children_eraseLink, hlv, if_true]
        exact sameOrderExcept_trans v _ _ _ (sameOrderExcept_cons v _)
          (sameOrderExcept_erase v _)
      · intro x hx
        have hpx : ¬ p = x := fun e => hx e.symm
        simp [children_pushFront, children_eraseLink, hlv, hx, hpx]
      · intro x; simp
  · intro hp
    unfold insertAfter
    rw [if_neg hs]
    simp only [hp]
  · intro p hp hf
    unfold insertAfter
    rw [if_neg hs]
    simp only [hp, hf, if_true]

/-- Witness for C9 on `stackWorld`: the last child `3` of the scene main view is
moved to the front. -/
theorem insertAfter_null_witness :
    SingleMembership stackWorld ∧
    (∀ p, parent stackWorld 3 = some p →
      ∃ w', insertAfter stackWorld 0 3 none false = some w' ∧
        parent w' 3 = some p ∧
        (children w' p).head? = some 3 ∧
        (children w' p).Perm (children stackWorld p) ∧
        SameOrderExcept 3 (children w' p) (children stackWorld p) ∧
        (∀ x, x ≠ p → children w' x = children stackWorld x) ∧
        (∀ x, parent w' x = parent stackWorld x)) ∧
    (parent stackWorld 3 = none → insertAfter stackWorld 0 3 none false = some stackWorld) ∧
    (∀ p, parent stackWorld 3 = some p → (children stackWorld p).head? = some 3 →
      insertAfter stackWorld 0 3 none false = some stackWorld) :=
  ⟨stackWorld_singleMembership,
    insertAfter_null stackWorld stackWorld_singleMembership 0 3 false⟩

/-! ## Single membership -/

theorem setParent_stackWorld_nested : setParent stackWorld 2 3 (some 2) = some nestedWorld := rfl

theorem insertAfter_nestedWorld_broken :
    insertAfter nestedWorld 1 2 (some 3) true = some brokenWorld := rfl

/-- C7 at its failing input.  From the consistent state `stackWorld` the call
`3.setParent(2)` leads to the consistent state `nestedWorld`, in which view `2`
has the parent `0` and the child `3`.  The call `2.insertAfter(3, true)` then asks
`setParent` for the view itself as parent, which is refused, and goes on to
reorder: view `2` is unlinked from the child list of its parent `0`, which it
keeps as parent, and is linked after `3`, that is into its own child list.  The
child lists no longer agree with the parent pointers. -/
theorem insertAfter_own_child_breaks_membership :
    SingleMembership stackWorld ∧
    SetParentTo stackWorld 3 (some 2) nestedWorld ∧
    SingleMembership nestedWorld ∧
    parent nestedWorld 2 = some 0 ∧ parent nestedWorld 3 = some 2 ∧
    children nestedWorld 0 = [1, 2] ∧ children nestedWorld 2 = [3] ∧
    InsertAfterTo nestedWorld 2 (some 3) true brokenWorld ∧
    parent brokenWorld 2 = some 0 ∧
    children brokenWorld 0 = [1] ∧
    children brokenWorld 2 = [3, 2] ∧
    ¬ SingleMembership brokenWorld :=
  ⟨stackWorld_singleMembership,
    setParentTo_of_eq stackWorld 3 (some 2) nestedWorld 2 setParent_stackWorld_nested,
    singleMembership_of_setParent stackWorld stackWorld_singleMembership 2 3 (some 2)
      nestedWorld setParent_stackWorld_nested,
    by decide, by decide, by decide, by decide,
    insertAfterTo_of_eq nestedWorld 2 (some 3) true brokenWorld 1 insertAfter_nestedWorld_broken,
    by decide, by decide, by decide,
    fun h => absurd ((h.mem_iff 2 2).mp (by decide)) (by decide)⟩

/-! ## Repaint requests -/

theorem count_outputRepaint_map (o : OutputId) (l : List OutputId) :
    (l.map Event.outputRepaint).count (Event.outputRepaint o) = l.count o := by
  induction l with
  | nil => rfl
  | cons a rest ih =>
    by_cases h : a = o
    · subst h; simp [ih]
    · have h2 : ¬ (Event.outputRepaint a = Event.outputRepaint o) := by
        intro e; exact h (Event.outputRepaint.inj e)
      simp [List.count_cons, ih, h, h2]

theorem repaintCalled_repaint (w : World F) (v : ViewId) :
    ((repaint w v).view v).repaintCalled = true := by
  unfold repaint
  by_cases h : (w.view v).repaintCalled = true
  · simp [h]
  · simp [h]

theorem repaint_of_called (w : World F) (v : ViewId) (h : (w.view v).repaintCalled = true) :
    repaint w v = w := by
  unfold repaint
  rw [if_pos h]

theorem repaint_repaint (w : World F) (v : ViewId) : repaint (repaint w v) v = repaint w v :=
  repaint_of_called (repaint w v) v (repaintCalled_repaint w v)

/-- C11: for a view `v` whose repaint flag is clear, `v.repaint()` records one
`LOutput::repaint()` call for every entry of `v.outputs()`, in order, and nothing
else: the number of calls recorded for an output grows by the number of times it
occurs in `v.outputs()`, which is once for an output of a duplicate-free
`outputs()` and zero for every other output.  A second call changes nothing, and
`n ≥ 1` calls in a row leave the same state and the same scheduled redraws as a
single call. -/
theorem repaint_once (w : World F) (v : ViewId) (hclear : (w.view v).repaintCalled = false) :
    (repaint w v).events = w.events ++ (w.view v).outputs.map Event.outputRepaint ∧
    (∀ o, outputRepaints (repaint w v).events o =
      outputRepaints w.events o + (w.view v).outputs.count o) ∧
    ((w.view v).outputs.Nodup → ∀ o, outputRepaints (repaint w v).events o =
      outputRepaints w.events o + if o ∈ (w.view v).outputs then 1 else 0) ∧
    repaint (repaint w v) v = repaint w v ∧
    ∀ n, 1 ≤ n → repaintTimes w v n = repaint w v := by
  have hev : (repaint w v).events = w.events ++ (w.view v).outputs.map Event.outputRepaint := by
    unfold repaint
    simp [hclear]
  have hcount : ∀ o, outputRepaints (repaint w v).events o =
      outputRepaints w.events o + (w.view v).outputs.count o := by
    intro o
    unfold outputRepaints
    rw [hev, List.count_append, count_outputRepaint_map]
  refine ⟨hev, hcount, ?_, repaint_repaint w v, ?_⟩
  · intro hnd o
    rw [hcount]
    by_cases ho : o ∈ (w.view v).outputs
    · rw [if_pos ho, List.count_eq_one_of_mem hnd ho]
    · rw [if_neg ho, List.count_eq_zero_of_not_mem ho]
  · intro n hn
    induction n with
    | zero => exact absurd hn (by decide)
    | succ k ih =>
      cases k with
      | zero => rfl
      | succ j =>
        rw [repaintTimes, ih (Nat.succ_le_succ (Nat.zero_le j))]
        exact repaint_repaint w v

/-- Witness for C11 on `stackWorld`, at view `1`, whose only output is `7`. -/
theorem repaint_once_witness :
    (stackWorld.view 1).repaintCalled = false ∧
    (repaint stackWorld 1).events =
      stackWorld.events ++ (stackWorld.view 1).outputs.map Event.outputRepaint ∧
    (∀ o, outputRepaints (repaint stackWorld 1).events o =
      outputRepaints stackWorld.events o + (stackWorld.view 1).outputs.count o) ∧
    ((stackWorld.view 1).outputs.Nodup → ∀ o, outputRepaints (repaint stackWorld 1).events o =
      outputRepaints stackWorld.events o + if o ∈ (stackWorld.view 1).outputs then 1 else 0) ∧
    repaint (repaint stackWorld 1) 1 = repaint stackWorld 1 ∧
    ∀ n, 1 ≤ n → repaintTimes stackWorld 1 n = repaint stackWorld 1 :=
  ⟨by decide, repaint_once stackWorld 1 (by decide)⟩

/-! ## Attribute setters -/

theorem setView_self (w : World F) (v : ViewId) (d : LViewPrivate F) (h : d = w.view v) :
    w.setView v d = w := by
  subst h
  cases w with
  | mk view views listChanged events =>
    simp only [World.setView, World.mk.injEq, and_true]
    funext x
    by_cases hx : x = v
    · rw [if_pos hx, hx]
    · rw [if_neg hx]

theorem mapped_returns_from (w : World F) (v : ViewId) (h : ChainEnds w v) :
    ∃ b n, ∀ m, n ≤ m → mapped w m v = some b := by
  obtain ⟨b, n, hn⟩ := mappedTo_exists w v h
  exact ⟨b, n, hn⟩

/-- C12: a setter that is given the value the view already has changes nothing and
schedules no repaint, whether the view is mapped or not.  For `setOpacity` the
value is compared after clamping; floats are compared as values that are
numbers (a NaN differs from itself in the code).  `setOpacity`, `setVisible` and
`setScalingVector` call `mapped()`, which returns on a finite parent chain. -/
theorem setter_same_value [Float32Ops F] (w : World F) (v : ViewId) (hce : ChainEnds w v) :
    (∀ x : F, clampOpacity x = (w.view v).opacity → IsNumber (w.view v).opacity →
      SetOpacityTo w v x w) ∧
    SetVisibleTo w v (w.view v).visible w ∧
    (IsNumber (w.view v).scalingVector.1 → IsNumber (w.view v).scalingVector.2 →
      SetScalingVectorTo w v (w.view v).scalingVector w) ∧
    enableClipping w v (w.view v).clippingEnabled = w ∧
    setClippingRect w v (w.view v).clippingRect = w ∧
    setBlendFunc w v (w.view v).sFactor (w.view v).dFactor = w ∧
    (IsNumber (w.view v).colorFactor.1 → IsNumber (w.view v).colorFactor.2.1 →
      IsNumber (w.view v).colorFactor.2.2.1 → IsNumber (w.view v).colorFactor.2.2.2 →
      setColorFactor w v (w.view v).colorFactor.1 (w.view v).colorFactor.2.1
        (w.view v).colorFactor.2.2.1 (w.view v).colorFactor.2.2.2 = w) := by
  obtain ⟨b, n, hn⟩ := mapped_returns_from w v hce
  refine ⟨?_, ?_, ?_, ?_, ?_, ?_, ?_⟩
  · intro x hx hnum
    refine ⟨n, fun m hm => ?_⟩
    unfold setOpacity
    simp only [hn m hm, hx]
    unfold IsNumber at hnum
    simp only [hnum, Bool.and_false, Bool.false_eq_true, if_false]
    rw [setView_self w v _ rfl]
  · refine ⟨n, fun m hm => ?_⟩
    unfold setVisible
    have hsame : w.setView v { w.view v with visible := (w.view v).visible } = w :=
      setView_self w v _ rfl
    simp only [hn m hm, hsame]
    simp
  · intro h1 h2
    refine ⟨n, fun m hm => ?_⟩
    unfold setScalingVector
    unfold IsNumber at h1 h2
    simp only [hn m hm, neVec, h1, h2, Bool.or_self, Bool.and_false, Bool.false_eq_true,
      if_false]
    rw [setView_self w v _ rfl]
  · unfold enableClipping
    simp
  · unfold setClippingRect
    simp
  · unfold setBlendFunc
    simp
  · intro h1 h2 h3 h4
    unfold IsNumber at h1 h2 h3 h4
    unfold setColorFactor
    simp [h1, h2, h3, h4]

/-- Witness for C12 on `stackWorld`, at the mapped view `1`, whose opacity is `1`; the
last part is `setOpacity(1)` on that view. -/
theorem setter_same_value_witness :
    ChainEnds stackWorld 1 ∧
    (∀ x : Int, clampOpacity x = (stackWorld.view 1).opacity →
      IsNumber (stackWorld.view 1).opacity → SetOpacityTo stackWorld 1 x stackWorld) ∧
    SetVisibleTo stackWorld 1 (stackWorld.view 1).visible stackWorld ∧
    (IsNumber (stackWorld.view 1).scalingVector.1 →
      IsNumber (stackWorld.view 1).scalingVector.2 →
      SetScalingVectorTo stackWorld 1 (stackWorld.view 1).scalingVector stackWorld) ∧
    enableClipping stackWorld 1 (stackWorld.view 1).clippingEnabled = stackWorld ∧
    setClippingRect stackWorld 1 (stackWorld.view 1).clippingRect = stackWorld ∧
    setBlendFunc stackWorld 1 (stackWorld.view 1).sFactor (stackWorld.view 1).dFactor
      = stackWorld ∧
    (IsNumber (stackWorld.view 1).colorFactor.1 → IsNumber (stackWorld.view 1).colorFactor.2.1 →
      IsNumber (stackWorld.view 1).colorFactor.2.2.1 →
      IsNumber (stackWorld.view 1).colorFactor.2.2.2 →
      setColorFactor stackWorld 1 (stackWorld.view 1).colorFactor.1
        (stackWorld.view 1).colorFactor.2.1 (stackWorld.view 1).colorFactor.2.2.1
        (stackWorld.view 1).colorFactor.2.2.2 = stackWorld) ∧
    SetOpacityTo stackWorld 1 1 stackWorld :=
  ⟨stackWorld_acyclic 1, (setter_same_value stackWorld 1 (stackWorld_acyclic 1)).1,
    (setter_same_value stackWorld 1 (stackWorld_acyclic 1)).2.1,
    (setter_same_value stackWorld 1 (stackWorld_acyclic 1)).2.2.1,
    (setter_same_value stackWorld 1 (stackWorld_acyclic 1)).2.2.2.1,
    (setter_same_value stackWorld 1 (stackWorld_acyclic 1)).2.2.2.2.1,
    (setter_same_value stackWorld 1 (stackWorld_acyclic 1)).2.2.2.2.2.1,
    (setter_same_value stackWorld 1 (stackWorld_acyclic 1)).2.2.2.2.2.2,
    (setter_same_value stackWorld 1 (stackWorld_acyclic 1)).1 1 (by decide)
      (by unfold IsNumber; decide)⟩

/-- C13, as stated, fails: in `hiddenWorld` view `3` is not mapped, and yet
`enableClipping(true)`, `setClippingRect`, `setBlendFunc` and `setColorFactor`
with a new value each call `repaint()`: a redraw of output `7` is scheduled and
the repaint flag of the view is set. -/
theorem setter_unmapped_counterexample :
    MappedTo hiddenWorld 3 false ∧ hiddenWorld.events = [] ∧
    (hiddenWorld.view 3).repaintCalled = false ∧
    (enableClipping hiddenWorld 3 true).events = [Event.outputRepaint 7] ∧
    ((enableClipping hiddenWorld 3 true).view 3).repaintCalled = true ∧
    (setClippingRect hiddenWorld 3 (0, 0, 10, 10)).events = [Event.outputRepaint 7] ∧
    (setBlendFunc hiddenWorld 3 1 0).events = [Event.outputRepaint 7] ∧
    (setColorFactor hiddenWorld 3 0 1 1 1).events = [Event.outputRepaint 7] :=
  ⟨mappedTo_of_eq hiddenWorld 3 false 1 (by decide), by decide, by decide, by decide,
    by decide, by decide, by decide, by decide⟩

/-- C13, amended: on a view that is not mapped, `setOpacity` and `setScalingVector`
only store the new value, and so does `setVisible` when the view is not mapped
after the call either: no `repaint()` is made even when the value changes.
`enableClipping`, `setClippingRect`, `setBlendFunc` and `setColorFactor` do not
look at `mapped()`: on every view, mapped or not, and on every change of the
value they store it and call `repaint()`. -/
theorem setter_repaint_gate [Float32Ops F] (w : World F) (v : ViewId) :
    (MappedTo w v false →
      (∀ x : F,
        SetOpacityTo w v x (w.setView v { w.view v with opacity := clampOpacity x })) ∧
      (∀ s : F × F,
        SetScalingVectorTo w v s (w.setView v { w.view v with scalingVector := s })) ∧
      (∀ b : Bool, MappedTo (w.setView v { w.view v with visible := b }) v false →
        SetVisibleTo w v b (w.setView v { w.view v with visible := b }))) ∧
    (∀ b : Bool, b ≠ (w.view v).clippingEnabled →
      enableClipping w v b = repaint (w.setView v { w.view v with clippingEnabled := b }) v) ∧
    (∀ r : Int × Int × Int × Int, r ≠ (w.view v).clippingRect →
      setClippingRect w v r = repaint (w.setView v { w.view v with clippingRect := r }) v) ∧
    (∀ sf df : Nat, (w.view v).sFactor ≠ sf ∨ (w.view v).dFactor ≠ df →
      setBlendFunc w v sf df =
        repaint (w.setView v { w.view v with sFactor := sf, dFactor := df }) v) ∧
    (∀ r g b a : F,
      (Float32Ops.ne (w.view v).colorFactor.1 r || Float32Ops.ne (w.view v).colorFactor.2.1 g ||
        Float32Ops.ne (w.view v).colorFactor.2.2.1 b ||
        Float32Ops.ne (w.view v).colorFactor.2.2.2 a) = true →
      (setColorFactor w v r g b a).events =
        (repaint (w.setView v { w.view v with colorFactor := (r, g, b, a) }) v).events ∧
      ((setColorFactor w v r g b a).view v).repaintCalled = true) := by
  refine ⟨?_, ?_, ?_, ?_, ?_⟩
  · rintro ⟨n, hn⟩
    refine ⟨?_, ?_, ?_⟩
    · intro x
      refine ⟨n, fun m hm => ?_⟩
      unfold setOpacity
      simp only [hn m hm, Bool.false_and, Bool.false_eq_true, if_false]
    · intro s
      refine ⟨n, fun m hm => ?_⟩
      unfold setScalingVector
      simp only [hn m hm, Bool.false_and, Bool.false_eq_true, if_false]
    · intro b hb
      obtain ⟨n2, hn2⟩ := hb
      refine ⟨max n n2, fun m hm => ?_⟩
      unfold setVisible
      simp only [hn m (le_trans (le_max_left n n2) hm),
        hn2 m (le_trans (le_max_right n n2) hm)]
      simp
  · intro b hb
    unfold enableClipping
    have h1 : ((w.view v).clippingEnabled != b) = true := by
      simpa [bne_iff_ne] using fun e => hb e.symm
    rw [if_pos h1]
  · intro r hr
    unfold setClippingRect
    rw [if_pos hr]
  · intro sf df h
    unfold setBlendFunc
    rw [if_pos h]
  · intro r g b a h
    unfold setColorFactor
    simp only [h, if_true]
    constructor
    · simp
    · simp only [view_setView, if_true]
      exact repaintCalled_repaint _ v

/-- Witness for the amended C13: the gated setters at the unmapped view `3` of
`hiddenWorld`, and the setters without gate at that view and at the mapped view
`1` of `stackWorld`, where `enableClipping(true)` schedules a redraw of the
output `7`. -/
theorem setter_repaint_gate_witness :
    MappedTo hiddenWorld 3 false ∧
    ((∀ x : Int, SetOpacityTo hiddenWorld 3 x
      (hiddenWorld.setView 3 { hiddenWorld.view 3 with opacity := clampOpacity x })) ∧
    (∀ s : Int × Int, SetScalingVectorTo hiddenWorld 3 s
      (hiddenWorld.setView 3 { hiddenWorld.view 3 with scalingVector := s })) ∧
    (∀ b : Bool, MappedTo (hiddenWorld.setView 3 { hiddenWorld.view 3 with visible := b }) 3 false →
      SetVisibleTo hiddenWorld 3 b
        (hiddenWorld.setView 3 { hiddenWorld.view 3 with visible := b }))) ∧
    enableClipping hiddenWorld 3 true =
      repaint (hiddenWorld.setView 3 { hiddenWorld.view 3 with clippingEnabled := true }) 3 ∧
    MappedTo stackWorld 1 true ∧
    enableClipping stackWorld 1 true =
      repaint (stackWorld.setView 1 { stackWorld.view 1 with clippingEnabled := true }) 1 ∧
    (enableClipping stackWorld 1 true).events = [Event.outputRepaint 7] :=
  ⟨mappedTo_of_eq hiddenWorld 3 false 1 (by decide),
    (setter_repaint_gate hiddenWorld 3).1 (mappedTo_of_eq hiddenWorld 3 false 1 (by decide)),
    (setter_repaint_gate hiddenWorld 3).2.1 true (by decide),
    mappedTo_of_eq stackWorld 1 true 2 (by decide),
    (setter_repaint_gate stackWorld 1).2.1 true (by decide),
    by decide⟩

/-! ## Opacity -/

theorem opacity_mono [Float32Ops F] (w : World F) (n : Nat) :
    ∀ (v : ViewId) (f : Bool) (r : F),
      opacity w n v f = some r → opacity w (n + 1) v f = some r := by
  induction n with
  | zero => intro v f r h; simp [opacity] at h
  | succ k ih =>
    intro v f r h
    rw [opacity] at h ⊢
    by_cases hf : f = true
    · rw [if_pos hf] at h ⊢; exact h
    · rw [if_neg hf] at h ⊢
      by_cases hpo : (w.view v).parentOpacityEnabled = true
      · rw [if_pos hpo] at h ⊢
        cases hp : parent w v with
        | none => rw [hp] at h; exact h
        | some p =>
          rw [hp] at h
          simp only at h ⊢
          cases hq : opacity w k p (decide (type w p = ViewType.Scene)) with
          | none => rw [hq] at h; exact absurd h (by simp)
          | some o =>
            rw [hq] at h
            rw [ih p _ o hq]
            exact h
      · rw [if_neg hpo] at h ⊢; exact h

theorem opacity_mono_le [Float32Ops F] (w : World F) (v : ViewId) (f : Bool) (r : F)
    (n m : Nat) (hnm : n ≤ m) (h : opacity w n v f = some r) : opacity w m v f = some r := by
  induction hnm with
  | refl => exact h
  | step _ ih => exact opacity_mono w _ v f r ih

theorem opacityTo_of_eq [Float32Ops F] (w : World F) (v : ViewId) (f : Bool) (r : F) (n : Nat)
    (h : opacity w n v f = some r) : OpacityTo w v f r :=
  ⟨n, fun m hm => opacity_mono_le w v f r n m hm h⟩

theorem opacityTo_unique [Float32Ops F] (w : World F) (v : ViewId) (f : Bool) (a b : F)
    (ha : OpacityTo w v f a) (hb : OpacityTo w v f b) : a = b := by
  obtain ⟨n, hn⟩ := ha
  obtain ⟨m, hm⟩ := hb
  have h1 := hn (max n m) (le_max_left _ _)
  have h2 := hm (max n m) (le_max_right _ _)
  rw [h1] at h2
  exact Option.some.inj h2

theorem opacity_returns [Float32Ops F] (w : World F) (n : Nat) :
    ∀ (v : ViewId) (f : Bool), rootWithin w n v = true →
      ∃ r, opacity w (n + 1) v f = some r := by
  induction n with
  | zero =>
    intro v f h
    have hp : parent w v = none := by
      simpa [rootWithin, Option.isNone_iff_eq_none] using h
    rw [opacity, hp]
    by_cases hf : f = true
    · exact ⟨_, by rw [if_pos hf]⟩
    · rw [if_neg hf]
      by_cases hpo : (w.view v).parentOpacityEnabled = true
      · exact ⟨_, by rw [if_pos hpo]⟩
      · exact ⟨_, by rw [if_neg hpo]⟩
  | succ k ih =>
    intro v f h
    rw [opacity]
    by_cases hf : f = true
    · exact ⟨_, by rw [if_pos hf]⟩
    · rw [if_neg hf]
      by_cases hpo : (w.view v).parentOpacityEnabled = true
      · rw [if_pos hpo]
        cases hp : parent w v with
        | none => exact ⟨_, rfl⟩
        | some p =>
          rw [rootWithin, hp] at h
          obtain ⟨o, ho⟩ := ih p (decide (type w p = ViewType.Scene)) h
          simp only [ho]
          exact ⟨_, rfl⟩
      · exact ⟨_, by rw [if_neg hpo]⟩

theorem opacity_eq_product [Float32Ops F] (w : World F) (n : Nat) :
    ∀ v, rootWithin w n v = true →
      (∀ j a, ancestorAt w j v = some a → (w.view a).parentOpacityEnabled = true) →
      (∀ j a, ancestorAt w (j + 1) v = some a → type w a = ViewType.Scene →
        parent w a = none) →
      ∃ r, opacity w (n + 1) v false = some r ∧ opacityProduct w (n + 1) v = some r := by
  induction n with
  | zero =>
    intro v h h1 _
    have hp : parent w v = none := by
      simpa [rootWithin, Option.isNone_iff_eq_none] using h
    have hpo : (w.view v).parentOpacityEnabled = true := h1 0 v rfl
    exact ⟨(w.view v).opacity, by simp [opacity, hp, hpo], by simp [opacityProduct, hp]⟩
  | succ k ih =>
    intro v h h1 h2
    have hpo : (w.view v).parentOpacityEnabled = true := h1 0 v rfl
    cases hp : parent w v with
    | none =>
      exact ⟨(w.view v).opacity, by simp [opacity, hp, hpo], by simp [opacityProduct, hp]⟩
    | some p =>
      rw [rootWithin, hp] at h
      have hstep : ∀ j, ancestorAt w (j + 1) v = ancestorAt w j p := by
        intro j; rw [ancestorAt, hp]
      by_cases ht : type w p = ViewType.Scene
      · have hpp : parent w p = none := h2 0 p (by rw [hstep]; rfl) ht
        refine ⟨Float32Ops.mul (w.view v).opacity (w.view p).opacity, ?_, ?_⟩
        · rw [opacity]
          simp [hpo, hp, ht, opacity]
        · rw [opacityProduct]
          simp [hp, opacityProduct, hpp]
      · obtain ⟨r, hr1, hr2⟩ := ih p h
          (fun j a ha => h1 (j + 1) a (by rw [hstep]; exact ha))
          (fun j a ha => h2 (j + 1) a (by rw [hstep]; exact ha))
        refine ⟨Float32Ops.mul (w.view v).opacity r, ?_, ?_⟩
        · rw [opacity]
          simp [hpo, hp, ht, hr1]
        · rw [opacityProduct]
          simp [hp, hr2]

/-- C14, as stated, fails: in `nestedSceneWorld` view `2` inherits the opacity of its
parent `1`, a scene view nested in the scene main view `0`.  The effective
opacity of view `1` is `1 * 0 = 0`, so the claim gives `1 * 0 = 0` for view `2`,
but `2.opacity()` returns `1 * 1 = 1`: a parent of type Scene is asked for its
own opacity only. -/
theorem opacity_scene_parent_counterexample :
    parent nestedSceneWorld 2 = some 1 ∧
    (nestedSceneWorld.view 2).parentOpacityEnabled = true ∧
    (nestedSceneWorld.view 1).parentOpacityEnabled = true ∧
    (nestedSceneWorld.view 2).opacity = 1 ∧
    OpacityTo nestedSceneWorld 1 false 0 ∧
    OpacityTo nestedSceneWorld 2 false 1 ∧
    Float32Ops.mul (nestedSceneWorld.view 2).opacity (0 : Int) ≠ 1 :=
  ⟨by decide, by decide, by decide, by decide,
    opacityTo_of_eq nestedSceneWorld 1 false 0 2 (by decide),
    opacityTo_of_eq nestedSceneWorld 2 false 1 2 (by decide), by decide⟩

/-- C14, amended: on a finite parent chain `v.opacity()` returns a value `r`.  If
`v` has a parent `p` and `parentOpacityEnabled(v)` is set, then `r` is the own
opacity of `v` times the effective opacity of `p` when `p` is not of type Scene,
and the own opacity of `v` times the own opacity of `p` when `p` is of type Scene;
otherwise `r` is the own opacity of `v`.  Hence, when `parentOpacityEnabled` is
set on `v` and on all its ancestors and every ancestor of type Scene has no
parent, `r` is the product of the own opacities of `v` and of every ancestor. -/
theorem opacity_spec [Float32Ops F] (w : World F) (v : ViewId) (hce : ChainEnds w v) :
    ∃ r, OpacityTo w v false r ∧
      (∀ p, parent w v = some p → (w.view v).parentOpacityEnabled = true →
        type w p ≠ ViewType.Scene →
        ∃ rp, OpacityTo w p false rp ∧ r = Float32Ops.mul (w.view v).opacity rp) ∧
      (∀ p, parent w v = some p → (w.view v).parentOpacityEnabled = true →
        type w p = ViewType.Scene →
        r = Float32Ops.mul (w.view v).opacity (w.view p).opacity) ∧
      (parent w v = none ∨ (w.view v).parentOpacityEnabled = false → r = (w.view v).opacity) ∧
      ((∀ j a, ancestorAt w j v = some a → (w.view a).parentOpacityEnabled = true) →
        (∀ j a, ancestorAt w (j + 1) v = some a → type w a = ViewType.Scene →
          parent w a = none) →
        ∃ n, opacityProduct w n v = some r) := by
  obtain ⟨n, hn⟩ := hce
  obtain ⟨r, hr⟩ := opacity_returns w n v false hn
  have hr' := hr
  rw [opacity] at hr'
  simp only [Bool.false_eq_true, if_false] at hr'
  refine ⟨r, opacityTo_of_eq w v false r _ hr, ?_, ?_, ?_, ?_⟩
  · intro p hp hpo ht
    rw [if_pos hpo, hp] at hr'
    simp only [ht, decide_False] at hr'
    cases hq : opacity w n p false with
    | none => rw [hq] at hr'; exact absurd hr' (by simp)
    | some rp =>
      rw [hq] at hr'
      exact ⟨rp, opacityTo_of_eq w p false rp n hq, (Option.some.inj hr').symm⟩
  · intro p hp hpo ht
    rw [if_pos hpo, hp] at hr'
    simp only [ht, decide_True] at hr'
    cases n with
    | zero => simp [rootWithin, hp] at hn
    | succ k =>
      simp only [opacity, if_true] at hr'
      exact (Option.some.inj hr').symm
  · rintro (hp | hpo)
    · rw [hp] at hr'
      by_cases hpo : (w.view v).parentOpacityEnabled = true
      · rw [if_pos hpo] at hr'; exact (Option.some.inj hr').symm
      · rw [if_neg hpo] at hr'; exact (Option.some.inj hr').symm
    · rw [if_neg (by simp [hpo])] at hr'
      exact (Option.some.inj hr').symm
  · intro h1 h2
    obtain ⟨r2, hr2, hprod⟩ := opacity_eq_product w n v hn h1 h2
    rw [hr] at hr2
    rw [Option.some.inj hr2]
    exact ⟨n + 1, hprod⟩

/-- Witness for the amended C14 on `nestedSceneWorld`, at view `2`. -/
theorem opacity_spec_witness :
    ChainEnds nestedSceneWorld 2 ∧
    ∃ r, OpacityTo nestedSceneWorld 2 false r ∧
      (∀ p, parent nestedSceneWorld 2 = some p →
        (nestedSceneWorld.view 2).parentOpacityEnabled = true →
        type nestedSceneWorld p ≠ ViewType.Scene →
        ∃ rp, OpacityTo nestedSceneWorld p false rp ∧
          r = Float32Ops.mul (nestedSceneWorld.view 2).opacity rp) ∧
      (∀ p, parent nestedSceneWorld 2 = some p →
        (nestedSceneWorld.view 2).parentOpacityEnabled = true →
        type nestedSceneWorld p = ViewType.Scene →
        r = Float32Ops.mul (nestedSceneWorld.view 2).opacity (nestedSceneWorld.view p).opacity) ∧
      (parent nestedSceneWorld 2 = none ∨
        (nestedSceneWorld.view 2).parentOpacityEnabled = false →
        r = (nestedSceneWorld.view 2).opacity) ∧
      ((∀ j a, ancestorAt nestedSceneWorld j 2 = some a →
          (nestedSceneWorld.view a).parentOpacityEnabled = true) →
        (∀ j a, ancestorAt nestedSceneWorld (j + 1) 2 = some a →
          type nestedSceneWorld a = ViewType.Scene → parent nestedSceneWorld a = none) →
        ∃ n, opacityProduct nestedSceneWorld n 2 = some r) :=
  ⟨⟨2, by decide⟩, opacity_spec nestedSceneWorld 2 ⟨2, by decide⟩⟩

/-! ## Clamping of the opacity -/

@[simp] theorem opacity_field_repaint (w : World F) (v x : ViewId) :
    ((repaint w v).view x).opacity = (w.view x).opacity := by
  unfold repaint
  by_cases h : (w.view v).repaintCalled = true
  · simp [h]
  · by_cases hx : x = v <;> simp [h, hx]

theorem clampOpacity_eq_clampSpec [Float32Ops F] (laws : UnitLaws F) (x : F) :
    clampOpacity x = clampSpec x := by
  unfold clampOpacity clampSpec minF maxF
  by_cases h : Float32Ops.lt x Float32Ops.zero = true
  · simp [h, laws.one_not_lt_zero]
  · simp [h]

theorem inUnit_zero [Float32Ops F] (laws : UnitLaws F) : InUnit (Float32Ops.zero : F) :=
  ⟨laws.zero_not_lt_zero, laws.one_not_lt_zero, laws.zero_isNumber⟩

theorem inUnit_one [Float32Ops F] (laws : UnitLaws F) : InUnit (Float32Ops.one : F) :=
  ⟨laws.one_not_lt_zero, laws.one_not_lt_one, laws.one_isNumber⟩

theorem inUnit_clampOpacity [Float32Ops F] (laws : UnitLaws F) (x : F) (hx : IsNumber x) :
    InUnit (clampOpacity x) := by
  unfold clampOpacity
  by_cases h : Float32Ops.lt x Float32Ops.zero = true
  · rw [if_pos h]; exact inUnit_zero laws
  · rw [if_neg h]
    by_cases h2 : Float32Ops.lt Float32Ops.one x = true
    · rw [if_pos h2]; exact inUnit_one laws
    · rw [if_neg h2]
      exact ⟨by simpa using h, by simpa using h2, hx⟩

theorem inUnit_opacity [Float32Ops F] (laws : UnitLaws F) (w : World F)
    (hown : ∀ u, InUnit (w.view u).opacity) (fuel : Nat) :
    ∀ (u : ViewId) (f : Bool) (r : F), opacity w fuel u f = some r → InUnit r := by
  induction fuel with
  | zero => intro u f r h; simp [opacity] at h
  | succ k ih =>
    intro u f r h
    rw [opacity] at h
    by_cases hf : f = true
    · rw [if_pos hf] at h
      rw [← Option.some.inj h]; exact hown u
    · rw [if_neg hf] at h
      by_cases hpo : (w.view u).parentOpacityEnabled = true
      · rw [if_pos hpo] at h
        cases hp : parent w u with
        | none =>
          rw [hp] at h
          rw [← Option.some.inj h]; exact hown u
        | some p =>
          rw [hp] at h
          simp only at h
          cases hq : opacity w k p (decide (type w p = ViewType.Scene)) with
          | none => rw [hq] at h; exact absurd h (by simp)
          | some o =>
            rw [hq] at h
            rw [← Option.some.inj h]
            exact laws.mul_inUnit _ _ (hown u) (ih p _ o hq)
      · rw [if_neg hpo] at h
        rw [← Option.some.inj h]; exact hown u

theorem unitLaws_int : UnitLaws Int := by
  refine ⟨by unfold IsNumber; decide, by unfold IsNumber; decide, by decide, by decide,
    by decide, ?_⟩
  intro a b ha hb
  obtain ⟨ha1, ha2, _⟩ := ha
  obtain ⟨hb1, hb2, _⟩ := hb
  have ha1' : ¬ a < 0 := by simpa [Float32Ops.lt, Float32Ops.zero] using ha1
  have ha2' : ¬ 1 < a := by simpa [Float32Ops.lt, Float32Ops.one] using ha2
  have hb1' : ¬ b < 0 := by simpa [Float32Ops.lt, Float32Ops.zero] using hb1
  have hb2' : ¬ 1 < b := by simpa [Float32Ops.lt, Float32Ops.one] using hb2
  have hab : a = 0 ∨ a = 1 := by omega
  have hbb : b = 0 ∨ b = 1 := by omega
  rcases hab with h | h <;> rcases hbb with h' | h' <;> subst h <;> subst h' <;>
    exact ⟨by decide, by decide, by unfold IsNumber; decide⟩

/-- C15: given the facts on `Float32` collected in `UnitLaws`, `v.setOpacity(x)`
returns on a finite parent chain, whether `v` is mapped or not, and leaves the
own opacity of `v` at `min(max(x, 0), 1)` and that of every other view as it was.
If `x` is a number this value lies in `[0, 1]`; and if moreover every own opacity
was in `[0, 1]` before the call, then afterwards every own opacity and every
value returned by `opacity()`, which does no clamping, lies in `[0, 1]`. -/
theorem setOpacity_clamps [Float32Ops F] (laws : UnitLaws F) (w : World F) (v : ViewId)
    (hce : ChainEnds w v) (x : F) :
    ∃ w', SetOpacityTo w v x w' ∧
      (w'.view v).opacity = clampSpec x ∧
      (∀ u, u ≠ v → (w'.view u).opacity = (w.view u).opacity) ∧
      (IsNumber x → InUnit (clampSpec x)) ∧
      (IsNumber x → (∀ u, InUnit (w.view u).opacity) →
        (∀ u, InUnit (w'.view u).opacity) ∧
        ∀ (fuel : Nat) (u : ViewId) (f : Bool) (r : F),
          opacity w' fuel u f = some r → InUnit r) := by
  obtain ⟨b, n, hn⟩ := mapped_returns_from w v hce
  have hrun : ∀ m, n ≤ m → setOpacity w m v x =
      some ((if (b && Float32Ops.ne (clampOpacity x) (w.view v).opacity) = true
          then repaint w v else w).setView v
        { (if (b && Float32Ops.ne (clampOpacity x) (w.view v).opacity) = true
            then repaint w v else w).view v with opacity := clampOpacity x }) := by
    intro m hm
    unfold setOpacity
    simp only [hn m hm]
  have hv : ∀ w1 : World F,
      ((w1.setView v { w1.view v with opacity := clampOpacity x }).view v).opacity
        = clampSpec x := by
    intro w1
    simp [clampOpacity_eq_clampSpec laws]
  have hu : ∀ u, u ≠ v →
      (((if (b && Float32Ops.ne (clampOpacity x) (w.view v).opacity) = true
          then repaint w v else w).setView v
        { (if (b && Float32Ops.ne (clampOpacity x) (w.view v).opacity) = true
            then repaint w v else w).view v with opacity := clampOpacity x }).view u).opacity
        = (w.view u).opacity := by
    intro u hne
    simp only [view_setView, if_neg hne]
    split_ifs <;> simp
  refine ⟨_, ⟨n, hrun⟩, hv _, hu, ?_, ?_⟩
  · intro hx
    rw [← clampOpacity_eq_clampSpec laws]
    exact inUnit_clampOpacity laws x hx
  · intro hx hown
    have hall : ∀ u,
        InUnit (((if (b && Float32Ops.ne (clampOpacity x) (w.view v).opacity) = true
          then repaint w v else w).setView v
        { (if (b && Float32Ops.ne (clampOpacity x) (w.view v).opacity) = true
            then repaint w v else w).view v with opacity := clampOpacity x }).view u).opacity := by
      intro u
      by_cases hne : u = v
      · subst hne
        rw [hv]
        rw [← clampOpacity_eq_clampSpec laws]
        exact inUnit_clampOpacity laws x hx
      · rw [hu u hne]; exact hown u
    exact ⟨hall, fun fuel u f r h => inUnit_opacity laws _ hall fuel u f r h⟩

/-- Witness for C15 on `stackWorld`: `1.setOpacity(5)`, with integers in the place of
floats. -/
theorem setOpacity_clamps_witness :
    UnitLaws Int ∧ ChainEnds stackWorld 1 ∧
    ∃ w', SetOpacityTo stackWorld 1 (5 : Int) w' ∧
      (w'.view 1).opacity = clampSpec (5 : Int) ∧
      (∀ u, u ≠ 1 → (w'.view u).opacity = (stackWorld.view u).opacity) ∧
      (IsNumber (5 : Int) → InUnit (clampSpec (5 : Int))) ∧
      (IsNumber (5 : Int) → (∀ u, InUnit (stackWorld.view u).opacity) →
        (∀ u, InUnit (w'.view u).opacity) ∧
        ∀ (fuel : Nat) (u : ViewId) (f : Bool) (r : Int),
          opacity w' fuel u f = some r → InUnit r) :=
  ⟨unitLaws_int, stackWorld_acyclic 1,
    setOpacity_clamps unitLaws_int stackWorld 1 (stackWorld_acyclic 1) 5⟩

/-! ## Attributes under re-parenting -/

theorem sameAttributes_refl (w : World F) : SameAttributes w w := fun _ => rfl

theorem sameAttributes_trans (w1 w2 w3 : World F) (h12 : SameAttributes w1 w2)
    (h23 : SameAttributes w2 w3) : SameAttributes w1 w3 :=
  fun x => (h23 x).trans (h12 x)

theorem sameAttributes_of_view (w w' : World F) (h : w'.view = w.view) :
    SameAttributes w w' := fun x => by rw [h]

theorem sameAttributes_setChildren (w : World F) (p : ViewId) (l : List ViewId) :
    SameAttributes w (w.setChildren p l) := by
  intro x
  unfold World.setChildren
  by_cases h : x = p
  · subst h; simp [withoutLinks]
  · simp [h]

theorem sameAttributes_setParentLink (w : World F) (v : ViewId) (o : Option ViewId) :
    SameAttributes w (w.setParentLink v o) := by
  intro x
  unfold World.setParentLink
  by_cases h : x = v
  · subst h; simp [withoutLinks]
  · simp [h]

theorem sameAttributes_setParentPtr (w : World F) (v : ViewId) (o : Option ViewId) :
    SameAttributes w (w.setParentPtr v o) := by
  intro x
  unfold World.setParentPtr
  by_cases h : x = v
  · subst h; simp [withoutLinks]
  · simp [h]

theorem sameAttributes_eraseLink (w : World F) (v : ViewId) :
    SameAttributes w (eraseLink w v) := by
  unfold eraseLink
  cases (w.view v).parentLink with
  | none => exact sameAttributes_refl w
  | some o => exact sameAttributes_setChildren w o _

theorem sameAttributes_pushBack (w : World F) (p v : ViewId) :
    SameAttributes w (pushBack w p v) :=
  sameAttributes_trans _ _ _ (sameAttributes_setChildren w p _)
    (sameAttributes_setParentLink _ v _)

theorem sameAttributes_setParent (w : World F) (n : Nat) (v : ViewId) (view : Option ViewId)
    (w' : World F) (h : setParent w n v view = some w') : SameAttributes w w' := by
  unfold setParent at h
  by_cases he : parent w v = view ∨ view = some v
  · rw [if_pos he] at h
    rw [← Option.some.inj h]; exact sameAttributes_refl w
  · rw [if_neg he] at h
    cases hs : scene w n v with
    | none => rw [hs] at h; exact absurd h (by simp)
    | some s =>
      rw [hs] at h
      simp only at h
      have h1 : SameAttributes w (markListChanged w s) :=
        sameAttributes_of_view _ _ (view_markListChanged w s)
      have h2 : SameAttributes w (match parent (markListChanged w s) v with
          | some _ => eraseLink (markListChanged w s) v
          | none => markListChanged w s) := by
        cases parent (markListChanged w s) v with
        | none => exact h1
        | some q => exact sameAttributes_trans _ _ _ h1 (sameAttributes_eraseLink _ v)
      generalize (match parent (markListChanged w s) v with
          | some _ => eraseLink (markListChanged w s) v
          | none => markListChanged w s) = w2 at h h2
      cases view with
      | some p =>
        simp only [Option.some.injEq] at h
        rw [← h]
        exact sameAttributes_trans _ _ _
          (sameAttributes_trans _ _ _ h2 (sameAttributes_pushBack w2 p v))
          (sameAttributes_trans _ _ _
            (sameAttributes_of_view _ _ (view_markAsChangedOrder _ v))
            (sameAttributes_setParentPtr _ v _))
      | none =>
        simp only at h
        cases hv : parentSceneView w2 n v with
        | none => rw [hv] at h; exact absurd h (by simp)
        | some sv =>
          rw [hv] at h
          simp only [Option.some.injEq] at h
          rw [← h]
          exact sameAttributes_trans _ _ _
            (sameAttributes_trans _ _ _ h2
              (sameAttributes_of_view _ _ (view_damageScene w2 v sv)))
            (sameAttributes_trans _ _ _
              (sameAttributes_of_view _ _ (view_markAsChangedOrder _ v))
              (sameAttributes_setParentPtr _ v _))

theorem nativePos_of_sameAttributes (w w' : World F) (h : SameAttributes w w') (x : ViewId) :
    (w'.view x).nativePos = (w.view x).nativePos :=
  show (withoutLinks (w'.view x)).nativePos = (withoutLinks (w.view x)).nativePos from
    congrArg LViewPrivate.nativePos (h x)

theorem parentScalingEnabled_of_sameAttributes (w w' : World F) (h : SameAttributes w w')
    (x : ViewId) : (w'.view x).parentScalingEnabled = (w.view x).parentScalingEnabled :=
  show (withoutLinks (w'.view x)).parentScalingEnabled = (withoutLinks (w.view x)).parentScalingEnabled from
    congrArg LViewPrivate.parentScalingEnabled (h x)

theorem parentOffsetEnabled_of_sameAttributes (w w' : World F) (h : SameAttributes w w')
    (x : ViewId) : (w'.view x).parentOffsetEnabled = (w.view x).parentOffsetEnabled :=
  show (withoutLinks (w'.view x)).parentOffsetEnabled = (withoutLinks (w.view x)).parentOffsetEnabled from
    congrArg LViewPrivate.parentOffsetEnabled (h x)

/-! ## Position -/

theorem posTo_of_eq [Float32Ops F] (w : World F) (v : ViewId) (r : Int × Int) (n : Nat)
    (h : pos w n v = some r) : PosTo w v r :=
  ⟨n, fun m hm => pos_mono_le w v r n m hm h⟩

theorem posTo_root [Float32Ops F] (w : World F) (v : ViewId) (hp : parent w v = none) :
    PosTo w v (w.view v).nativePos :=
  posTo_of_eq w v _ 1 (by rw [pos, hp])

theorem pos_step_offset [Float32Ops F] (w : World F) (n : Nat) (v p : ViewId)
    (hp : parent w v = some p) (hs : (w.view v).parentScalingEnabled = false)
    (ho : (w.view v).parentOffsetEnabled = true) :
    pos w (n + 1) v =
      match pos w n p with
      | some pp => some ((w.view v).nativePos.1 + pp.1, (w.view v).nativePos.2 + pp.2)
      | none => none := by
  rw [pos, hp]
  simp [hs, ho]

theorem pos_step_no_offset [Float32Ops F] (w : World F) (n : Nat) (v p : ViewId)
    (hp : parent w v = some p) (hs : (w.view v).parentScalingEnabled = false)
    (ho : (w.view v).parentOffsetEnabled = false) :
    pos w (n + 1) v = some (w.view v).nativePos := by
  rw [pos, hp]
  simp [hs, ho]

theorem posTo_offset_iff [Float32Ops F] (w : World F) (v p : ViewId)
    (hp : parent w v = some p) (hs : (w.view v).parentScalingEnabled = false)
    (ho : (w.view v).parentOffsetEnabled = true) (r : Int × Int) :
    PosTo w v r ↔
      ∃ rp, PosTo w p rp ∧ r = ((w.view v).nativePos.1 + rp.1, (w.view v).nativePos.2 + rp.2) := by
  constructor
  · rintro ⟨n, hn⟩
    have h := hn (n + 1) (Nat.le_succ n)
    rw [pos_step_offset w n v p hp hs ho] at h
    cases hq : pos w n p with
    | none => rw [hq] at h; exact absurd h (by simp)
    | some pp =>
      rw [hq] at h
      exact ⟨pp, posTo_of_eq w p pp n hq, (Option.some.inj h).symm⟩
  · rintro ⟨rp, ⟨n, hn⟩, hr⟩
    refine posTo_of_eq w v r (n + 1) ?_
    rw [pos_step_offset w n v p hp hs ho, hn n (le_refl n), hr]

theorem pos_eq_nativePosSum [Float32Ops F] (w : World F) (n : Nat) :
    ∀ v, rootWithin w n v = true →
      (∀ j a, ancestorAt w j v = some a → (w.view a).parentScalingEnabled = false ∧
        (w.view a).parentOffsetEnabled = true) →
      ∃ r, pos w (n + 1) v = some r ∧ nativePosSum w (n + 1) v = some r := by
  induction n with
  | zero =>
    intro v h _
    have hp : parent w v = none := by
      simpa [rootWithin, Option.isNone_iff_eq_none] using h
    exact ⟨(w.view v).nativePos, by rw [pos, hp], by rw [nativePosSum, hp]⟩
  | succ k ih =>
    intro v h hflags
    cases hp : parent w v with
    | none => exact ⟨(w.view v).nativePos, by rw [pos, hp], by rw [nativePosSum, hp]⟩
    | some p =>
      rw [rootWithin, hp] at h
      obtain ⟨hs, ho⟩ := hflags 0 v rfl
      obtain ⟨rp, h1, h2⟩ := ih p h
        (fun j a ha => hflags (j + 1) a (by rw [ancestorAt, hp]; exact ha))
      refine ⟨((w.view v).nativePos.1 + rp.1, (w.view v).nativePos.2 + rp.2), ?_, ?_⟩
      · rw [pos_step_offset w (k + 1) v p hp hs ho, h1]
      · rw [nativePosSum, hp]
        simp only [h2]

/-- C16: `pos()` is computed from the current parent chain.  A view without parent
has `pos = nativePos`.  A view with parent `p` and parent scaling disabled has
`pos = nativePos + pos(p)` when `parentOffsetEnabled` is set and `pos = nativePos`
otherwise.  Hence, when parent scaling is disabled and the parent offset enabled
on `v` and all its ancestors, `pos(v)` is the sum of `nativePos` over `v` and its
ancestors.  After `v.setParent(p)` the same holds with the new parent: `pos(v)`
is `nativePos(v) + pos(p)` in the new state. -/
theorem pos_spec [Float32Ops F] (w : World F) (v : ViewId) :
    (parent w v = none → PosTo w v (w.view v).nativePos) ∧
    (∀ p, parent w v = some p → (w.view v).parentScalingEnabled = false →
      (w.view v).parentOffsetEnabled = true → ∀ r, PosTo w v r ↔
        ∃ rp, PosTo w p rp ∧
          r = ((w.view v).nativePos.1 + rp.1, (w.view v).nativePos.2 + rp.2)) ∧
    (∀ p, parent w v = some p → (w.view v).parentScalingEnabled = false →
      (w.view v).parentOffsetEnabled = false → PosTo w v (w.view v).nativePos) ∧
    (ChainEnds w v →
      (∀ j a, ancestorAt w j v = some a → (w.view a).parentScalingEnabled = false ∧
        (w.view a).parentOffsetEnabled = true) →
      ∃ r, PosTo w v r ∧ ∃ n, nativePosSum w n v = some r) ∧
    (∀ (p : ViewId) (w' : World F), p ≠ v → SetParentTo w v (some p) w' →
      (w.view v).parentScalingEnabled = false → (w.view v).parentOffsetEnabled = true →
      parent w' v = some p ∧
      ∀ r, PosTo w' v r ↔
        ∃ rp, PosTo w' p rp ∧
          r = ((w.view v).nativePos.1 + rp.1, (w.view v).nativePos.2 + rp.2)) := by
  refine ⟨posTo_root w v, ?_, ?_, ?_, ?_⟩
  · intro p hp hs ho r
    exact posTo_offset_iff w v p hp hs ho r
  · intro p hp hs ho
    exact posTo_of_eq w v _ 1 (pos_step_no_offset w 0 v p hp hs ho)
  · rintro ⟨n, hn⟩ hflags
    obtain ⟨r, h1, h2⟩ := pos_eq_nativePosSum w n v hn hflags
    exact ⟨r, posTo_of_eq w v r _ h1, n + 1, h2⟩
  · intro p w' hpv hset hs ho
    obtain ⟨n, hn⟩ := hset
    have hrun := hn n (le_refl n)
    obtain ⟨hpar, _, _⟩ := setParent_some_facts w n v p hpv w' hrun
    have hattr := sameAttributes_setParent w n v (some p) w' hrun
    have hs' : (w'.view v).parentScalingEnabled = false := by
      rw [parentScalingEnabled_of_sameAttributes w w' hattr v]; exact hs
    have ho' : (w'.view v).parentOffsetEnabled = true := by
      rw [parentOffsetEnabled_of_sameAttributes w w' hattr v]; exact ho
    refine ⟨hpar, fun r => ?_⟩
    rw [← nativePos_of_sameAttributes w w' hattr v]
    exact posTo_offset_iff w' v p hpar hs' ho' r

/-- Witness for C16 on `stackWorld`: view `4`, at first without parent, is attached
under view `1`. -/
theorem pos_spec_witness :
    PosTo stackWorld 4 (stackWorld.view 4).nativePos ∧
    ∃ r, PosTo stackWorld 1 r ∧ ∃ n, nativePosSum stackWorld n 1 = some r :=
  ⟨(pos_spec stackWorld 4).1 (by decide),
    (pos_spec stackWorld 1).2.2.2.1 (stackWorld_acyclic 1) (by
      intro j a ha
      obtain _ | _ | j := j
      · simp [ancestorAt] at ha; subst ha; decide
      · simp [ancestorAt, parent, stackWorld, blankView] at ha; subst ha; decide
      · simp [ancestorAt, parent, stackWorld, blankView] at ha)⟩

/-! ## Destruction of a view -/

theorem views_eraseLink (w : World F) (v : ViewId) : (eraseLink w v).views = w.views := by
  unfold eraseLink
  cases (w.view v).parentLink <;> rfl

theorem views_markListChanged (w : World F) (s : Option SceneId) :
    (markListChanged w s).views = w.views := by
  cases s <;> rfl

theorem views_setParent (w : World F) (n : Nat) (v : ViewId) (view : Option ViewId)
    (w' : World F) (h : setParent w n v view = some w') : w'.views = w.views := by
  unfold setParent at h
  by_cases he : parent w v = view ∨ view = some v
  · rw [if_pos he] at h
    rw [← Option.some.inj h]
  · rw [if_neg he] at h
    cases hs : scene w n v with
    | none => rw [hs] at h; exact absurd h (by simp)
    | some s =>
      rw [hs] at h
      simp only at h
      have h2 : (match parent (markListChanged w s) v with
          | some _ => eraseLink (markListChanged w s) v
          | none => markListChanged w s).views = w.views := by
        cases parent (markListChanged w s) v with
        | none => exact views_markListChanged w s
        | some q => rw [views_eraseLink]; exact views_markListChanged w s
      generalize (match parent (markListChanged w s) v with
          | some _ => eraseLink (markListChanged w s) v
          | none => markListChanged w s) = w2 at h h2
      cases view with
      | some p =>
        simp only [Option.some.injEq] at h
        rw [← h]
        exact h2
      | none =>
        simp only at h
        cases hv : parentSceneView w2 n v with
        | none => rw [hv] at h; exact absurd h (by simp)
        | some sv =>
          rw [hv] at h
          simp only [Option.some.injEq] at h
          rw [← h]
          exact h2

theorem setParent_returns_at (w : World F) (n : Nat) (v : ViewId) (view : Option ViewId)
    (hn : rootWithin w n v = true) : ∃ w', setParent w (n + 1) v view = some w' := by
  unfold setParent
  by_cases he : parent w v = view ∨ view = some v
  · rw [if_pos he]; exact ⟨w, rfl⟩
  · rw [if_neg he]
    obtain ⟨s, hs⟩ := scene_returns w n v hn
    rw [hs]
    simp only
    cases view with
    | some p => exact ⟨_, rfl⟩
    | none =>
      simp only
      have hpar : ∀ x, parent (match parent (markListChanged w s) v with
          | some _ => eraseLink (markListChanged w s) v
          | none => markListChanged w s) x = parent w x := by
        intro x
        cases parent (markListChanged w s) v <;> simp
      generalize (match parent (markListChanged w s) v with
          | some _ => eraseLink (markListChanged w s) v
          | none => markListChanged w s) = w2 at hpar ⊢
      have hr : rootWithin w2 n v = true := by
        rw [rootWithin_congr w2 w hpar n v]; exact hn
      obtain ⟨sv, hsv⟩ := parentSceneView_returns w2 n v hr
      rw [hsv]
      exact ⟨_, rfl⟩

/-- What `x.setParent(nullptr)` leaves behind in a state with consistent child
lists. -/
theorem setParent_none_facts (w : World F) (hwf : SingleMembership w) (n : Nat) (x : ViewId)
    (w' : World F) (h : setParent w n x none = some w') :
    SingleMembership w' ∧ parent w' x = none ∧
      (∀ y, y ≠ x → parent w' y = parent w y) ∧
      (∀ y, children w' y = (children w y).erase x) ∧
      w'.views = w.views := by
  refine ⟨singleMembership_of_setParent w hwf n x none w' h, ?_, ?_, ?_,
    views_setParent w n x none w' h⟩
  · by_cases he : parent w x = none ∨ (none : Option ViewId) = some x
    · unfold setParent at h
      rw [if_pos he] at h
      rw [← Option.some.inj h]
      rcases he with he | he
      · exact he
      · exact absurd he (by simp)
    · obtain ⟨hP, _, _⟩ := setParent_effect w n x none w' he h
      rw [hP, if_pos rfl]
  · intro y hy
    by_cases he : parent w x = none ∨ (none : Option ViewId) = some x
    · unfold setParent at h
      rw [if_pos he] at h
      rw [← Option.some.inj h]
    · obtain ⟨hP, _, _⟩ := setParent_effect w n x none w' he h
      rw [hP, if_neg hy]
  · intro y
    by_cases he : parent w x = none ∨ (none : Option ViewId) = some x
    · unfold setParent at h
      rw [if_pos he] at h
      rw [← Option.some.inj h]
      have hx : parent w x = none := by
        rcases he with he | he
        · exact he
        · exact absurd he (by simp)
      have hnot : x ∉ children w y := by
        intro hmem
        have := (hwf.mem_iff x y).mp hmem
        rw [hx] at this
        exact absurd this (by simp)
      exact (List.erase_of_not_mem hnot).symm
    · obtain ⟨_, hC, _⟩ := setParent_effect w n x none w' he h
      rw [hC, if_neg (by simp)]
      exact childrenDetached_eq_erase w hwf x y

theorem orphanChildren_spec (fuel : Nat) (hfuel : 2 ≤ fuel) (v : ViewId) :
    ∀ (l : List ViewId) (w1 : World F), SingleMembership w1 → parent w1 v = none →
      children w1 v = l → ∀ k, l.length < k →
      ∃ w2, orphanChildren fuel k w1 v = some (w2, l.length) ∧
        children w2 v = [] ∧ parent w2 v = none ∧
        (∀ c ∈ l, parent w2 c = none) ∧
        (∀ x, x ∉ l → parent w2 x = parent w1 x) ∧
        (∀ x, x ≠ v → children w2 x = children w1 x) ∧
        w2.views = w1.views ∧ SingleMembership w2 := by
  intro l
  induction l with
  | nil =>
    intro w1 hwf hpv hch k hk
    obtain ⟨j, rfl⟩ : ∃ j, k = j + 1 := ⟨k - 1, by simp at hk; omega⟩
    refine ⟨w1, ?_, hch, hpv, ?_, fun _ _ => rfl, fun _ _ => rfl, rfl, hwf⟩
    · rw [orphanChildren, hch]; rfl
    · intro c hc; exact absurd hc (List.not_mem_nil c)
  | cons c rest ih =>
    intro w1 hwf hpv hch k hk
    obtain ⟨j, rfl⟩ : ∃ j, k = j + 1 := ⟨k - 1, by simp at hk; omega⟩
    have hj : rest.length < j := by simp at hk; omega
    have hcmem : c ∈ children w1 v := by rw [hch]; exact List.mem_cons_self c rest
    have hpc : parent w1 c = some v := (hwf.mem_iff c v).mp hcmem
    have hcv : c ≠ v := by
      intro e
      rw [e, hpv] at hpc
      exact absurd hpc (by simp)
    have hroot : rootWithin w1 1 c = true := by
      rw [rootWithin, hpc]
      simp [rootWithin, hpv]
    obtain ⟨w1', hw1'⟩ := setParent_returns_at w1 1 c none hroot
    have hrun : setParent w1 fuel c none = some w1' :=
      setParent_mono_le w1 c none w1' 2 fuel hfuel hw1'
    obtain ⟨hwf', hpc', hP', hC', hV'⟩ := setParent_none_facts w1 hwf fuel c w1' hrun
    have hnd : (c :: rest).Nodup := by rw [← hch]; exact hwf.nodup v
    have hcrest : c ∉ rest := (List.nodup_cons.mp hnd).1
    have hch' : children w1' v = rest := by
      rw [hC', hch]
      exact List.erase_cons_head c rest
    have hpv' : parent w1' v = none := by
      rw [hP' v (fun e => hcv e.symm)]; exact hpv
    obtain ⟨w2, h1, h2, h3, h4, h5, h6, h7, h8⟩ := ih w1' hwf' hpv' hch' j hj
    refine ⟨w2, ?_, h2, h3, ?_, ?_, ?_, ?_, h8⟩
    · rw [orphanChildren, hch]
      simp only [hrun, h1, List.length_cons]
    · intro c' hc'
      rcases List.mem_cons.mp hc' with e | hin
      · rw [e, h5 c hcrest]; exact hpc'
      · exact h4 c' hin
    · intro x hx
      have hxc : x ≠ c := fun e => hx (by rw [e]; exact List.mem_cons_self c rest)
      have hxr : x ∉ rest := fun hin => hx (List.mem_cons_of_mem c hin)
      rw [h5 x hxr, hP' x hxc]
    · intro x hx
      rw [h6 x hx, hC']
      apply List.erase_of_not_mem
      intro hmem
      have := (hwf.mem_iff c x).mp hmem
      rw [hpc] at this
      exact hx (Option.some.inj this).symm
    · rw [h7, hV']

theorem orphanChildren_mono (fuel : Nat) (v : ViewId) :
    ∀ (k : Nat) (w : World F) (r : World F × Nat),
      orphanChildren fuel k w v = some r → orphanChildren (fuel + 1) (k + 1) w v = some r := by
  intro k
  induction k with
  | zero => intro w r h; simp [orphanChildren] at h
  | succ j ih =>
    intro w r h
    rw [orphanChildren] at h ⊢
    cases hch : children w v with
    | nil => rw [hch] at h; exact h
    | cons c rest =>
      rw [hch] at h
      simp only at h ⊢
      cases hsp : setParent w fuel c none with
      | none => rw [hsp] at h; exact absurd h (by simp)
      | some w1 =>
        rw [hsp] at h
        rw [setParent_mono w fuel c none w1 hsp]
        simp only at h ⊢
        cases hrec : orphanChildren fuel j w1 v with
        | none => rw [hrec] at h; exact absurd h (by simp)
        | some r1 =>
          rw [hrec] at h
          rw [ih w1 r1 hrec]
          exact h

theorem LView_destroy_mono (w : World F) (n : Nat) (v : ViewId) (r : World F × Nat)
    (h : LView_destroy w n v = some r) : LView_destroy w (n + 1) v = some r := by
  unfold LView_destroy at h ⊢
  cases hsp : setParent w n v none with
  | none => rw [hsp] at h; exact absurd h (by simp)
  | some w1 =>
    rw [hsp] at h
    rw [setParent_mono w n v none w1 hsp]
    simp only at h ⊢
    cases hrec : orphanChildren n n w1 v with
    | none => rw [hrec] at h; exact absurd h (by simp)
    | some r1 =>
      rw [hrec] at h
      rw [orphanChildren_mono n v n w1 r1 hrec]
      exact h

theorem LView_destroy_mono_le (w : World F) (v : ViewId) (r : World F × Nat) (n m : Nat)
    (hnm : n ≤ m) (h : LView_destroy w n v = some r) : LView_destroy w m v = some r := by
  induction hnm with
  | refl => exact h
  | step _ ih => exact LView_destroy_mono w _ v r ih

theorem not_own_parent (w : World F) (v : ViewId) (hce : ChainEnds w v) :
    parent w v ≠ some v := by
  intro h
  exact not_descendant_of_self w v hce ⟨0, by rw [ancestorAt, h]; rfl⟩

theorem not_parent_of_parent (w : World F) (v c : ViewId) (hce : ChainEnds w v)
    (hc : parent w c = some v) : parent w v ≠ some c := by
  intro h
  exact not_descendant_of_self w v hce ⟨1, by rw [ancestorAt, h]; simp [ancestorAt, hc]⟩

/-- C17: in a state with consistent child lists, destroying a view `v` with a finite
parent chain returns, and the orphaning loop makes exactly as many iterations as
`v` has children.  Afterwards `v` has no parent and no children; if `v` had a
parent `p`, the child list of `p` is its former content with `v` erased, so `v`
is gone from it and the other children keep their order; every former child of
`v` has no parent, keeps its own child list and, if it was registered in the
compositor's list of views, still is; every other view keeps its parent; and the
compositor's list of views is its former content with `v` erased, so `v` does not
occur in it when it was registered once. -/
theorem destroy_spec (w : World F) (hwf : SingleMembership w) (v : ViewId)
    (hce : ChainEnds w v) :
    ∃ w' N, (∀ m, N ≤ m → LView_destroy w m v = some (w', (children w v).length)) ∧
      parent w' v = none ∧ children w' v = [] ∧
      (∀ p, parent w v = some p →
        children w' p = (children w p).erase v ∧ v ∉ children w' p ∧
        SameOrderExcept v (children w' p) (children w p)) ∧
      (∀ c, c ∈ children w v →
        parent w' c = none ∧ children w' c = children w c ∧ (c ∈ w.views → c ∈ w'.views)) ∧
      (∀ x, x ≠ v → x ∉ children w v → parent w' x = parent w x) ∧
      w'.views = w.views.erase v ∧ (w.views.Nodup → v ∉ w'.views) := by
  obtain ⟨n0, hn0⟩ := hce
  have hce' : ChainEnds w v := ⟨n0, hn0⟩
  obtain ⟨w1, hw1⟩ := setParent_returns_at w n0 v none hn0
  let N := max (n0 + 1) (max 2 ((children w v).length + 1))
  have hN1 : n0 + 1 ≤ N := le_max_left _ _
  have hN2 : 2 ≤ N := le_trans (le_max_left _ _) (le_max_right _ _)
  have hN3 : (children w v).length < N :=
    lt_of_lt_of_le (Nat.lt_succ_self _) (le_trans (le_max_right _ _) (le_max_right _ _))
  have hrun1 : setParent w N v none = some w1 :=
    setParent_mono_le w v none w1 (n0 + 1) N hN1 hw1
  obtain ⟨hwf1, hpv1, hP1, hC1, hV1⟩ := setParent_none_facts w hwf N v w1 hrun1
  have hvself : v ∉ children w v := fun hmem =>
    not_own_parent w v hce' ((hwf.mem_iff v v).mp hmem)
  have hch1 : children w1 v = children w v := by
    rw [hC1]; exact List.erase_of_not_mem hvself
  obtain ⟨w2, h1, h2, h3, h4, h5, h6, h7, _⟩ :=
    orphanChildren_spec N hN2 v (children w v) w1 hwf1 hpv1 hch1 N hN3
  have hdestroy : LView_destroy w N v =
      some ({ w2 with views := w2.views.erase v }, (children w v).length) := by
    unfold LView_destroy
    simp only [hrun1, h1]
  refine ⟨{ w2 with views := w2.views.erase v }, N,
    fun m hm => LView_destroy_mono_le w v _ N m hm hdestroy, h3, h2, ?_, ?_, ?_, ?_, ?_⟩
  · intro p hp
    have hpv : p ≠ v := fun e => not_own_parent w v hce' (by rw [hp, e])
    have hcp : children ({ w2 with views := w2.views.erase v } : World F) p
        = (children w p).erase v := by
      show children w2 p = _
      rw [h6 p hpv, hC1]
    refine ⟨hcp, ?_, ?_⟩
    · rw [hcp]; exact (hwf.nodup p).not_mem_erase
    · rw [hcp]; exact sameOrderExcept_erase v _
  · intro c hc
    have hpc : parent w c = some v := (hwf.mem_iff c v).mp hc
    have hcv : c ≠ v := by
      intro e
      rw [e] at hc
      exact hvself hc
    refine ⟨h4 c hc, ?_, ?_⟩
    · show children w2 c = _
      rw [h6 c hcv, hC1]
      apply List.erase_of_not_mem
      intro hmem
      exact not_parent_of_parent w v c hce' hpc ((hwf.mem_iff v c).mp hmem)
    · intro hreg
      show c ∈ w2.views.erase v
      rw [h7, hV1]
      exact (List.mem_erase_of_ne hcv).mpr hreg
  · intro x hxv hx
    show parent w2 x = _
    rw [h5 x hx, hP1 x hxv]
  · show w2.views.erase v = _
    rw [h7, hV1]
  · intro hnd
    show v ∉ w2.views.erase v
    rw [h7, hV1]
    exact hnd.not_mem_erase

theorem nestedWorld_singleMembership : SingleMembership nestedWorld :=
  singleMembership_of_setParent stackWorld stackWorld_singleMembership 2 3 (some 2)
    nestedWorld setParent_stackWorld_nested

/-- Witness for C17 on `nestedWorld`: view `2`, which has the parent `0` and the
child `3`, is destroyed. -/
theorem destroy_spec_witness :
    SingleMembership nestedWorld ∧ ChainEnds nestedWorld 2 ∧
    ∃ w' N, (∀ m, N ≤ m → LView_destroy nestedWorld m 2 =
        some (w', (children nestedWorld 2).length)) ∧
      parent w' 2 = none ∧ children w' 2 = [] ∧
      (∀ p, parent nestedWorld 2 = some p →
        children w' p = (children nestedWorld p).erase 2 ∧ 2 ∉ children w' p ∧
        SameOrderExcept 2 (children w' p) (children nestedWorld p)) ∧
      (∀ c, c ∈ children nestedWorld 2 →
        parent w' c = none ∧ children w' c = children nestedWorld c ∧
        (c ∈ nestedWorld.views → c ∈ w'.views)) ∧
      (∀ x, x ≠ 2 → x ∉ children nestedWorld 2 → parent w' x = parent nestedWorld x) ∧
      w'.views = nestedWorld.views.erase 2 ∧ (nestedWorld.views.Nodup → 2 ∉ w'.views) :=
  ⟨nestedWorld_singleMembership, ⟨1, by decide⟩,
    destroy_spec nestedWorld nestedWorld_singleMembership 2 ⟨1, by decide⟩⟩

/-! ## The order-changed flag of the scene -/

theorem listChanged_eraseLink (w : World F) (v : ViewId) :
    (eraseLink w v).listChanged = w.listChanged := by
  unfold eraseLink
  cases (w.view v).parentLink <;> rfl

theorem listChanged_setParent (w : World F) (n : Nat) (v : ViewId) (view : Option ViewId)
    (w' : World F) (he : ¬(parent w v = view ∨ view = some v))
    (h : setParent w n v view = some w') :
    ∃ s, scene w n v = some s ∧ w'.listChanged = (markListChanged w s).listChanged := by
  unfold setParent at h
  rw [if_neg he] at h
  cases hs : scene w n v with
  | none => rw [hs] at h; exact absurd h (by simp)
  | some s =>
    rw [hs] at h
    simp only at h
    refine ⟨s, rfl, ?_⟩
    have h2 : (match parent (markListChanged w s) v with
        | some _ => eraseLink (markListChanged w s) v
        | none => markListChanged w s).listChanged = (markListChanged w s).listChanged := by
      cases parent (markListChanged w s) v with
      | none => rfl
      | some q => exact listChanged_eraseLink _ v
    generalize (match parent (markListChanged w s) v with
        | some _ => eraseLink (markListChanged w s) v
        | none => markListChanged w s) = w2 at h h2
    cases view with
    | some p =>
      simp only [Option.some.injEq] at h
      rw [← h]
      exact h2
    | none =>
      simp only at h
      cases hv : parentSceneView w2 n v with
      | none => rw [hv] at h; exact absurd h (by simp)
      | some sv =>
        rw [hv] at h
        simp only [Option.some.injEq] at h
        rw [← h]
        exact h2

theorem setParent_stackWorld_attached :
    setParent stackWorld 1 4 (some 1) = some attachedWorld := rfl

/-- C18, as stated, fails: in `stackWorld` view `4` has no parent and is in no scene,
and view `1` is in scene `0`, whose order-changed flag is clear.  After
`4.setParent(1)` view `4` is a child of `1` and in scene `0`, and the flag of scene
`0` is still clear. -/
theorem listChanged_counterexample :
    parent stackWorld 4 = none ∧ SceneTo stackWorld 4 none ∧
    SceneTo stackWorld 1 (some 0) ∧ stackWorld.listChanged 0 = false ∧
    SetParentTo stackWorld 4 (some 1) attachedWorld ∧
    parent attachedWorld 4 = some 1 ∧ SceneTo attachedWorld 4 (some 0) ∧
    attachedWorld.listChanged 0 = false :=
  ⟨by decide, ⟨1, fun m hm => scene_mono_le stackWorld 4 none 1 m hm (by decide)⟩,
    ⟨2, fun m hm => scene_mono_le stackWorld 1 (some 0) 2 m hm (by decide)⟩, by decide,
    setParentTo_of_eq stackWorld 4 (some 1) attachedWorld 1 setParent_stackWorld_attached,
    by decide,
    ⟨3, fun m hm => scene_mono_le attachedWorld 4 (some 0) 3 m hm (by decide)⟩, by decide⟩

/-- C18, amended: for a view `v` with a finite parent chain and an argument `view`
that is neither `v` nor the current parent of `v`, `v.setParent(view)` sets the
order-changed flag of the scene that `v.scene()` returns before the call, and
changes no other flag.  When `v` is in no scene before the call no flag changes,
whatever scene the new parent belongs to. -/
theorem setParent_marks_scene (w : World F) (v : ViewId) (hce : ChainEnds w v)
    (view : Option ViewId) (hself : view ≠ some v) (hpar : view ≠ parent w v) :
    ∃ w' s, SetParentTo w v view w' ∧ SceneTo w v s ∧
      (∀ sc, s = some sc →
        w'.listChanged sc = true ∧ ∀ x, x ≠ sc → w'.listChanged x = w.listChanged x) ∧
      (s = none → w'.listChanged = w.listChanged) := by
  obtain ⟨w', n, hn⟩ := setParent_returns w v view hce
  have he : ¬(parent w v = view ∨ view = some v) := by
    rintro (h | h)
    · exact hpar h.symm
    · exact hself h
  obtain ⟨s, hs, hl⟩ := listChanged_setParent w n v view w' he (hn n (le_refl n))
  refine ⟨w', s, ⟨n, hn⟩, ⟨n, fun m hm => scene_mono_le w v s n m hm hs⟩, ?_, ?_⟩
  · intro sc hsc
    subst hsc
    rw [hl]
    exact ⟨by simp [markListChanged], fun x hx => by simp [markListChanged, hx]⟩
  · intro hnone
    subst hnone
    rw [hl]
    rfl

/-- Witness for the amended C18 on `stackWorld`: view `2`, which is in scene `0`, is
moved under its sibling `3`. -/
theorem setParent_marks_scene_witness :
    ChainEnds stackWorld 2 ∧ (some 3 : Option ViewId) ≠ some 2 ∧
    some 3 ≠ parent stackWorld 2 ∧
    ∃ w' s, SetParentTo stackWorld 2 (some 3) w' ∧ SceneTo stackWorld 2 s ∧
      (∀ sc, s = some sc →
        w'.listChanged sc = true ∧
        ∀ x, x ≠ sc → w'.listChanged x = stackWorld.listChanged x) ∧
      (s = none → w'.listChanged = stackWorld.listChanged) :=
  ⟨stackWorld_acyclic 2, by decide, by decide,
    setParent_marks_scene stackWorld 2 (stackWorld_acyclic 2) (some 3) (by decide)
      (by decide)⟩

/-! ## Seat handlers -/

/-- C19: with the compositor in state Initialized, `seatEnabled` (and `seatDisabled`
on an enabled seat) makes exactly one `unlock()` and exactly one `lock()`, the
lock is held again at the end when it was held at the start, and every
`resume()` (respectively `pause()`) of the graphic backend is made while the lock
is released: once if the graphic backend is initialized, never otherwise.  On
the early returns (state other than Initialized, or `seatDisabled` on a seat that
is already disabled) no call at all is made, so no lock operation and no backend
call. -/
theorem seat_handlers_lock (s : SeatWorld) :
    (s.state = CompositorState.Initialized →
      ∃ new, (seatEnabled s).trace = s.trace ++ new ∧
        graphicCallsUnlocked true new = true ∧
        new.count SeatEvent.unlock = 1 ∧ new.count SeatEvent.lock = 1 ∧
        lockHeldAfter true new = true ∧
        new.count SeatEvent.graphicPause = 0 ∧
        new.count SeatEvent.graphicResume = (if s.graphicBackendInitialized then 1 else 0)) ∧
    (s.state = CompositorState.Initialized → s.enabled = true →
      ∃ new, (seatDisabled s).trace = s.trace ++ new ∧
        graphicCallsUnlocked true new = true ∧
        new.count SeatEvent.unlock = 1 ∧ new.count SeatEvent.lock = 1 ∧
        lockHeldAfter true new = true ∧
        new.count SeatEvent.graphicResume = 0 ∧
        new.count SeatEvent.graphicPause = (if s.graphicBackendInitialized then 1 else 0)) ∧
    (s.state ≠ CompositorState.Initialized → (seatEnabled s).trace = s.trace) ∧
    (s.state ≠ CompositorState.Initialized → (seatDisabled s).trace = s.trace) ∧
    (s.enabled = false → seatDisabled s = s) := by
  obtain ⟨en, st, g, i, tr⟩ := s
  refine ⟨?_, ?_, ?_, ?_, ?_⟩
  · intro hst
    simp only at hst
    subst hst
    cases g <;> cases i <;>
      simp [seatEnabled, SeatWorld.emit, graphicCallsUnlocked, lockHeldAfter]
  · intro hst hen
    simp only at hst hen
    subst hst
    subst hen
    cases g <;> cases i <;>
      simp [seatDisabled, SeatWorld.emit, graphicCallsUnlocked, lockHeldAfter]
  · intro hst
    simp only at hst
    simp [seatEnabled, hst]
  · intro hst
    simp only at hst
    cases en <;> simp [seatDisabled, hst]
  · intro hen
    simp only at hen
    subst hen
    simp [seatDisabled]

/-- Witness for C19 on `runningSeat`: the seat is disabled while the compositor is
initialized with both backends. -/
theorem seat_handlers_lock_witness :
    runningSeat.state = CompositorState.Initialized ∧ runningSeat.enabled = true ∧
    ∃ new, (seatDisabled runningSeat).trace = runningSeat.trace ++ new ∧
      graphicCallsUnlocked true new = true ∧
      new.count SeatEvent.unlock = 1 ∧ new.count SeatEvent.lock = 1 ∧
      lockHeldAfter true new = true ∧
      new.count SeatEvent.graphicResume = 0 ∧
      new.count SeatEvent.graphicPause =
        (if runningSeat.graphicBackendInitialized then 1 else 0) :=
  ⟨by decide, by decide, (seat_handlers_lock runningSeat).2.1 (by decide) (by decide)⟩

/-! ## Removal of an output -/

/-- C20: `removeOutput(o)` called from the rendering thread of `o` returns the state
as it was: `o` stays in `outputs()` and nothing of its state changes.  A later
`removeOutput(o)` from the main thread, which is not the rendering thread of
`o`, removes `o` from `outputs()`, where it was listed once, and leaves the other
outputs listed. -/
theorem removeOutput_own_thread (c : OutputsWorld) (o : OutputId) :
    removeOutput c (c.outputThread o) o = c ∧
    (o ∈ c.outputs → c.outputs.Nodup → c.mainThreadId ≠ c.outputThread o →
      o ∉ (removeOutput (removeOutput c (c.outputThread o) o) c.mainThreadId o).outputs ∧
      ∀ x, x ≠ o →
        (x ∈ (removeOutput (removeOutput c (c.outputThread o) o) c.mainThreadId o).outputs ↔
          x ∈ c.outputs)) := by
  have h1 : removeOutput c (c.outputThread o) o = c := by
    unfold removeOutput
    rw [if_pos rfl]
  refine ⟨h1, ?_⟩
  intro hmem hnd hmain
  rw [h1]
  unfold removeOutput
  rw [if_neg hmain, if_pos hmem]
  refine ⟨hnd.not_mem_erase, ?_⟩
  intro x hx
  exact List.mem_erase_of_ne hx

/-- Witness for C20 on `twoOutputs`: output `7` is removed from its own thread, then
from the main thread. -/
theorem removeOutput_own_thread_witness :
    (7 : OutputId) ∈ twoOutputs.outputs ∧ twoOutputs.outputs.Nodup ∧
    twoOutputs.mainThreadId ≠ twoOutputs.outputThread 7 ∧
    removeOutput twoOutputs (twoOutputs.outputThread 7) 7 = twoOutputs ∧
    (7 ∉ (removeOutput (removeOutput twoOutputs (twoOutputs.outputThread 7) 7)
        twoOutputs.mainThreadId 7).outputs ∧
      ∀ x, x ≠ 7 →
        (x ∈ (removeOutput (removeOutput twoOutputs (twoOutputs.outputThread 7) 7)
          twoOutputs.mainThreadId 7).outputs ↔ x ∈ twoOutputs.outputs)) :=
  ⟨by decide, by decide, by decide, (removeOutput_own_thread twoOutputs 7).1,
    (removeOutput_own_thread twoOutputs 7).2 (by decide) (by decide) (by decide)⟩

/-! ## `insertAfter` without a switch of parent -/

/-- C28: for `prev ≠ v` whose parent is not the parent of `v`,
`v.insertAfter(prev, false)` returns at the test of the parents, with any fuel,
and leaves the whole state as it was: no parent pointer and no child list
changes, no order-changed mark is set and no repaint is scheduled. -/
theorem insertAfter_other_parent (w : World F) (fuel : Nat) (v prev : ViewId)
    (hne : prev ≠ v) (hpar : parent w prev ≠ parent w v) :
    insertAfter w fuel v (some prev) false = some w := by
  unfold insertAfter
  have hs : ¬ (some prev = some v) := fun h => hne (Option.some.inj h)
  rw [if_neg hs]
  simp only [Bool.false_eq_true, if_false]
  rw [if_pos hpar]

/-- Witness for C28 on `nestedWorld`: view `1`, a child of `0`, is asked to go after
view `3`, a child of `2`. -/
theorem insertAfter_other_parent_witness :
    (3 : ViewId) ≠ 1 ∧ parent nestedWorld 3 ≠ parent nestedWorld 1 ∧
    insertAfter nestedWorld 0 1 (some 3) false = some nestedWorld :=
  ⟨by decide, by decide, insertAfter_other_parent nestedWorld 0 1 3 (by decide) (by decide)⟩

/-- C24: in a state with consistent child lists, for a view `v` with parent `p` and a
sibling `prev ≠ v` in `children(p)`, `v.insertAfter(prev, false)` returns, with
any fuel, and afterwards `v` is the element right after `prev` in `children(p)`,
`children(p)` is a permutation of its previous content, all views other than `v`
keep their relative order, no other child list and no parent pointer changes and
the child lists are still consistent.  If `prev` was the last child, `v` is the
last child afterwards; if `v` was already right after `prev`, `children(p)` is
left as it was. -/
theorem insertAfter_sibling (w : World F) (hwf : SingleMembership w) (fuel : Nat)
    (v prev p : ViewId) (hv : parent w v = some p) (hprev : prev ∈ children w p)
    (hne : prev ≠ v) :
    ∃ w', insertAfter w fuel v (some prev) false = some w' ∧
      (∃ l1 l2, children w' p = l1 ++ prev :: v :: l2) ∧
      (children w' p).Perm (children w p) ∧
      (∀ x, SameOrderExcept v (children w' x) (children w x)) ∧
      (∀ x, x ≠ p → children w' x = children w x) ∧
      (∀ x, parent w' x = parent w x) ∧
      ((children w p).getLast? = some prev → (children w' p).getLast? = some v) ∧
      (∀ a b, children w p = a ++ prev :: v :: b → children w' p = children w p) ∧
      SingleMembership w' := by
  have hp : parent w prev = some p := (hwf.mem_iff prev p).mp hprev
  have hrun : insertAfter w fuel v (some prev) false = some (insertAfterPrev w v prev) := by
    unfold insertAfter
    have hs : ¬ (some prev = some v) := fun h => hne (Option.some.inj h)
    rw [if_neg hs]
    simp only [Bool.false_eq_true, if_false]
    rw [if_neg (by rw [hp, hv]; exact fun h => h rfl)]
  obtain ⟨hP, hC, ⟨l1, l2, he1, he2⟩, hL⟩ := insertAfterPrev_effect w hwf v prev p hv hp hne
  have hvmem : v ∈ children w p := (hwf.mem_iff v p).mpr hv
  have hnd : ((children w p).erase v).Nodup := (hwf.nodup p).erase v
  have hnd' : (l1 ++ prev :: l2).Nodup := by rw [← he1]; exact hnd
  have hprev1 : prev ∉ l1 := by
    intro hin
    have := List.nodup_append.mp hnd'
    exact this.2.2 hin (List.mem_cons_self prev l2)
  have hprev2 : prev ∉ l2 := by
    have := (List.nodup_append.mp hnd').2.1
    exact (List.nodup_cons.mp this).1
  refine ⟨insertAfterPrev w v prev, hrun, ⟨l1, l2, he2⟩, ?_, ?_, hC, hP, ?_, ?_, ?_⟩
  · rw [he2]
    exact perm_middle_erase v prev _ l1 l2 hvmem he1
  · intro x
    by_cases hx : x = p
    · subst hx
      rw [he2]
      exact sameOrderExcept_middle v prev _ l1 l2 he1
    · rw [hC x hx]; rfl
  · intro hlast
    obtain ⟨l1', hl1'⟩ := erase_of_getLast v prev (children w p) hne hlast
    have heq : l1 ++ prev :: l2 = l1' ++ prev :: [] := by rw [← he1, hl1']
    obtain ⟨_, _, h2⟩ := (List.append_cons_inj_of_not_mem hprev1 hprev2).mp heq
    rw [he2, h2]
    simp
  · intro a b hab
    have hndp : (a ++ prev :: v :: b).Nodup := by rw [← hab]; exact hwf.nodup p
    have hva : v ∉ a := by
      intro hin
      exact (List.nodup_append.mp hndp).2.2 hin
        (List.mem_cons_of_mem prev (List.mem_cons_self v b))
    have hb : ¬((prev == v) = true) := by simpa using hne
    have herase : (children w p).erase v = a ++ prev :: b := by
      rw [hab, List.erase_append, if_neg hva, List.erase_cons_tail hb, List.erase_cons_head]
    have heq : l1 ++ prev :: l2 = a ++ prev :: b := by rw [← he1, herase]
    obtain ⟨h1, _, h2⟩ := (List.append_cons_inj_of_not_mem hprev1 hprev2).mp heq
    rw [he2, hab, h1, h2]
  · apply singleMembership_of_reorder w _ hwf p hP hL hC
    rw [he2]
    exact perm_middle_erase v prev _ l1 l2 hvmem he1

/-- Witness for C24 on `stackWorld`: view `1` is moved after its sibling `3`, the last
child of the scene main view. -/
theorem insertAfter_sibling_witness :
    SingleMembership stackWorld ∧ parent stackWorld 1 = some 0 ∧
    (3 : ViewId) ∈ children stackWorld 0 ∧ (3 : ViewId) ≠ 1 ∧
    ∃ w', insertAfter stackWorld 0 1 (some 3) false = some w' ∧
      (∃ l1 l2, children w' 0 = l1 ++ 3 :: 1 :: l2) ∧
      (children w' 0).Perm (children stackWorld 0) ∧
      (∀ x, SameOrderExcept 1 (children w' x) (children stackWorld x)) ∧
      (∀ x, x ≠ 0 → children w' x = children stackWorld x) ∧
      (∀ x, parent w' x = parent stackWorld x) ∧
      ((children stackWorld 0).getLast? = some 3 → (children w' 0).getLast? = some 1) ∧
      (∀ a b, children stackWorld 0 = a ++ 3 :: 1 :: b →
        children w' 0 = children stackWorld 0) ∧
      SingleMembership w' :=
  ⟨stackWorld_singleMembership, by decide, by decide, by decide,
    insertAfter_sibling stackWorld stackWorld_singleMembership 0 1 3 0 (by decide)
      (by decide) (by decide)⟩

/-! ## `insertAfter` behind a child of the view itself -/

theorem nestedSceneWorld_singleMembership : SingleMembership nestedSceneWorld := by
  refine ⟨?_, ?_, ?_⟩
  · intro c p
    obtain _ | _ | _ | p := p <;> obtain _ | _ | _ | c := c <;>
      simp [children, parent, nestedSceneWorld, blankView]
  · intro p
    obtain _ | _ | _ | p := p <;> simp [children, nestedSceneWorld, blankView]
  · intro c p
    obtain _ | _ | _ | c := c <;> simp [parent, nestedSceneWorld, blankView]

theorem insertAfter_nestedSceneWorld_selfChild :
    insertAfter nestedSceneWorld 0 1 (some 2) true = some selfChildWorld := rfl

/-- What `v.insertAfter(prev, true)` does when `prev` is a child of `v` and `v` has a
parent `q` other than itself: `v` is erased from `children(q)` and keeps `q` as
parent. -/
theorem insertAfter_own_child_effect (w : World F) (hwf : SingleMembership w) (fuel : Nat)
    (v prev q : ViewId) (hv : parent w v = some q) (hqv : q ≠ v)
    (hp : parent w prev = some v) :
    ∃ w', insertAfter w fuel v (some prev) true = some w' ∧
      parent w' v = some q ∧ children w' q = (children w q).erase v ∧
      v ∉ children w' q := by
  have hne : prev ≠ v := by
    intro e
    rw [e, hv] at hp
    exact hqv (Option.some.inj hp)
  have hs : ¬ (some prev = some v) := fun h => hne (Option.some.inj h)
  have hset : setParent w fuel v (some v) = some w := by
    unfold setParent
    rw [if_pos (Or.inr rfl)]
  have hrun : insertAfter w fuel v (some prev) true = some (insertAfterPrev w v prev) := by
    unfold insertAfter
    rw [if_neg hs]
    simp only [hp, hset, if_true]
  have hlv : (w.view v).parentLink = some q := hwf.link v q hv
  have hlp : (w.view prev).parentLink = some v := hwf.link prev v hp
  have hnotlast : ¬ ((children w q).getLast? = some prev) := by
    intro hlast
    have hmem : prev ∈ children w q := by
      obtain ⟨ys, hys⟩ := List.getLast?_eq_some_iff.mp hlast
      rw [hys]; simp
    have := (hwf.mem_iff prev q).mp hmem
    rw [hp] at this
    exact hqv (Option.some.inj this).symm
  have hvq : ¬ v = q := fun e => hqv e.symm
  have hch : children (insertAfterPrev w v prev) q = (children w q).erase v := by
    unfold insertAfterPrev
    simp only [parent_repaint, parent_markAsChangedOrder, hv, children_repaint,
      children_markAsChangedOrder]
    rw [if_neg hnotlast]
    simp [children_insertAtNext, children_eraseLink, hlv, hlp, hvq]
  refine ⟨insertAfterPrev w v prev, hrun, ?_, hch, ?_⟩
  · rw [parent_insertAfterPrev]; exact hv
  · rw [hch]; exact (hwf.nodup q).not_mem_erase

/-- C23 at its failing input.  In the consistent state `nestedSceneWorld` view `1`
has the parent `0` and the child `2`.  The call `1.insertAfter(2, true)` asks
`setParent` for the view itself as parent, which is refused, and then reorders
all the same: view `1` is unlinked from the child list of `0`, which stays its
parent, and is linked after `2`, that is into its own child list.  The tree has
changed and the child lists no longer agree with the parent pointers. -/
theorem insertAfter_own_child_changes_tree :
    SingleMembership nestedSceneWorld ∧
    parent nestedSceneWorld 1 = some 0 ∧ parent nestedSceneWorld 2 = some 1 ∧
    children nestedSceneWorld 0 = [1] ∧ children nestedSceneWorld 1 = [2] ∧
    InsertAfterTo nestedSceneWorld 1 (some 2) true selfChildWorld ∧
    parent selfChildWorld 1 = some 0 ∧
    children selfChildWorld 0 = [] ∧
    children selfChildWorld 1 = [2, 1] ∧
    ¬ SingleMembership selfChildWorld :=
  ⟨nestedSceneWorld_singleMembership, by decide, by decide, by decide, by decide,
    insertAfterTo_of_eq nestedSceneWorld 1 (some 2) true selfChildWorld 0
      insertAfter_nestedSceneWorld_selfChild,
    by decide, by decide, by decide,
    fun h => absurd ((h.mem_iff 1 1).mp (by decide)) (by decide)⟩

/-! ## Mapped views and their ancestors -/

theorem mapped_true_step (w : World F) (n : Nat) (v : ViewId)
    (h : mapped w (n + 1) v = some true) :
    visible w v = true ∧ (∀ p, parent w v = some p → mapped w n p = some true) ∧
      (parent w v = none → type w v = ViewType.Scene) := by
  rw [mapped] at h
  by_cases h1 : type w v = ViewType.Scene ∧ parent w v = none
  · rw [if_pos h1] at h
    refine ⟨Option.some.inj h, ?_, fun _ => h1.1⟩
    intro p hp
    rw [h1.2] at hp
    exact absurd hp (by simp)
  · rw [if_neg h1] at h
    by_cases h2 : (visible w v && nativeMapped w v) = true
    · rw [if_pos h2] at h
      have hv : visible w v = true ∧ nativeMapped w v = true := by
        simpa [Bool.and_eq_true] using h2
      cases hp : parent w v with
      | none => rw [hp] at h; exact absurd h (by simp)
      | some q =>
        rw [hp] at h
        refine ⟨hv.1, ?_, fun hq => absurd hq (by simp)⟩
        intro p hpq
        rw [← Option.some.inj hpq]
        exact h
    · rw [if_neg h2] at h
      exact absurd h (by simp)

theorem mapped_true_ancestor (w : World F) (k : Nat) :
    ∀ (n : Nat) (d a : ViewId), mapped w n d = some true → ancestorAt w k d = some a →
      mapped w n a = some true := by
  induction k with
  | zero =>
    intro n d a h ha
    simp only [ancestorAt, Option.some.injEq] at ha
    rw [← ha]; exact h
  | succ j ih =>
    intro n d a h ha
    rw [ancestorAt] at ha
    cases hp : parent w d with
    | none => rw [hp] at ha; exact absurd ha (by simp)
    | some p =>
      rw [hp] at ha
      cases n with
      | zero => simp [mapped] at h
      | succ m =>
        have hpm := (mapped_true_step w m d h).2.1 p hp
        exact ih (m + 1) p a (mapped_mono_le w p true m (m + 1) (Nat.le_succ m) hpm) ha

theorem mapped_true_visible (w : World F) (n : Nat) (v : ViewId)
    (h : mapped w n v = some true) : visible w v = true := by
  cases n with
  | zero => simp [mapped] at h
  | succ m => exact (mapped_true_step w m v h).1

theorem mapped_true_root (w : World F) (n : Nat) :
    ∀ d, mapped w n d = some true →
      ∃ k r, k < n ∧ ancestorAt w k d = some r ∧ parent w r = none ∧
        type w r = ViewType.Scene := by
  induction n with
  | zero => intro d h; simp [mapped] at h
  | succ m ih =>
    intro d h
    obtain ⟨_, hstep, hroot⟩ := mapped_true_step w m d h
    cases hp : parent w d with
    | none => exact ⟨0, d, Nat.succ_pos m, rfl, hp, hroot hp⟩
    | some p =>
      obtain ⟨k, r, hk, hr, hpr, htr⟩ := ih p (hstep p hp)
      refine ⟨k + 1, r, Nat.succ_lt_succ hk, ?_, hpr, htr⟩
      rw [ancestorAt, hp]
      exact hr

theorem mappedTo_ancestor (w : World F) (d a : ViewId) (k : Nat) (hd : MappedTo w d true)
    (ha : ancestorAt w k d = some a) : MappedTo w a true := by
  obtain ⟨n, hn⟩ := hd
  exact mappedTo_of_eq w a true n (mapped_true_ancestor w k n d a (hn n (le_refl n)) ha)

/-- C26: if `d.mapped()` returns true, then for every ancestor `a` of `d` (and for
`d` itself) `a.mapped()` returns true and `a` is visible, the parent chain of `d`
ends at a view without parent whose type is Scene, and no view that has `d` as a
proper descendant is unmapped.  So a child that `boundingBox()` skips because it
is not mapped has no mapped descendant. -/
theorem mapped_ancestors_mapped (w : World F) (d : ViewId) (hd : MappedTo w d true) :
    (∀ k a, ancestorAt w k d = some a → MappedTo w a true ∧ visible w a = true) ∧
    (∃ k r, ancestorAt w k d = some r ∧ parent w r = none ∧ type w r = ViewType.Scene) ∧
    (∀ c, IsProperDescendant w d c → ¬ MappedTo w c false) := by
  refine ⟨?_, ?_, ?_⟩
  · intro k a ha
    have hm := mappedTo_ancestor w d a k hd ha
    obtain ⟨n, hn⟩ := hm
    exact ⟨⟨n, hn⟩, mapped_true_visible w n a (hn n (le_refl n))⟩
  · obtain ⟨n, hn⟩ := hd
    obtain ⟨k, r, _, hr, hpr, htr⟩ := mapped_true_root w n d (hn n (le_refl n))
    exact ⟨k, r, hr, hpr, htr⟩
  · rintro c ⟨k, hk⟩ hc
    have hm := mappedTo_ancestor w d c (k + 1) hd hk
    exact absurd (mappedTo_unique w c true false hm hc) (by decide)

/-- Witness for C26 on `sceneWorld`, at the mapped child view `1`. -/
theorem mapped_ancestors_mapped_witness :
    MappedTo sceneWorld 1 true ∧
    (∀ k a, ancestorAt sceneWorld k 1 = some a →
      MappedTo sceneWorld a true ∧ visible sceneWorld a = true) ∧
    (∃ k r, ancestorAt sceneWorld k 1 = some r ∧ parent sceneWorld r = none ∧
      type sceneWorld r = ViewType.Scene) ∧
    (∀ c, IsProperDescendant sceneWorld 1 c → ¬ MappedTo sceneWorld c false) :=
  ⟨mappedTo_of_eq sceneWorld 1 true 2 (by decide),
    mapped_ancestors_mapped sceneWorld 1 (mappedTo_of_eq sceneWorld 1 true 2 (by decide))⟩

/-! ## The bounding box as a smallest box -/

theorem LBox.contains_antisymm (a b : LBox) (hab : a.Contains b) (hba : b.Contains a) :
    a = b := by
  obtain ⟨a1, a2, a3, a4⟩ := a
  obtain ⟨b1, b2, b3, b4⟩ := b
  simp only [LBox.Contains] at hab hba
  simp only [LBox.mk.injEq]
  omega

theorem growBox_least (box cb b : LBox) (h1 : b.Contains box) (h2 : b.Contains cb) :
    b.Contains (growBox box cb) := by
  obtain ⟨a1, a2, a3, a4⟩ := box
  obtain ⟨c1, c2, c3, c4⟩ := cb
  obtain ⟨b1, b2, b3, b4⟩ := b
  simp only [LBox.Contains] at h1 h2
  simp only [growBox, LBox.Contains, gt_iff_lt]
  refine ⟨?_, ?_, ?_, ?_⟩ <;> split_ifs <;> (try simp only at *) <;> omega

theorem growBox_x1 (a b : LBox) : (growBox a b).x1 = a.x1 ∨ (growBox a b).x1 = b.x1 := by
  obtain ⟨a1, a2, a3, a4⟩ := a
  obtain ⟨c1, c2, c3, c4⟩ := b
  simp only [growBox, gt_iff_lt]
  split_ifs <;> simp

theorem growBox_y1 (a b : LBox) : (growBox a b).y1 = a.y1 ∨ (growBox a b).y1 = b.y1 := by
  obtain ⟨a1, a2, a3, a4⟩ := a
  obtain ⟨c1, c2, c3, c4⟩ := b
  simp only [growBox, gt_iff_lt]
  split_ifs <;> simp

theorem growBox_x2 (a b : LBox) : (growBox a b).x2 = a.x2 ∨ (growBox a b).x2 = b.x2 := by
  obtain ⟨a1, a2, a3, a4⟩ := a
  obtain ⟨c1, c2, c3, c4⟩ := b
  simp only [growBox, gt_iff_lt]
  split_ifs <;> simp

theorem growBox_y2 (a b : LBox) : (growBox a b).y2 = a.y2 ∨ (growBox a b).y2 = b.y2 := by
  obtain ⟨a1, a2, a3, a4⟩ := a
  obtain ⟨c1, c2, c3, c4⟩ := b
  simp only [growBox, gt_iff_lt]
  split_ifs <;> simp

theorem growBox_coordinate (f : LBox → Int)
    (hf : f ∈ [LBox.x1, LBox.y1, LBox.x2, LBox.y2]) (a b : LBox) :
    f (growBox a b) = f a ∨ f (growBox a b) = f b := by
  simp only [List.mem_cons, List.mem_singleton, List.not_mem_nil, or_false] at hf
  rcases hf with h | h | h | h
  · subst h; exact growBox_x1 a b
  · subst h; exact growBox_y1 a b
  · subst h; exact growBox_x2 a b
  · subst h; exact growBox_y2 a b

theorem boundingBoxLoop_defined (isMapped : ViewId → Option Bool)
    (childBox : ViewId → Option LBox) :
    ∀ (l : List ViewId) (box r : LBox), boundingBoxLoop isMapped childBox l box = some r →
      ∀ c ∈ l, ∃ b, isMapped c = some b := by
  intro l
  induction l with
  | nil => intro box r _ c hc; exact absurd hc (List.not_mem_nil c)
  | cons d rest ih =>
    intro box r h c hc
    rw [boundingBoxLoop] at h
    cases hd : isMapped d with
    | none => rw [hd] at h; exact absurd h (by simp)
    | some b =>
      rw [hd] at h
      rcases List.mem_cons.mp hc with hcd | hcr
      · subst hcd; exact ⟨b, hd⟩
      · cases b with
        | false => exact ih box r h c hcr
        | true =>
          simp only at h
          cases hcb : childBox d with
          | none => rw [hcb] at h; exact absurd h (by simp)
          | some cb =>
            rw [hcb] at h
            exact ih _ r h c hcr

theorem boundingBoxLoop_least (isMapped : ViewId → Option Bool)
    (childBox : ViewId → Option LBox) :
    ∀ (l : List ViewId) (box r : LBox), boundingBoxLoop isMapped childBox l box = some r →
      ∀ b : LBox, b.Contains box →
        (∀ c ∈ l, isMapped c = some true → ∀ cb, childBox c = some cb → b.Contains cb) →
        b.Contains r := by
  intro l
  induction l with
  | nil =>
    intro box r h b hb _
    simp only [boundingBoxLoop, Option.some.injEq] at h
    rw [← h]; exact hb
  | cons d rest ih =>
    intro box r h b hb hall
    rw [boundingBoxLoop] at h
    cases hd : isMapped d with
    | none => rw [hd] at h; exact absurd h (by simp)
    | some m =>
      rw [hd] at h
      cases m with
      | false =>
        exact ih box r h b hb (fun c hc => hall c (List.mem_cons_of_mem d hc))
      | true =>
        simp only at h
        cases hcb : childBox d with
        | none => rw [hcb] at h; exact absurd h (by simp)
        | some cb =>
          rw [hcb] at h
          exact ih _ r h b
            (growBox_least box cb b hb (hall d (List.mem_cons_self d rest) hd cb hcb))
            (fun c hc => hall c (List.mem_cons_of_mem d hc))

theorem boundingBoxLoop_attained (isMapped : ViewId → Option Bool)
    (childBox : ViewId → Option LBox) (f : LBox → Int)
    (hf : ∀ a b, f (growBox a b) = f a ∨ f (growBox a b) = f b) :
    ∀ (l : List ViewId) (box r : LBox), boundingBoxLoop isMapped childBox l box = some r →
      f r = f box ∨
        ∃ c ∈ l, isMapped c = some true ∧ ∃ cb, childBox c = some cb ∧ f r = f cb := by
  intro l
  induction l with
  | nil =>
    intro box r h
    simp only [boundingBoxLoop, Option.some.injEq] at h
    rw [← h]; exact Or.inl rfl
  | cons d rest ih =>
    intro box r h
    rw [boundingBoxLoop] at h
    cases hd : isMapped d with
    | none => rw [hd] at h; exact absurd h (by simp)
    | some m =>
      rw [hd] at h
      cases m with
      | false =>
        rcases ih box r h with h1 | ⟨c, hc, h2⟩
        · exact Or.inl h1
        · exact Or.inr ⟨c, List.mem_cons_of_mem d hc, h2⟩
      | true =>
        simp only at h
        cases hcb : childBox d with
        | none => rw [hcb] at h; exact absurd h (by simp)
        | some cb =>
          rw [hcb] at h
          rcases ih _ r h with h1 | ⟨c, hc, h2⟩
          · rcases hf box cb with h3 | h3
            · exact Or.inl (h1.trans h3)
            · exact Or.inr ⟨d, List.mem_cons_self d rest, hd, cb, hcb, h1.trans h3⟩
          · exact Or.inr ⟨c, List.mem_cons_of_mem d hc, h2⟩

theorem boundingBox_unfold [Float32Ops F] (w : World F) (n : Nat) (v : ViewId) (B : LBox)
    (h : boundingBox w n v = some B) :
    ∃ m p s, n = m + 1 ∧ pos w m v = some p ∧ size w m v = some s ∧
      boundingBoxLoop (mapped w m) (fun c => boundingBox w m c) (children w v)
        (rectBox p s) = some B := by
  cases n with
  | zero => simp [boundingBox] at h
  | succ m =>
    rw [boundingBox] at h
    cases hp : pos w m v with
    | none => rw [hp] at h; exact absurd h (by simp)
    | some p =>
      cases hs : size w m v with
      | none => rw [hp, hs] at h; exact absurd h (by simp)
      | some sz =>
        rw [hp, hs] at h
        exact ⟨m, p, sz, rfl, hp, hs, h⟩

theorem posTo_unique [Float32Ops F] (w : World F) (v : ViewId) (a b : Int × Int)
    (ha : PosTo w v a) (hb : PosTo w v b) : a = b := by
  obtain ⟨n, hn⟩ := ha
  obtain ⟨m, hm⟩ := hb
  have h1 := hn (max n m) (le_max_left _ _)
  have h2 := hm (max n m) (le_max_right _ _)
  rw [h1] at h2
  exact Option.some.inj h2

theorem sizeTo_of_eq [Float32Ops F] (w : World F) (v : ViewId) (r : Int × Int) (n : Nat)
    (h : size w n v = some r) : SizeTo w v r :=
  ⟨n, fun m hm => size_mono_le w v r n m hm h⟩

theorem sizeTo_unique [Float32Ops F] (w : World F) (v : ViewId) (a b : Int × Int)
    (ha : SizeTo w v a) (hb : SizeTo w v b) : a = b := by
  obtain ⟨n, hn⟩ := ha
  obtain ⟨m, hm⟩ := hb
  have h1 := hn (max n m) (le_max_left _ _)
  have h2 := hm (max n m) (le_max_right _ _)
  rw [h1] at h2
  exact Option.some.inj h2

/-- What a returning call `v.boundingBox()` computes, in terms of the calls that
return: the box contains the own rect and the box of every mapped child, it is
contained in every box that does, and each coordinate is the one of the own rect
or of the box of a mapped child. -/
theorem boundingBoxTo_spec [Float32Ops F] (w : World F) (v : ViewId) (B : LBox)
    (hB : BoundingBoxTo w v B) :
    ∃ p s, PosTo w v p ∧ SizeTo w v s ∧ B.Contains (rectBox p s) ∧
      (∀ c ∈ children w v, ∃ b, MappedTo w c b) ∧
      (∀ c ∈ children w v, MappedTo w c true →
        ∃ Bc, BoundingBoxTo w c Bc ∧ B.Contains Bc) ∧
      (∀ b : LBox, b.Contains (rectBox p s) →
        (∀ c ∈ children w v, MappedTo w c true →
          ∀ Bc, BoundingBoxTo w c Bc → b.Contains Bc) → b.Contains B) ∧
      (∀ f : LBox → Int, f ∈ [LBox.x1, LBox.y1, LBox.x2, LBox.y2] →
        f B = f (rectBox p s) ∨
          ∃ c ∈ children w v, MappedTo w c true ∧
            ∃ Bc, BoundingBoxTo w c Bc ∧ f B = f Bc) := by
  obtain ⟨n, hn⟩ := hB
  obtain ⟨m, p, s, _, hp, hs, hloop⟩ := boundingBox_unfold w n v B (hn n (le_refl n))
  have hdef := boundingBoxLoop_defined _ _ _ _ _ hloop
  obtain ⟨hrect, hch⟩ := boundingBoxLoop_contains _ _ _ _ _ hloop
  have hm : ∀ c ∈ children w v, MappedTo w c true → mapped w m c = some true := by
    intro c hc hmc
    obtain ⟨b, hb⟩ := hdef c hc
    have := mappedTo_unique w c b true (mappedTo_of_eq w c b m hb) hmc
    rw [← this]; exact hb
  refine ⟨p, s, posTo_of_eq w v p m hp, sizeTo_of_eq w v s m hs, hrect, ?_, ?_, ?_, ?_⟩
  · intro c hc
    obtain ⟨b, hb⟩ := hdef c hc
    exact ⟨b, mappedTo_of_eq w c b m hb⟩
  · intro c hc hmc
    obtain ⟨cb, hcb, hcont⟩ := hch c hc (hm c hc hmc)
    exact ⟨cb, boundingBoxTo_of_eq w c cb m hcb, hcont⟩
  · intro b hb hall
    refine boundingBoxLoop_least _ _ _ _ _ hloop b hb ?_
    intro c hc hmc cb hcb
    exact hall c hc (mappedTo_of_eq w c true m hmc) cb (boundingBoxTo_of_eq w c cb m hcb)
  · intro f hf
    rcases boundingBoxLoop_attained _ _ f (growBox_coordinate f hf) _ _ _ hloop with
      h1 | ⟨c, hc, hmc, cb, hcb, h2⟩
    · exact Or.inl h1
    · exact Or.inr ⟨c, hc, mappedTo_of_eq w c true m hmc, cb,
        boundingBoxTo_of_eq w c cb m hcb, h2⟩

/-- C25: in an acyclic tree that is finite below `v`, `v.boundingBox()` returns a box
`B` and `v.pos()`, `v.size()` return `p`, `s` such that: `B` contains the own rect
`(p.x, p.y, p.x + s.w, p.y + s.h)` and the bounding box of every mapped child;
every box with these two properties contains `B`; each coordinate of `B` is the
coordinate of the own rect or of the bounding box of a mapped child (so `x1`,
`y1` are minima and `x2`, `y2` maxima); `B` is the own rect when no child is
mapped; and in any other state `w'` with the same own rect of `v`, the same child
list, the same mapped children and the same boxes of the mapped children,
`v.boundingBox()` returns the same `B`, whatever the unmapped children and their
descendants look like. -/
theorem boundingBox_smallest [Float32Ops F] (w : World F) (hac : Acyclic w) (v : ViewId)
    (hfin : FiniteBelow w v) :
    ∃ B p s, BoundingBoxTo w v B ∧ PosTo w v p ∧ SizeTo w v s ∧
      B.Contains (rectBox p s) ∧
      (∀ c ∈ children w v, MappedTo w c true →
        ∃ Bc, BoundingBoxTo w c Bc ∧ B.Contains Bc) ∧
      (∀ b : LBox, b.Contains (rectBox p s) →
        (∀ c ∈ children w v, MappedTo w c true →
          ∀ Bc, BoundingBoxTo w c Bc → b.Contains Bc) → b.Contains B) ∧
      (∀ f : LBox → Int, f ∈ [LBox.x1, LBox.y1, LBox.x2, LBox.y2] →
        f B = f (rectBox p s) ∨
          ∃ c ∈ children w v, MappedTo w c true ∧
            ∃ Bc, BoundingBoxTo w c Bc ∧ f B = f Bc) ∧
      ((∀ c ∈ children w v, ¬ MappedTo w c true) → B = rectBox p s) ∧
      (∀ (w' : World F) (B' : LBox), PosTo w' v p → SizeTo w' v s →
        children w' v = children w v →
        (∀ c ∈ children w v, ∀ b, MappedTo w c b → MappedTo w' c b) →
        (∀ c ∈ children w v, MappedTo w c true →
          ∀ Bc, BoundingBoxTo w c Bc → BoundingBoxTo w' c Bc) →
        BoundingBoxTo w' v B' → B' = B) := by
  obtain ⟨h, hh⟩ := hfin
  obtain ⟨n, B, hB⟩ := boundingBox_returns w hac h v hh
  have hBto := boundingBoxTo_of_eq w v B n hB
  obtain ⟨p, s, hp, hs, hrect, hdef, hch, hleast, hatt⟩ := boundingBoxTo_spec w v B hBto
  refine ⟨B, p, s, hBto, hp, hs, hrect, hch, hleast, hatt, ?_, ?_⟩
  · intro hnone
    refine LBox.contains_antisymm _ _ hrect ?_
    exact hleast _ (LBox.contains_refl _) (fun c hc hmc => absurd hmc (hnone c hc))
  · intro w' B' hp' hs' hchildren hmap hbox hB'
    obtain ⟨p', s', hp2, hs2, hrect', hdef', hch', hleast', _⟩ :=
      boundingBoxTo_spec w' v B' hB'
    have e1 : p' = p := posTo_unique w' v p' p hp2 hp'
    have e2 : s' = s := sizeTo_unique w' v s' s hs2 hs'
    subst e1; subst e2
    rw [hchildren] at hch' hleast'
    refine LBox.contains_antisymm _ _ ?_ ?_
    · refine hleast B' hrect' ?_
      intro c hc hmc Bc hBc
      obtain ⟨Bc', hBc', hcont⟩ := hch' c hc (hmap c hc true hmc)
      have := boundingBoxTo_unique w' c Bc' Bc hBc' (hbox c hc hmc Bc hBc)
      rw [← this]; exact hcont
    · refine hleast' B hrect ?_
      intro c hc hmc' Bc' hBc'
      obtain ⟨b, hb⟩ := hdef c hc
      have hbt : b = true := mappedTo_unique w' c b true (hmap c hc b hb) hmc'
      subst hbt
      obtain ⟨Bc, hBc, hcont⟩ := hch c hc hb
      have := boundingBoxTo_unique w' c Bc Bc' (hbox c hc hb Bc hBc) hBc'
      rw [← this]; exact hcont

/-- Witness for C25 on `sceneWorld`, at the scene main view `0`. -/
theorem boundingBox_smallest_witness :
    Acyclic sceneWorld ∧ FiniteBelow sceneWorld 0 ∧
    ∃ B p s, BoundingBoxTo sceneWorld 0 B ∧ PosTo sceneWorld 0 p ∧ SizeTo sceneWorld 0 s ∧
      B.Contains (rectBox p s) ∧
      (∀ b : LBox, b.Contains (rectBox p s) →
        (∀ c ∈ children sceneWorld 0, MappedTo sceneWorld c true →
          ∀ Bc, BoundingBoxTo sceneWorld c Bc → b.Contains Bc) → b.Contains B) :=
  ⟨sceneWorld_acyclic, ⟨1, by decide⟩, by
    obtain ⟨B, p, s, h1, h2, h3, h4, _, h6, _⟩ :=
      boundingBox_smallest sceneWorld sceneWorld_acyclic 0 ⟨1, by decide⟩
    exact ⟨B, p, s, h1, h2, h3, h4, h6⟩⟩

/-! ## Containment of the mapped descendants -/

theorem nestedSceneWorld_acyclic : Acyclic nestedSceneWorld := by
  intro v
  obtain _ | _ | _ | v := v
  · exact ⟨0, by decide⟩
  · exact ⟨1, by decide⟩
  · exact ⟨2, by decide⟩
  · exact ⟨0, by simp [rootWithin, parent, nestedSceneWorld, blankView]⟩

theorem boundingBoxTo_descendant [Float32Ops F] (w : World F) (hwf : SingleMembership w)
    (v : ViewId) (k : Nat) :
    ∀ (d : ViewId) (B : LBox), BoundingBoxTo w v B → ancestorAt w (k + 1) d = some v →
      MappedTo w d true → ∃ Bd, BoundingBoxTo w d Bd ∧ B.Contains Bd := by
  induction k with
  | zero =>
    intro d B hB ha hm
    rw [ancestorAt] at ha
    cases hp : parent w d with
    | none => rw [hp] at ha; exact absurd ha (by simp)
    | some q =>
      rw [hp] at ha
      simp only [ancestorAt, Option.some.injEq] at ha
      subst ha
      obtain ⟨_, _, _, _, _, _, hch, _, _⟩ := boundingBoxTo_spec w q B hB
      exact hch d ((hwf.mem_iff d q).mpr hp) hm
  | succ j ih =>
    intro d B hB ha hm
    rw [ancestorAt] at ha
    cases hp : parent w d with
    | none => rw [hp] at ha; exact absurd ha (by simp)
    | some q =>
      rw [hp] at ha
      simp only at ha
      have hq : MappedTo w q true :=
        mappedTo_ancestor w d q 1 hm (by rw [ancestorAt, hp]; rfl)
      obtain ⟨Bq, hBq, hcont⟩ := ih q B hB ha hq
      obtain ⟨_, _, _, _, _, _, hch, _, _⟩ := boundingBoxTo_spec w q Bq hBq
      obtain ⟨Bd, hBd, hcont2⟩ := hch d ((hwf.mem_iff d q).mpr hp) hm
      exact ⟨Bd, hBd, LBox.contains_trans _ _ _ hcont hcont2⟩

/-- C27: in an acyclic tree with consistent child lists that is finite below `v`,
`v.boundingBox()` returns a box `B`, and for every proper descendant `d` of `v`
for which `d.mapped()` returns true, `d.boundingBox()`, `d.pos()` and `d.size()`
return `Bd`, `p` and `s` such that `B` contains `Bd` and the own rect
`(p.x, p.y, p.x + s.w, p.y + s.h)` of `d`.  Nothing is asked of `v.mapped()`. -/
theorem boundingBox_contains_mapped_descendants [Float32Ops F] (w : World F)
    (hac : Acyclic w) (hwf : SingleMembership w) (v : ViewId) (hfin : FiniteBelow w v) :
    ∃ B, BoundingBoxTo w v B ∧
      ∀ d, IsProperDescendant w d v → MappedTo w d true →
        ∃ Bd p s, BoundingBoxTo w d Bd ∧ PosTo w d p ∧ SizeTo w d s ∧
          B.Contains Bd ∧ B.Contains (rectBox p s) := by
  obtain ⟨h, hh⟩ := hfin
  obtain ⟨n, B, hB⟩ := boundingBox_returns w hac h v hh
  have hBto := boundingBoxTo_of_eq w v B n hB
  refine ⟨B, hBto, ?_⟩
  rintro d ⟨k, hk⟩ hm
  obtain ⟨Bd, hBd, hcont⟩ := boundingBoxTo_descendant w hwf v k d B hBto hk hm
  obtain ⟨p, s, hp, hs, hrect, _⟩ := boundingBoxTo_spec w d Bd hBd
  exact ⟨Bd, p, s, hBd, hp, hs, hcont, LBox.contains_trans _ _ _ hcont hrect⟩

/-- Witness for C27 on `nestedSceneWorld`, at the scene main view `0`, whose
descendants are the views `1` and `2`. -/
theorem boundingBox_contains_mapped_descendants_witness :
    Acyclic nestedSceneWorld ∧ SingleMembership nestedSceneWorld ∧
    FiniteBelow nestedSceneWorld 0 ∧ IsProperDescendant nestedSceneWorld 2 0 ∧
    ∃ B, BoundingBoxTo nestedSceneWorld 0 B ∧
      ∀ d, IsProperDescendant nestedSceneWorld d 0 → MappedTo nestedSceneWorld d true →
        ∃ Bd p s, BoundingBoxTo nestedSceneWorld d Bd ∧ PosTo nestedSceneWorld d p ∧
          SizeTo nestedSceneWorld d s ∧ B.Contains Bd ∧ B.Contains (rectBox p s) :=
  ⟨nestedSceneWorld_acyclic, nestedSceneWorld_singleMembership, ⟨2, by decide⟩,
    ⟨1, by decide⟩,
    boundingBox_contains_mapped_descendants nestedSceneWorld nestedSceneWorld_acyclic
      nestedSceneWorld_singleMembership 0 ⟨2, by decide⟩⟩

/-! ## Totality of the recursive getters -/

theorem boundingBox_returns_at [Float32Ops F] (w : World F) (D : Nat)
    (hD : ∀ x, rootWithin w D x = true) (h : Nat) :
    ∀ v, heightWithin w h v = true → ∃ r, boundingBox w (h + D + 2) v = some r := by
  induction h with
  | zero =>
    intro v hv
    have hnil : children w v = [] := by
      simpa [heightWithin, List.isEmpty_iff] using hv
    obtain ⟨p, hp⟩ := pos_returns w D v (hD v)
    obtain ⟨sz, hsz⟩ := size_returns w D v (hD v)
    rw [Nat.zero_add]
    rw [boundingBox, hp, hsz, hnil]
    exact ⟨_, rfl⟩
  | succ k ih =>
    intro v hv
    rw [heightWithin, List.all_eq_true] at hv
    obtain ⟨p, hp⟩ := pos_returns w D v (hD v)
    obtain ⟨sz, hsz⟩ := size_returns w D v (hD v)
    have hle : D + 1 ≤ k + D + 2 := by omega
    have hp2 := pos_mono_le w v p (D + 1) (k + D + 2) hle hp
    have hsz2 := size_mono_le w v sz (D + 1) (k + D + 2) hle hsz
    have hfuel : k + 1 + D + 2 = (k + D + 2) + 1 := by omega
    rw [hfuel, boundingBox, hp2, hsz2]
    refine boundingBoxLoop_returns _ _ _ ?_ _
    intro c hc
    obtain ⟨b, hb⟩ := mapped_returns w D c (hD c)
    exact ⟨⟨b, mapped_mono_le w c b (D + 1) (k + D + 2) hle hb⟩, ih c (hv c hc)⟩

/-- C29: in an acyclic tree that is finite below `v`, each of the calls `mapped()`,
`pos()`, `size()`, `opacity()`, `scalingVector()`, `scene()`, `parentSceneView()`
and `boundingBox()` on `v` returns.  The getters that follow the parent chain
return with `d + 1` nested calls when the chain of `v` ends after `d` steps; with
every parent chain of the tree ending after at most `D` steps and every chain of
child links below `v` having at most `h` links, `boundingBox()` returns with
`h + 1` nested calls of itself, each of which calls getters of at most `D + 1`
nested calls. -/
theorem getters_total [Float32Ops F] (w : World F) (hac : Acyclic w) (v : ViewId)
    (hfin : FiniteBelow w v) :
    ((∃ b, MappedTo w v b) ∧ (∃ r, PosTo w v r) ∧ (∃ r, SizeTo w v r) ∧
      (∀ f, ∃ r, OpacityTo w v f r) ∧
      (∀ f, ∃ r, ∃ n, ∀ k, n ≤ k → scalingVector w k v f = some r) ∧
      (∃ r, SceneTo w v r) ∧
      (∃ r, ∃ n, ∀ k, n ≤ k → parentSceneView w k v = some r) ∧
      (∃ B, BoundingBoxTo w v B)) ∧
    (∀ d, rootWithin w d v = true → ∀ m, d + 1 ≤ m →
      (∃ b, mapped w m v = some b) ∧ (∃ r, pos w m v = some r) ∧
      (∃ r, size w m v = some r) ∧ (∀ f, ∃ r, opacity w m v f = some r) ∧
      (∀ f, ∃ r, scalingVector w m v f = some r) ∧ (∃ r, scene w m v = some r) ∧
      (∃ r, parentSceneView w m v = some r)) ∧
    (∀ D h, (∀ x, rootWithin w D x = true) → heightWithin w h v = true →
      ∀ m, h + D + 2 ≤ m → ∃ B, boundingBox w m v = some B) := by
  have hbound : ∀ d, rootWithin w d v = true → ∀ m, d + 1 ≤ m →
      (∃ b, mapped w m v = some b) ∧ (∃ r, pos w m v = some r) ∧
      (∃ r, size w m v = some r) ∧ (∀ f, ∃ r, opacity w m v f = some r) ∧
      (∀ f, ∃ r, scalingVector w m v f = some r) ∧ (∃ r, scene w m v = some r) ∧
      (∃ r, parentSceneView w m v = some r) := by
    intro d hd m hm
    refine ⟨?_, ?_, ?_, ?_, ?_, ?_, ?_⟩
    · obtain ⟨b, hb⟩ := mapped_returns w d v hd
      exact ⟨b, mapped_mono_le w v b _ m hm hb⟩
    · obtain ⟨r, hr⟩ := pos_returns w d v hd
      exact ⟨r, pos_mono_le w v r _ m hm hr⟩
    · obtain ⟨r, hr⟩ := size_returns w d v hd
      exact ⟨r, size_mono_le w v r _ m hm hr⟩
    · intro f
      obtain ⟨r, hr⟩ := opacity_returns w d v f hd
      exact ⟨r, opacity_mono_le w v f r _ m hm hr⟩
    · intro f
      obtain ⟨r, hr⟩ := scalingVector_returns w d v f hd
      exact ⟨r, scalingVector_mono_le w v f r _ m hm hr⟩
    · obtain ⟨r, hr⟩ := scene_returns w d v hd
      exact ⟨r, scene_mono_le w v r _ m hm hr⟩
    · obtain ⟨r, hr⟩ := parentSceneView_returns w d v hd
      exact ⟨r, parentSceneView_mono_le w v r _ m hm hr⟩
  obtain ⟨d, hd⟩ := hac v
  refine ⟨⟨?_, ?_, ?_, ?_, ?_, ?_, ?_, ?_⟩, hbound, ?_⟩
  · obtain ⟨b, hb⟩ := mapped_returns w d v hd
    exact ⟨b, mappedTo_of_eq w v b _ hb⟩
  · obtain ⟨r, hr⟩ := pos_returns w d v hd
    exact ⟨r, posTo_of_eq w v r _ hr⟩
  · obtain ⟨r, hr⟩ := size_returns w d v hd
    exact ⟨r, sizeTo_of_eq w v r _ hr⟩
  · intro f
    obtain ⟨r, hr⟩ := opacity_returns w d v f hd
    exact ⟨r, opacityTo_of_eq w v f r _ hr⟩
  · intro f
    obtain ⟨r, hr⟩ := scalingVector_returns w d v f hd
    exact ⟨r, d + 1, fun k hk => scalingVector_mono_le w v f r _ k hk hr⟩
  · obtain ⟨r, hr⟩ := scene_returns w d v hd
    exact ⟨r, d + 1, fun k hk => scene_mono_le w v r _ k hk hr⟩
  · obtain ⟨r, hr⟩ := parentSceneView_returns w d v hd
    exact ⟨r, d + 1, fun k hk => parentSceneView_mono_le w v r _ k hk hr⟩
  · obtain ⟨h, hh⟩ := hfin
    obtain ⟨n, B, hB⟩ := boundingBox_returns w hac h v hh
    exact ⟨B, boundingBoxTo_of_eq w v B n hB⟩
  · intro D h hD hh m hm
    obtain ⟨B, hB⟩ := boundingBox_returns_at w D hD h v hh
    exact ⟨B, boundingBox_mono_le w v B _ m hm hB⟩

theorem nestedSceneWorld_depth : ∀ x, rootWithin nestedSceneWorld 2 x = true := by
  intro x
  obtain _ | _ | _ | x := x
  · decide
  · decide
  · decide
  · simp [rootWithin, parent, nestedSceneWorld, blankView]

/-- Witness for C29 on `nestedSceneWorld`: the getters of the layer view `2`, whose
parent chain has two links, and the bounding box of the scene main view `0`,
below which the chains of child links have two links. -/
theorem getters_total_witness :
    Acyclic nestedSceneWorld ∧ FiniteBelow nestedSceneWorld 0 ∧
    FiniteBelow nestedSceneWorld 2 ∧
    (∃ B, BoundingBoxTo nestedSceneWorld 0 B) ∧
    (∃ B, boundingBox nestedSceneWorld 6 0 = some B) ∧
    (∃ b, mapped nestedSceneWorld 3 2 = some b) :=
  ⟨nestedSceneWorld_acyclic, ⟨2, by decide⟩, ⟨0, by decide⟩,
    (getters_total nestedSceneWorld nestedSceneWorld_acyclic 0 ⟨2, by decide⟩).1.2.2.2.2.2.2.2,
    (getters_total nestedSceneWorld nestedSceneWorld_acyclic 0 ⟨2, by decide⟩).2.2 2 2
      nestedSceneWorld_depth (by decide) 6 (by decide),
    ((getters_total nestedSceneWorld nestedSceneWorld_acyclic 2 ⟨0, by decide⟩).2.1 2
      (by decide) 3 (by decide)).1⟩

/-! ## Drag and drop actions -/

theorem and_two_pow_eq (x i : Nat) : x &&& 2 ^ i = if x.testBit i = true then 2 ^ i else 0 := by
  apply Nat.eq_of_testBit_eq
  intro j
  rw [Nat.testBit_and]
  by_cases hx : x.testBit i = true
  · rw [if_pos hx]
    by_cases hij : i = j
    · subst hij; simp [hx, Nat.testBit_two_pow_self]
    · simp [Nat.testBit_two_pow_of_ne hij]
  · rw [if_neg hx]
    by_cases hij : i = j
    · subst hij
      have : x.testBit i = false := by simpa using hx
      simp [this]
    · simp [Nat.testBit_two_pow_of_ne hij]

theorem bit_nonzero_iff (m i : Nat) : m &&& 2 ^ i ≠ 0 ↔ 2 ^ i &&& m = 2 ^ i := by
  have hpos : (2 : Nat) ^ i ≠ 0 := Nat.pos_iff_ne_zero.mp (Nat.two_pow_pos i)
  rw [Nat.and_comm (2 ^ i) m, and_two_pow_eq]
  by_cases hx : m.testBit i = true
  · simp [hx, hpos]
  · simp [hx, hpos.symm]

theorem action_nonzero_iff (m b : Nat) (hb : b = 1 ∨ b = 2 ∨ b = 4) :
    m &&& b ≠ 0 ↔ b &&& m = b := by
  rcases hb with h | h | h
  · subst h; exact bit_nonzero_iff m 0
  · subst h; exact bit_nonzero_iff m 1
  · subst h; exact bit_nonzero_iff m 2

theorem within_and (a x y : Nat) :
    a &&& (x &&& y) = a ↔ a &&& x = a ∧ a &&& y = a := by
  constructor
  · intro h
    constructor
    · apply Nat.eq_of_testBit_eq
      intro i
      have := congrArg (fun n => Nat.testBit n i) h
      simp only [Nat.testBit_and] at this ⊢
      revert this
      cases a.testBit i <;> cases x.testBit i <;> cases y.testBit i <;> simp
    · apply Nat.eq_of_testBit_eq
      intro i
      have := congrArg (fun n => Nat.testBit n i) h
      simp only [Nat.testBit_and] at this ⊢
      revert this
      cases a.testBit i <;> cases x.testBit i <;> cases y.testBit i <;> simp
  · rintro ⟨h1, h2⟩
    apply Nat.eq_of_testBit_eq
    intro i
    have t1 := congrArg (fun n => Nat.testBit n i) h1
    have t2 := congrArg (fun n => Nat.testBit n i) h2
    simp only [Nat.testBit_and] at t1 t2 ⊢
    revert t1 t2
    cases a.testBit i <;> cases x.testBit i <;> cases y.testBit i <;> simp

theorem within_restrictAction (K : DNDActions) (a both comp : Nat) :
    a &&& restrictAction K both comp = a ↔
      a &&& both = a ∧ (comp ≠ K.NoAction → a &&& comp = a) := by
  unfold restrictAction
  by_cases hc : comp ≠ K.NoAction
  · rw [if_pos hc, within_and]
    exact ⟨fun h => ⟨h.1, fun _ => h.2⟩, fun h => ⟨h.1, h.2 hc⟩⟩
  · rw [if_neg hc]
    exact ⟨fun h => ⟨h, fun h2 => absurd h2 hc⟩, fun h => h.1⟩

/-- The chain over `Copy`, `Move`, `Ask` picks the first action contained in the
mask `M`; `P` is containment in `M`. -/
theorem chooseAction_chosen (K : DNDActions) (hK : K.Wayland) (P : Nat → Prop) (M : Nat)
    (hP : ∀ a, P a ↔ a &&& M = a) :
    (chooseAction K M = K.NoAction ∨ chooseAction K M = K.Copy ∨
      chooseAction K M = K.Move ∨ chooseAction K M = K.Ask) ∧
    P (chooseAction K M) ∧
    (P K.Copy → chooseAction K M = K.Copy) ∧
    (¬ P K.Copy → P K.Move → chooseAction K M = K.Move) ∧
    (¬ P K.Copy → ¬ P K.Move → P K.Ask → chooseAction K M = K.Ask) ∧
    (¬ P K.Copy → ¬ P K.Move → ¬ P K.Ask → chooseAction K M = K.NoAction) := by
  obtain ⟨hn, hc, hm, ha⟩ := hK
  have e1 : M &&& K.Copy ≠ 0 ↔ P K.Copy := by
    rw [hP]; exact action_nonzero_iff M K.Copy (Or.inl hc)
  have e2 : M &&& K.Move ≠ 0 ↔ P K.Move := by
    rw [hP]; exact action_nonzero_iff M K.Move (Or.inr (Or.inl hm))
  have e4 : M &&& K.Ask ≠ 0 ↔ P K.Ask := by
    rw [hP]; exact action_nonzero_iff M K.Ask (Or.inr (Or.inr ha))
  have h0 : P K.NoAction := by rw [hP, hn]; exact Nat.zero_and M
  unfold chooseAction
  by_cases c1 : M &&& K.Copy ≠ 0
  · rw [if_pos c1]
    exact ⟨Or.inr (Or.inl rfl), e1.mp c1, fun _ => rfl, fun h => absurd (e1.mp c1) h,
      fun h => absurd (e1.mp c1) h, fun h => absurd (e1.mp c1) h⟩
  · rw [if_neg c1]
    by_cases c2 : M &&& K.Move ≠ 0
    · rw [if_pos c2]
      exact ⟨Or.inr (Or.inr (Or.inl rfl)), e2.mp c2, fun h => absurd (e1.mpr h) c1,
        fun _ _ => rfl, fun _ h => absurd (e2.mp c2) h, fun _ h => absurd (e2.mp c2) h⟩
    · rw [if_neg c2]
      by_cases c4 : M &&& K.Ask ≠ 0
      · rw [if_pos c4]
        exact ⟨Or.inr (Or.inr (Or.inr rfl)), e4.mp c4, fun h => absurd (e1.mpr h) c1,
          fun _ h => absurd (e2.mpr h) c2, fun _ _ _ => rfl,
          fun _ _ h => absurd (e4.mp c4) h⟩
      · rw [if_neg c4]
        exact ⟨Or.inl rfl, h0, fun h => absurd (e1.mpr h) c1,
          fun _ h => absurd (e2.mpr h) c2, fun _ _ h => absurd (e4.mpr h) c4,
          fun _ _ _ => rfl⟩

theorem choosePreferred_eq (K : DNDActions) (M pref : Nat) :
    choosePreferred K M pref = if M &&& pref ≠ 0 then pref else chooseAction K M := rfl

theorem preferred_nonzero_iff (K : DNDActions) (hK : K.Wayland) (M pref : Nat)
    (hpref : pref = K.NoAction ∨ pref = K.Copy ∨ pref = K.Move ∨ pref = K.Ask) :
    M &&& pref ≠ 0 ↔ pref ≠ K.NoAction ∧ pref &&& M = pref := by
  obtain ⟨hn, hc, hm, ha⟩ := hK
  rcases hpref with h | h | h | h
  · rw [h, hn]; simp
  · have := action_nonzero_iff M pref (Or.inl (h.trans hc))
    rw [this]
    exact ⟨fun h2 => ⟨by rw [h, hc, hn]; decide, h2⟩, fun h2 => h2.2⟩
  · have := action_nonzero_iff M pref (Or.inr (Or.inl (h.trans hm)))
    rw [this]
    exact ⟨fun h2 => ⟨by rw [h, hm, hn]; decide, h2⟩, fun h2 => h2.2⟩
  · have := action_nonzero_iff M pref (Or.inr (Or.inr (h.trans ha)))
    rw [this]
    exact ⟨fun h2 => ⟨by rw [h, ha, hn]; decide, h2⟩, fun h2 => h2.2⟩

/-- The action sent by a branch that does not look at the offer's preference. -/
theorem chosen_of_chooseAction (K : DNDActions) (hK : K.Wayland) (d : DNDState) (M : Nat)
    (hP : ∀ a, Allowed K d a ↔ a &&& M = a) (hno : ¬ OfferPrefers K d) :
    ChosenByPriority K d (chooseAction K M) := by
  obtain ⟨h1, h2, h3, h4, h5, h6⟩ := chooseAction_chosen K hK (Allowed K d) M hP
  exact ⟨h1, h2, fun h => absurd h hno, fun _ => h3, fun _ => h4, fun _ => h5, fun _ => h6⟩

/-- The action sent by a branch of a v3 offer that has set its actions. -/
theorem chosen_of_choosePreferred (K : DNDActions) (hK : K.Wayland) (d : DNDState) (M : Nat)
    (hP : ∀ a, Allowed K d a ↔ a &&& M = a) (hv : 3 ≤ d.offerVersion)
    (hset : d.preferredAction ≠ K.NoActionSet)
    (hpref : d.preferredAction = K.NoAction ∨ d.preferredAction = K.Copy ∨
      d.preferredAction = K.Move ∨ d.preferredAction = K.Ask) :
    ChosenByPriority K d (choosePreferred K M d.preferredAction) := by
  have hiff : M &&& d.preferredAction ≠ 0 ↔ OfferPrefers K d := by
    rw [preferred_nonzero_iff K hK M d.preferredAction hpref, ← hP]
    exact ⟨fun h => ⟨hv, hset, h.1, h.2⟩, fun h => ⟨h.2.2.1, h.2.2.2⟩⟩
  rw [choosePreferred_eq]
  by_cases hc : M &&& d.preferredAction ≠ 0
  · rw [if_pos hc]
    have hop := hiff.mp hc
    refine ⟨?_, hop.2.2.2, fun _ => rfl, fun h => absurd hop h, fun h => absurd hop h,
      fun h => absurd hop h, fun h => absurd hop h⟩
    exact hpref
  · rw [if_neg hc]
    exact chosen_of_chooseAction K hK d M hP (fun h => hc (hiff.mpr h))

/-- C30: with the action values of the Wayland protocol and a `preferredAction` of
the offer that is unset, `NoAction` or one of `Copy`, `Move`, `Ask`:
`updateDNDAction` sends an action only when the DND focus belongs to the client
of the offer; every action it sends is `NoAction`, `Copy`, `Move` or `Ask`, is
contained in every applicable mask, and is the first of offer-preferred, `Copy`,
`Move`, `Ask` that is contained in every applicable mask (`NoAction` if none
is); and with a v3 source and a v3 offer that has set its actions it sends one
value, first to the offer and then to the source. -/
theorem updateDNDAction_spec (K : DNDActions) (hK : K.Wayland) (d : DNDState)
    (hpref : d.preferredAction = K.NoActionSet ∨ d.preferredAction = K.NoAction ∨
      d.preferredAction = K.Copy ∨ d.preferredAction = K.Move ∨
      d.preferredAction = K.Ask) :
    (∀ e ∈ updateDNDAction K d,
      d.focus = some d.offerClient ∧ ChosenByPriority K d e.action) ∧
    (∀ src, d.focus = some d.offerClient → d.source = some src → 3 ≤ src.version →
      3 ≤ d.offerVersion → d.preferredAction ≠ K.NoActionSet →
      ∃ a, updateDNDAction K d = [DNDEvent.offerAction a, DNDEvent.sourceAction a]) := by
  obtain ⟨focus, oc, ov, comp, source, pref, acc⟩ := d
  simp only at hpref
  constructor
  · intro e he
    unfold updateDNDAction at he
    simp only at he
    cases focus with
    | none => simp at he
    | some fc =>
      simp only at he
      by_cases hfc : fc ≠ oc
      · rw [if_pos hfc] at he; simp at he
      · rw [if_neg hfc] at he
        have hfc2 : fc = oc := by
          by_contra h; exact hfc h
        subst hfc2
        refine ⟨rfl, ?_⟩
        cases source with
        | none =>
          simp only at he
          by_cases hc : 3 ≤ ov ∧ pref ≠ K.NoActionSet
          · rw [if_pos hc] at he
            simp only [List.mem_singleton] at he
            subst he
            have hp2 := hpref.resolve_left hc.2
            refine chosen_of_choosePreferred K hK _ _ ?_ hc.1 hc.2 hp2
            intro a
            simp only [Allowed, within_restrictAction]
            constructor
            · intro h; exact ⟨h.2.1 hc.1 hc.2, h.2.2⟩
            · intro h
              exact ⟨fun src hs => absurd hs (by simp), fun _ _ => h.1, h.2⟩
          · rw [if_neg hc] at he; simp at he
        | some src =>
          simp only at he
          by_cases c1 : 3 ≤ src.version ∧ 3 ≤ ov
          · rw [if_pos c1] at he
            by_cases c2 : pref = K.NoActionSet
            · rw [if_pos c2] at he
              simp only [List.mem_singleton] at he
              subst he
              refine chosen_of_chooseAction K hK _ _ ?_ (fun h => h.2.1 c2)
              intro a
              simp only [Allowed, within_restrictAction]
              constructor
              · intro h; exact ⟨h.1 src rfl c1.1, h.2.2⟩
              · intro h
                refine ⟨?_, fun _ h2 => absurd c2 h2, h.2⟩
                intro s2 hs2 _
                rw [← Option.some.inj hs2]
                exact h.1
            · rw [if_neg c2] at he
              have hp2 := hpref.resolve_left c2
              have hch : ChosenByPriority K
                  { focus := some fc, offerClient := fc, offerVersion := ov,
                    compositorAction := comp, source := some src, preferredAction := pref,
                    acceptedActions := acc }
                  (choosePreferred K (restrictAction K (src.dndActions &&& acc) comp)
                    pref) := by
                refine chosen_of_choosePreferred K hK _ _ ?_ c1.2 c2 hp2
                intro a
                simp only [Allowed, within_restrictAction, within_and]
                constructor
                · intro h; exact ⟨⟨h.1 src rfl c1.1, h.2.1 c1.2 c2⟩, h.2.2⟩
                · intro h
                  refine ⟨?_, fun _ _ => h.1.2, h.2⟩
                  intro s2 hs2 _
                  rw [← Option.some.inj hs2]
                  exact h.1.1
              simp only [List.mem_cons, List.mem_singleton, List.not_mem_nil, or_false] at he
              rcases he with he | he <;> (subst he; exact hch)
          · rw [if_neg c1] at he
            by_cases c3 : 3 ≤ src.version ∧ ¬ 3 ≤ ov
            · rw [if_pos c3] at he
              simp only [List.mem_singleton] at he
              subst he
              refine chosen_of_chooseAction K hK _ _ ?_ (fun h => c3.2 h.1)
              intro a
              simp only [Allowed, within_restrictAction]
              constructor
              · intro h; exact ⟨h.1 src rfl c3.1, h.2.2⟩
              · intro h
                refine ⟨?_, fun h2 _ => absurd h2 c3.2, h.2⟩
                intro s2 hs2 _
                rw [← Option.some.inj hs2]
                exact h.1
            · rw [if_neg c3] at he
              by_cases c4 : ¬ 3 ≤ src.version ∧ 3 ≤ ov
              · rw [if_pos c4] at he
                by_cases c5 : pref ≠ K.NoActionSet
                · rw [if_pos c5] at he
                  simp only [List.mem_singleton] at he
                  subst he
                  have hp2 := hpref.resolve_left c5
                  refine chosen_of_choosePreferred K hK _ _ ?_ c4.2 c5 hp2
                  intro a
                  simp only [Allowed, within_restrictAction]
                  constructor
                  · intro h; exact ⟨h.2.1 c4.2 c5, h.2.2⟩
                  · intro h
                    refine ⟨?_, fun _ _ => h.1, h.2⟩
                    intro s2 hs2 hv
                    rw [← Option.some.inj hs2] at hv
                    exact absurd hv c4.1
                · rw [if_neg c5] at he; simp at he
              · rw [if_neg c4] at he; simp at he
  · intro src hf hs hsv hov hset
    simp only at hf hs hov hset
    unfold updateDNDAction
    simp only [hf, hs]
    rw [if_neg (by simp), if_pos ⟨hsv, hov⟩, if_neg hset]
    exact ⟨_, rfl⟩

/-- Witness for C30 on `moveDrag`: the offer prefers `Ask`, which the source does
not offer, so `Move` is sent to the offer and to the source. -/
theorem updateDNDAction_spec_witness :
    waylandActions.Wayland ∧
    updateDNDAction waylandActions moveDrag =
      [DNDEvent.offerAction 2, DNDEvent.sourceAction 2] ∧
    (∀ e ∈ updateDNDAction waylandActions moveDrag,
      moveDrag.focus = some moveDrag.offerClient ∧
        ChosenByPriority waylandActions moveDrag e.action) :=
  ⟨⟨rfl, rfl, rfl, rfl⟩, by decide,
    (updateDNDAction_spec waylandActions ⟨rfl, rfl, rfl, rfl⟩ moveDrag
      (Or.inr (Or.inr (Or.inr (Or.inr rfl))))).1⟩

/-! ## Paint pass of an output -/

theorem count_request_paintSurface (st : PaintState) (s t : SurfaceId) :
    List.count (PaintEvent.requestNextFrame s) (paintSurface st t) = if t = s then 1 else 0 := by
  have hmap : List.count (PaintEvent.requestNextFrame s)
      (st.outputs.map (fun o =>
        if st.intersects o t then PaintEvent.sendOutputEnterEvent t o
        else PaintEvent.sendOutputLeaveEvent t o)) = 0 := by
    apply List.count_eq_zero_of_not_mem
    intro hmem
    obtain ⟨o, _, ho⟩ := List.mem_map.mp hmem
    by_cases hi : st.intersects o t = true
    · rw [if_pos hi] at ho; exact absurd ho (by simp)
    · rw [if_neg hi] at ho; exact absurd ho (by simp)
  unfold paintSurface
  by_cases hs : skipped st t = true
  · rw [if_pos hs]
    by_cases hts : t = s
    · subst hts; simp
    · have hst : ¬ s = t := fun h => hts h.symm
      rw [if_neg hts]
      exact List.count_eq_zero_of_not_mem (by simp [hst])
  · rw [if_neg hs, List.count_append, hmap]
    by_cases hts : t = s
    · subst hts; simp
    · have hst : ¬ s = t := fun h => hts h.symm
      rw [if_neg hts, Nat.zero_add]
      exact List.count_eq_zero_of_not_mem (by simp [hst])

theorem count_draw_paintSurface (st : PaintState) (s t : SurfaceId) :
    List.count (PaintEvent.drawTexture s) (paintSurface st t) =
      if t = s ∧ skipped st t = false then 1 else 0 := by
  have hmap : List.count (PaintEvent.drawTexture s)
      (st.outputs.map (fun o =>
        if st.intersects o t then PaintEvent.sendOutputEnterEvent t o
        else PaintEvent.sendOutputLeaveEvent t o)) = 0 := by
    apply List.count_eq_zero_of_not_mem
    intro hmem
    obtain ⟨o, _, ho⟩ := List.mem_map.mp hmem
    by_cases hi : st.intersects o t = true
    · rw [if_pos hi] at ho; exact absurd ho (by simp)
    · rw [if_neg hi] at ho; exact absurd ho (by simp)
  unfold paintSurface
  by_cases hs : skipped st t = true
  · rw [if_pos hs]
    simp [hs]
  · rw [if_neg hs, List.count_append, hmap]
    have hf : skipped st t = false := by simpa using hs
    by_cases hts : t = s
    · subst hts; simp [hf]
    · have hst : ¬ s = t := fun h => hts h.symm
      rw [if_neg (fun h => hts h.1), Nat.zero_add]
      exact List.count_eq_zero_of_not_mem (by simp [hst])

theorem count_request_paintSurfaces (st : PaintState) (s : SurfaceId) :
    ∀ l : List SurfaceId,
      List.count (PaintEvent.requestNextFrame s) (paintSurfaces st l) = l.count s := by
  intro l
  induction l with
  | nil => rfl
  | cons t rest ih =>
    rw [paintSurfaces, List.count_append, count_request_paintSurface, ih]
    by_cases hts : t = s
    · subst hts; simp [Nat.add_comm]
    · rw [if_neg hts, List.count_cons_of_ne (fun h => hts h.symm)]
      simp

theorem count_draw_paintSurfaces (st : PaintState) (s : SurfaceId) :
    ∀ l : List SurfaceId,
      List.count (PaintEvent.drawTexture s) (paintSurfaces st l) =
        if skipped st s = true then 0 else l.count s := by
  intro l
  induction l with
  | nil => simp [paintSurfaces]
  | cons t rest ih =>
    rw [paintSurfaces, List.count_append, count_draw_paintSurface, ih]
    by_cases hs : skipped st s = true
    · simp only [if_pos hs]
      by_cases hts : t = s
      · subst hts; simp [hs]
      · simp [hts]
    · simp only [if_neg hs]
      have hf : skipped st s = false := by simpa using hs
      by_cases hts : t = s
      · subst hts; simp [hf, Nat.add_comm]
      · rw [List.count_cons_of_ne (fun h => hts h.symm)]
        simp [hts]

theorem count_request_paintGL (st : PaintState) (s : SurfaceId) :
    List.count (PaintEvent.requestNextFrame s) (paintGL st) = st.surfaces.count s := by
  unfold paintGL
  simp only [List.count_append, count_request_paintSurfaces]
  have h1 : List.count (PaintEvent.requestNextFrame s) [PaintEvent.clearScreen] = 0 := by simp
  have h2 : List.count (PaintEvent.requestNextFrame s)
      (if st.surfaceMovedUnderCursor = true then [PaintEvent.pointerMoveEvent] else []) = 0 := by
    split <;> simp
  have h3 : List.count (PaintEvent.requestNextFrame s)
      (match st.dndIcon with
        | some icon => [PaintEvent.raise icon]
        | none => []) = 0 := by
    cases st.dndIcon <;> simp
  have h4 : List.count (PaintEvent.requestNextFrame s)
      (if (!st.hasHardwareSupport) = true then [PaintEvent.drawCursor] else []) = 0 := by
    split <;> simp
  rw [h1, h2, h3, h4]
  simp

theorem count_draw_paintGL (st : PaintState) (s : SurfaceId) :
    List.count (PaintEvent.drawTexture s) (paintGL st) =
      if skipped st s = true then 0 else st.surfaces.count s := by
  unfold paintGL
  simp only [List.count_append, count_draw_paintSurfaces]
  have h1 : List.count (PaintEvent.drawTexture s) [PaintEvent.clearScreen] = 0 := by simp
  have h2 : List.count (PaintEvent.drawTexture s)
      (if st.surfaceMovedUnderCursor = true then [PaintEvent.pointerMoveEvent] else []) = 0 := by
    split <;> simp
  have h3 : List.count (PaintEvent.drawTexture s)
      (match st.dndIcon with
        | some icon => [PaintEvent.raise icon]
        | none => []) = 0 := by
    cases st.dndIcon <;> simp
  have h4 : List.count (PaintEvent.drawTexture s)
      (if (!st.hasHardwareSupport) = true then [PaintEvent.drawCursor] else []) = 0 := by
    split <;> simp
  rw [h1, h2, h3, h4]
  simp

theorem outputEvent_paintSurface (st : PaintState) (s t : SurfaceId) (o : OutputId)
    (e : PaintEvent)
    (he : e = PaintEvent.sendOutputEnterEvent s o ∨ e = PaintEvent.sendOutputLeaveEvent s o)
    (h : e ∈ paintSurface st t) : t = s ∧ skipped st t = false := by
  unfold paintSurface at h
  by_cases hs : skipped st t = true
  · rw [if_pos hs] at h
    rcases he with he | he <;> (subst he; simp at h)
  · rw [if_neg hs] at h
    have hf : skipped st t = false := by simpa using hs
    refine ⟨?_, hf⟩
    rcases List.mem_append.mp h with h1 | h1
    · obtain ⟨o2, _, ho2⟩ := List.mem_map.mp h1
      by_cases hi : st.intersects o2 t = true
      · rw [if_pos hi] at ho2
        rcases he with he | he
        · subst he; simp only [PaintEvent.sendOutputEnterEvent.injEq] at ho2; exact ho2.1
        · subst he; exact absurd ho2 (by simp)
      · rw [if_neg hi] at ho2
        rcases he with he | he
        · subst he; exact absurd ho2 (by simp)
        · subst he; simp only [PaintEvent.sendOutputLeaveEvent.injEq] at ho2; exact ho2.1
    · rcases he with he | he <;> (subst he; simp at h1)

theorem mem_paintSurfaces (st : PaintState) (e : PaintEvent) :
    ∀ l : List SurfaceId, e ∈ paintSurfaces st l → ∃ t ∈ l, e ∈ paintSurface st t := by
  intro l
  induction l with
  | nil => intro h; simp [paintSurfaces] at h
  | cons t rest ih =>
    intro h
    rw [paintSurfaces] at h
    rcases List.mem_append.mp h with h1 | h1
    · exact ⟨t, List.mem_cons_self t rest, h1⟩
    · obtain ⟨u, hu, hmem⟩ := ih h1
      exact ⟨u, List.mem_cons_of_mem t hu, hmem⟩

theorem outputEvent_paintGL (st : PaintState) (s : SurfaceId) (o : OutputId) (e : PaintEvent)
    (he : e = PaintEvent.sendOutputEnterEvent s o ∨ e = PaintEvent.sendOutputLeaveEvent s o)
    (h : e ∈ paintGL st) : s ∈ st.surfaces ∧ skipped st s = false := by
  unfold paintGL at h
  simp only [List.mem_append] at h
  rcases h with (((h | h) | h) | h) | h
  · rcases he with he | he <;> (subst he; simp at h)
  · split at h <;> rcases he with he | he <;> (subst he; simp at h)
  · split at h <;> rcases he with he | he <;> (subst he; simp at h)
  · obtain ⟨t, ht, hmem⟩ := mem_paintSurfaces st e st.surfaces h
    obtain ⟨hts, hsk⟩ := outputEvent_paintSurface st s t o e he hmem
    subst hts
    exact ⟨ht, hsk⟩
  · split at h <;> rcases he with he | he <;> (subst he; simp at h)

theorem paintSurfaces_split (st : PaintState) (s : SurfaceId) :
    ∀ l : List SurfaceId, s ∈ l →
      ∃ a b, paintSurfaces st l = a ++ paintSurface st s ++ b := by
  intro l
  induction l with
  | nil => intro h; exact absurd h (List.not_mem_nil s)
  | cons t rest ih =>
    intro h
    rw [paintSurfaces]
    rcases List.mem_cons.mp h with h1 | h1
    · subst h1
      exact ⟨[], paintSurfaces st rest, by simp⟩
    · obtain ⟨a, b, hab⟩ := ih h1
      exact ⟨paintSurface st t ++ a, b, by rw [hab]; simp⟩

/-- Counterexample to C22 as stated: in the paint pass `idlePaint` the surface `1` is
unmapped and the surface `2` is minimized, both are skipped and never drawn, and
each of them receives one `requestNextFrame`. -/
theorem paintGL_skipped_counterexample :
    skipped idlePaint 1 = true ∧ skipped idlePaint 2 = true ∧
    PaintEvent.drawTexture 1 ∉ paintGL idlePaint ∧
    PaintEvent.drawTexture 2 ∉ paintGL idlePaint ∧
    List.count (PaintEvent.requestNextFrame 1) (paintGL idlePaint) = 1 ∧
    List.count (PaintEvent.requestNextFrame 2) (paintGL idlePaint) = 1 := by
  decide

/-- C22, corrected: in a paint pass of the default `LOutput::paintGL()` over a list
of surfaces without repetition, every surface of the list receives exactly one
`requestNextFrame`, skipped or drawn.  A surface that is unmapped, minimized or
has the cursor role is not drawn and receives no output enter or leave event.
Every other surface of the list is drawn exactly once: it receives, in this
order and without a call in between, one enter or leave event for each output,
its `drawTexture` and its `requestNextFrame`.  A surface outside the list
receives nothing. -/
theorem paintGL_requestNextFrame (st : PaintState) (hnodup : st.surfaces.Nodup) :
    (∀ s ∈ st.surfaces, List.count (PaintEvent.requestNextFrame s) (paintGL st) = 1) ∧
    (∀ s ∈ st.surfaces, skipped st s = true →
      List.count (PaintEvent.drawTexture s) (paintGL st) = 0) ∧
    (∀ s, skipped st s = true → ∀ o,
      PaintEvent.sendOutputEnterEvent s o ∉ paintGL st ∧
      PaintEvent.sendOutputLeaveEvent s o ∉ paintGL st) ∧
    (∀ s ∈ st.surfaces, skipped st s = false →
      List.count (PaintEvent.drawTexture s) (paintGL st) = 1) ∧
    (∀ s ∈ st.surfaces, skipped st s = false →
      ∃ l1 l2, paintGL st =
        l1 ++ st.outputs.map (fun o =>
            if st.intersects o s then PaintEvent.sendOutputEnterEvent s o
            else PaintEvent.sendOutputLeaveEvent s o)
          ++ [PaintEvent.drawTexture s, PaintEvent.requestNextFrame s] ++ l2) ∧
    (∀ s, s ∉ st.surfaces → ∀ o,
      List.count (PaintEvent.requestNextFrame s) (paintGL st) = 0 ∧
      List.count (PaintEvent.drawTexture s) (paintGL st) = 0 ∧
      PaintEvent.sendOutputEnterEvent s o ∉ paintGL st ∧
      PaintEvent.sendOutputLeaveEvent s o ∉ paintGL st) := by
  refine ⟨?_, ?_, ?_, ?_, ?_, ?_⟩
  · intro s hs
    rw [count_request_paintGL]
    exact List.count_eq_one_of_mem hnodup hs
  · intro s _ hsk
    rw [count_draw_paintGL, if_pos hsk]
  · intro s hsk o
    constructor
    · intro h
      have := (outputEvent_paintGL st s o _ (Or.inl rfl) h).2
      rw [hsk] at this
      exact absurd this (by decide)
    · intro h
      have := (outputEvent_paintGL st s o _ (Or.inr rfl) h).2
      rw [hsk] at this
      exact absurd this (by decide)
  · intro s hs hsk
    rw [count_draw_paintGL, if_neg (by simp [hsk])]
    exact List.count_eq_one_of_mem hnodup hs
  · intro s hs hsk
    obtain ⟨a, b, hab⟩ := paintSurfaces_split st s st.surfaces hs
    have hps : paintSurface st s =
        st.outputs.map (fun o =>
            if st.intersects o s then PaintEvent.sendOutputEnterEvent s o
            else PaintEvent.sendOutputLeaveEvent s o)
          ++ [PaintEvent.drawTexture s, PaintEvent.requestNextFrame s] := by
      unfold paintSurface
      rw [if_neg (by simp [hsk])]
    refine ⟨[PaintEvent.clearScreen]
        ++ (if st.surfaceMovedUnderCursor then [PaintEvent.pointerMoveEvent] else [])
        ++ (match st.dndIcon with
            | some icon => [PaintEvent.raise icon]
            | none => [])
        ++ a,
      b ++ (if !st.hasHardwareSupport then [PaintEvent.drawCursor] else []), ?_⟩
    unfold paintGL
    rw [hab, hps]
    simp only [List.append_assoc]
  · intro s hs o
    refine ⟨?_, ?_, ?_, ?_⟩
    · rw [count_request_paintGL, List.count_eq_zero_of_not_mem hs]
    · rw [count_draw_paintGL, List.count_eq_zero_of_not_mem hs]
      simp
    · exact fun h => hs (outputEvent_paintGL st s o _ (Or.inl rfl) h).1
    · exact fun h => hs (outputEvent_paintGL st s o _ (Or.inr rfl) h).1

/-- Witness for C22 (corrected) on `idlePaint`: the skipped surfaces `1` and `2` and
the drawn surface `3`. -/
theorem paintGL_requestNextFrame_witness :
    idlePaint.surfaces.Nodup ∧
    (∀ s ∈ idlePaint.surfaces,
      List.count (PaintEvent.requestNextFrame s) (paintGL idlePaint) = 1) ∧
    (∀ s ∈ idlePaint.surfaces, skipped idlePaint s = true →
      List.count (PaintEvent.drawTexture s) (paintGL idlePaint) = 0) ∧
    (∀ o, PaintEvent.sendOutputEnterEvent 1 o ∉ paintGL idlePaint ∧
      PaintEvent.sendOutputLeaveEvent 1 o ∉ paintGL idlePaint) ∧
    (∃ l1 l2, paintGL idlePaint =
      l1 ++ idlePaint.outputs.map (fun o =>
          if idlePaint.intersects o 3 then PaintEvent.sendOutputEnterEvent 3 o
          else PaintEvent.sendOutputLeaveEvent 3 o)
        ++ [PaintEvent.drawTexture 3, PaintEvent.requestNextFrame 3] ++ l2) ∧
    paintGL idlePaint =
      [PaintEvent.clearScreen, PaintEvent.requestNextFrame 1, PaintEvent.requestNextFrame 2,
        PaintEvent.sendOutputEnterEvent 3 7, PaintEvent.drawTexture 3,
        PaintEvent.requestNextFrame 3] :=
  ⟨by decide, (paintGL_requestNextFrame idlePaint (by decide)).1,
    (paintGL_requestNextFrame idlePaint (by decide)).2.1,
    (paintGL_requestNextFrame idlePaint (by decide)).2.2.1 1 (by decide),
    (paintGL_requestNextFrame idlePaint (by decide)).2.2.2.2.1 3 (by decide) (by decide),
    by decide⟩

/-! ## Damage pass of a render target -/

theorem lookup_of_mem_nodup (frame : List (ViewId × ViewLook)) :
    (frame.map Prod.fst).Nodup → ∀ e ∈ frame, frame.lookup e.1 = some e.2 := by
  induction frame with
  | nil => intro _ e he; exact absurd he (List.not_mem_nil e)
  | cons a rest ih =>
    intro hnd e he
    rw [List.map_cons, List.nodup_cons] at hnd
    obtain ⟨k, l⟩ := a
    rcases List.mem_cons.mp he with h | h
    · subst h; simp [List.lookup_cons]
    · have hne : e.1 ≠ k := by
        intro hk
        apply hnd.1
        rw [← hk]
        exact List.mem_map.mpr ⟨e, h, rfl⟩
      rw [List.lookup_cons]
      have hb : (e.1 == k) = false := by simpa using hne
      rw [hb]
      exact ih hnd.2 e h

theorem frameDamage_same (snapshot : List (ViewId × ViewLook)) :
    ∀ frame : List (ViewId × ViewLook), (∀ e ∈ frame, snapshot.lookup e.1 = some e.2) →
      frameDamage snapshot frame = [] := by
  intro frame
  induction frame with
  | nil => intro _; rfl
  | cons a rest ih =>
    intro h
    rw [frameDamage, ih (fun e he => h e (List.mem_cons_of_mem a he))]
    have ha := h a (List.mem_cons_self a rest)
    unfold viewDamage
    by_cases hz : zeroArea a.2 = true
    · rw [if_pos hz]; rfl
    · rw [if_neg hz, ha]
      simp

/-- C21: for every state of a render target and every frame in which each view
occurs once, the damage pass run on the state left by a first pass over the same
frame yields the empty damage region and leaves the state of the target as it
is. -/
theorem damagePass_idempotent (t : TargetState) (frame : List (ViewId × ViewLook))
    (hnodup : (frame.map Prod.fst).Nodup) :
    (damagePass (damagePass t frame).2 frame).1 = [] ∧
    (damagePass (damagePass t frame).2 frame).2 = (damagePass t frame).2 := by
  constructor
  · simp only [damagePass, Bool.false_eq_true, if_false]
    rw [frameDamage_same frame frame (lookup_of_mem_nodup frame hnodup)]
    rfl
  · rfl

/-- Witness for C21: the first pass of `freshTarget` over `twoViewFrame` damages the
boxes of both views, the second pass nothing. -/
theorem damagePass_idempotent_witness :
    (twoViewFrame.map Prod.fst).Nodup ∧
    (damagePass freshTarget twoViewFrame).1 =
      [{ x1 := 5, y1 := 5, x2 := 15, y2 := 15 }, { x1 := 20, y1 := 20, x2 := 70, y2 := 70 }] ∧
    (damagePass (damagePass freshTarget twoViewFrame).2 twoViewFrame).1 = [] :=
  ⟨by decide, by decide, (damagePass_idempotent freshTarget twoViewFrame (by decide)).1⟩

end Louvre
